import Mathlib

/-!
# Recurrence rules of go_final_project: parser and next-date evaluators

A shallow embedding of `packages/parser/parser.go` and
`packages/dateparser/dateparser.go`, together with the part of Go's `time`,
`strings`, `strconv` and `sort` packages these files call.

A `time.Time` is represented by an `Int`: the number of whole days elapsed since
0001-01-01 00:00 UTC, so that the zero value `time.Time{}` is `0`.  Every time
value handled here is a UTC midnight (the result of `time.Parse("20060102", _)`
or of `time.Date(y, m, d, 0, 0, 0, 0, time.UTC)`).  Go strings are lists of
characters, Go `int`s are integers (all values that occur are far from the
64-bit bounds).
-/

namespace GoFinalProject

/-! ## Package `time` -/

/-- Go `time.isLeap`. -/
def isLeap (year : Int) : Bool :=
  year % 4 == 0 && (year % 100 != 0 || year % 400 == 0)

/-- Go `time.daysSinceEpoch`, counted from year 1 (Go counts from a year that is
a multiple of 400 years earlier, which shifts the result by a constant). -/
def daysSinceEpoch (year : Int) : Int :=
  let y := year - 1
  let n := y / 400
  let y := y - 400 * n
  let d := 146097 * n
  let n := y / 100
  let y := y - 100 * n
  let d := d + 36524 * n
  let n := y / 4
  let y := y - 4 * n
  let d := d + 1461 * n
  d + 365 * y

/-- Go `time.daysBefore`: days of a non-leap year before the month with index `i + 1`. -/
def daysBefore (i : Int) : Int :=
  [0, 31, 59, 90, 120, 151, 181, 212, 243, 273, 304, 334, 365].getD i.toNat 0

/-- Go `time.Date(year, month, day, 0, 0, 0, 0, time.UTC)`: the month is normalised
into the year, the day is an offset that may run over the month. -/
def timeDate (year month day : Int) : Int :=
  let m := month - 1
  let year := year + m / 12
  let m := m % 12
  let month := m + 1
  let d := daysSinceEpoch year
  let d := d + daysBefore (month - 1)
  let d := if isLeap year && decide (month ≥ 3) then d + 1 else d
  d + (day - 1)

/-- Year part of Go `time.absDate`: the year and the zero-based day of the year. -/
def absYearDay (abs : Int) : Int × Int :=
  let d := abs
  let n := d / 146097
  let y := 400 * n
  let d := d - 146097 * n
  let n := d / 36524
  let n := n - n / 4
  let y := y + 100 * n
  let d := d - 36524 * n
  let n := d / 1461
  let y := y + 4 * n
  let d := d - 1461 * n
  let n := d / 365
  let n := n - n / 4
  let y := y + n
  let d := d - 365 * n
  (y + 1, d)

/-- Month part of Go `time.absDate`: month and day of month from the day of the year. -/
def monthDay (leap : Bool) (yday : Int) : Int × Int :=
  let day := yday
  if leap && decide (day = 31 + 29 - 1) then (2, 29)
  else
    let day := if leap && decide (day > 31 + 29 - 1) then day - 1 else day
    let month := day / 31
    let e := daysBefore (month + 1)
    if day ≥ e then (month + 2, day - e + 1)
    else (month + 1, day - daysBefore month + 1)

/-- Go `time.absDate`: year, month and day of month of a day number. -/
def absDate (abs : Int) : Int × Int × Int :=
  let yd := absYearDay abs
  (yd.1, monthDay (isLeap yd.1) yd.2)

/-- Go `time.daysIn`: the number of days of month `m` in `year`. -/
def daysIn (m : Int) (year : Int) : Int :=
  if m = 2 ∧ isLeap year = true then 29 else daysBefore m - daysBefore (m - 1)

/-- Go `Time.Year`. -/
def Year (t : Int) : Int := (absDate t).1

/-- Go `Time.Month`. -/
def Month (t : Int) : Int := (absDate t).2.1

/-- Go `Time.Day`. -/
def Day (t : Int) : Int := (absDate t).2.2

/-- Go `Time.Weekday`: 0 is Sunday, 1 is Monday, ..., 6 is Saturday (0001-01-01 is a Monday). -/
def Weekday (t : Int) : Int := (t + 1) % 7

/-- Go `Time.AddDate`. -/
def AddDate (t : Int) (years months days : Int) : Int :=
  timeDate (Year t + years) (Month t + months) (Day t + days)

/-- Go `Time.After`. -/
def After (t u : Int) : Bool := decide (t > u)

/-- Go `time.appendInt`: decimal digits of `x`, zero-padded to `width`, with a sign if negative. -/
def appendInt (x : Int) (width : Nat) : List Char :=
  let digits := Nat.toDigits 10 x.natAbs
  (if x < 0 then ['-'] else []) ++ List.replicate (width - digits.length) '0' ++ digits

/-- Go `Time.Format("20060102")`. -/
def Format20060102 (t : Int) : List Char :=
  appendInt (Year t) 4 ++ appendInt (Month t) 2 ++ appendInt (Day t) 2

/-! ## Packages `strings`, `strconv`, `sort` -/

/-- Go `strings.Split(s, sep)` for a one-character separator. -/
def Split (sep : Char) : List Char → List (List Char)
  | [] => [[]]
  | c :: cs =>
    if c = sep then [] :: Split sep cs
    else
      match Split sep cs with
      | [] => [[c]]
      | t :: ts => (c :: t) :: ts

/-- Value of a decimal digit, as in the loop of Go `strconv.Atoi`. -/
def digitVal (c : Char) : Option Nat :=
  if '0' ≤ c ∧ c ≤ '9' then some (c.toNat - '0'.toNat) else none

/-- Digit loop of Go `strconv.Atoi`. -/
def parseDigits : List Char → Nat → Option Nat
  | [], n => some n
  | ch :: rest, n =>
    match digitVal ch with
    | none => none
    | some v => parseDigits rest (n * 10 + v)

/-- Go `strconv.Atoi` on a 64-bit platform: an optional sign, at least one decimal
digit, nothing else, and a value that fits `int`; `none` stands for an error. -/
def Atoi (s : List Char) : Option Int :=
  let body := match s with
    | '-' :: r => r
    | '+' :: r => r
    | _ => s
  if body = [] then none
  else
    match parseDigits body 0 with
    | none => none
    | some n =>
      let v : Int := if s.head? = some '-' then -(n : Int) else (n : Int)
      if -(2 : Int) ^ 63 ≤ v ∧ v < (2 : Int) ^ 63 then some v else none

/-- Go `sort.Ints`: the ascending rearrangement of the slice. -/
def sortInts (l : List Int) : List Int := l.insertionSort (fun a b => a ≤ b)

/-! ## Package `parser` -/

/-- Errors returned by the parser and the evaluators, one per `fmt.Errorf` call site. -/
inductive Err where
  | emptyRepeat
  | unknownIdentifier
  | dNotANumber
  | dOutOfRange
  | wRule
  | wDays
  | mRule
  | mDayNotANumber
  | mDayOutOfRange
  | mMonth
  | mDaysAndMonths
  deriving DecidableEq

/-- Outcome of a Go call with an `error` result: a value, an error, or a run-time
panic (index out of range). -/
inductive Res (α : Type) where
  | ok (v : α)
  | error (e : Err)
  | panic
  deriving DecidableEq

/-- The struct `DRepeat`. -/
structure DRepeat where
  num : Int
  deriving DecidableEq

/-- The struct `YRepeat`. -/
structure YRepeat where
  deriving DecidableEq

/-- The struct `WRepeat`. -/
structure WRepeat where
  nums : List Int
  deriving DecidableEq

/-- The struct `MRepeat`. -/
structure MRepeat where
  mDays : List Int
  mMonths : List Int
  deriving DecidableEq

/-- The interface `RepeatRule` with its four implementations. -/
inductive RepeatRule where
  | y (yr : YRepeat)
  | d (dr : DRepeat)
  | w (wr : WRepeat)
  | m (mr : MRepeat)
  deriving DecidableEq

/-- The function `Date` of parser.go. -/
def Date (year month day : Int) : Int := timeDate year month day

/-- The function `startDateForMWrule`. -/
def startDateForMWrule (now date : Int) : Int :=
  if After date now then date else now

/-- The function `ParseDRepeat`; `rule[1]` panics when the slice has one element. -/
def ParseDRepeat (rule : List (List Char)) : Res DRepeat :=
  match rule[1]? with
  | none => .panic
  | some r1 =>
    match Atoi r1 with
    | none => .error .dNotANumber
    | some next =>
      if next > 0 ∧ next ≤ 365 then .ok { num := next }
      else .error .dOutOfRange

/-- Loop of `DRepeat.GetNextDate`, run for at most `fuel` iterations. -/
def DRepeat.loop (dr : DRepeat) (now : Int) : Nat → Int → Option Int
  | 0, _ => none
  | fuel + 1, result =>
    let result := AddDate result 0 0 dr.num
    if After result now then some result
    else DRepeat.loop dr now fuel result

/-- The method `DRepeat.GetNextDate`; `none` when `fuel` iterations do not suffice. -/
def DRepeat.GetNextDate (dr : DRepeat) (fuel : Nat) (now date : Int) : Option (Res Int) :=
  (DRepeat.loop dr now fuel date).map Res.ok

/-- The function `ParseYRepeat`. -/
def ParseYRepeat (_rule : List (List Char)) : Res YRepeat := .ok {}

/-- Loop of `YRepeat.GetNextDate`, run for at most `fuel` iterations from counter `i`. -/
def YRepeat.loop (now date : Int) : Nat → Int → Option Int
  | 0, _ => none
  | fuel + 1, i =>
    let result := AddDate date i 0 0
    if After result now then some result
    else YRepeat.loop now date fuel (i + 1)

/-- The method `YRepeat.GetNextDate`; `none` when `fuel` iterations do not suffice. -/
def YRepeat.GetNextDate (_yr : YRepeat) (fuel : Nat) (now date : Int) : Option (Res Int) :=
  (YRepeat.loop now date fuel 1).map Res.ok

/-- Loop of `ParseWRepeat` over the comma-separated entries. -/
def ParseWRepeat.loop : List (List Char) → List Int → Res (List Int)
  | [], weekDays => .ok weekDays
  | x :: rest, weekDays =>
    match Atoi x with
    | none => .error .wDays
    | some num =>
      if num > 7 ∨ num < 1 then .error .wDays
      else ParseWRepeat.loop rest (weekDays ++ [num])

/-- The function `ParseWRepeat`. -/
def ParseWRepeat (rule : List (List Char)) : Res WRepeat :=
  if rule.length = 1 then .error .wRule
  else
    match rule[1]? with
    | none => .panic
    | some r1 =>
      match ParseWRepeat.loop (Split ',' r1) [] with
      | .ok weekDays => .ok { nums := weekDays }
      | .error e => .error e
      | .panic => .panic

/-- The method `WRepeat.GetNextDate`. -/
def WRepeat.GetNextDate (wr : WRepeat) (now date : Int) : Res Int :=
  let startdate := startDateForMWrule now date
  let todayWeekday := Weekday startdate
  let nums := sortInts wr.nums
  let numDay := if todayWeekday = 7 then 0 else todayWeekday
  match nums.find? (fun n => decide (n > numDay)) with
  | some n => .ok (AddDate startdate 0 0 (n - numDay))
  | none =>
    let increment := 7 - Weekday startdate
    match nums.head? with
    | none => .panic
    | some n0 => .ok (AddDate startdate 0 0 (increment + n0))

/-- The method `MRepeat.hasMonths`. -/
def MRepeat.hasMonths (mr : MRepeat) : Bool := decide (mr.mMonths.length > 0)

/-- Day loop of `ParseMRepeat`: the sentinels -1 and -2 are resolved in the month of `startdate`. -/
def ParseMRepeat.daysLoop (startdate : Int) : List (List Char) → List Int → Res (List Int)
  | [], days => .ok days
  | day :: rest, days =>
    match Atoi day with
    | none => .error .mDayNotANumber
    | some num =>
      if num ≥ 1 ∧ num ≤ 31 then ParseMRepeat.daysLoop startdate rest (days ++ [num])
      else if num = -1 then
        let t := Date (Year startdate) (Month startdate + 1) 0
        ParseMRepeat.daysLoop startdate rest (days ++ [Day t])
      else if num = -2 then
        let t := Date (Year startdate) (Month startdate + 1) 0
        ParseMRepeat.daysLoop startdate rest (days ++ [Day t - 1])
      else .error .mDayOutOfRange

/-- Month loop of `ParseMRepeat`. -/
def ParseMRepeat.monthsLoop : List (List Char) → List Int → Res (List Int)
  | [], months => .ok months
  | month :: rest, months =>
    match Atoi month with
    | none => .error .mMonth
    | some num =>
      if num < 1 ∨ num > 12 then .error .mMonth
      else ParseMRepeat.monthsLoop rest (months ++ [num])

/-- The function `ParseMRepeat`. -/
def ParseMRepeat (rule : List (List Char)) (now date : Int) : Res MRepeat :=
  if rule.length = 1 ∨ rule.length > 3 then .error .mRule
  else
    let hasMonths := decide (rule.length = 3)
    match rule[1]? with
    | none => .panic
    | some r1 =>
      let daysInRule := Split ',' r1
      let startdate := startDateForMWrule now date
      match ParseMRepeat.daysLoop startdate daysInRule [] with
      | .error e => .error e
      | .panic => .panic
      | .ok days =>
        if hasMonths then
          match rule[2]? with
          | none => .panic
          | some r2 =>
            match ParseMRepeat.monthsLoop (Split ',' r2) [] with
            | .error e => .error e
            | .panic => .panic
            | .ok months => .ok { mDays := days, mMonths := months }
        else .ok { mDays := days, mMonths := [] }

/-- Outcome of an inner day loop of `ruleMwithMonth`: a date to return, or the
start date with which the month loop goes on. -/
inductive DayScan where
  | found (gotDay : Int)
  | goOn (startdate : Int)
  deriving DecidableEq

/-- Inner loop of `ruleMwithMonth` in the branch `month == startdate.Month()`. -/
def ruleMwithMonth.sameMonth (dayInMonth : Int) : List Int → Int → DayScan
  | [], startdate => .goOn startdate
  | day :: rest, startdate =>
    if day > Day startdate ∧ day ≤ dayInMonth then
      .found (Date (Year startdate) (Month startdate) day)
    else if day > Day startdate ∧ day > dayInMonth then
      ruleMwithMonth.sameMonth dayInMonth rest (Date (Year startdate) (Month startdate + 1) 1)
    else ruleMwithMonth.sameMonth dayInMonth rest startdate

/-- Inner loop of `ruleMwithMonth` in the branch `month > startdate.Month()`. -/
def ruleMwithMonth.laterMonth (dayInMonth : Int) : List Int → Int → DayScan
  | [], startdate => .goOn startdate
  | day :: rest, startdate =>
    if day ≥ Day startdate ∧ day ≤ dayInMonth then
      .found (Date (Year startdate) (Month startdate) day)
    else if day > Day startdate ∧ day > dayInMonth then
      ruleMwithMonth.laterMonth dayInMonth rest (Date (Year startdate) (Month startdate + 1) 1)
    else ruleMwithMonth.laterMonth dayInMonth rest startdate

/-- Month loop of `ruleMwithMonth`; falling off the end returns the zero time. -/
def ruleMwithMonth.loop (mDays : List Int) : List Int → Int → Int
  | [], _ => 0
  | month :: rest, startdate =>
    if month = Month startdate then
      let startdate := Date (Year startdate) month 1
      let t := Date (Year startdate) (Month startdate + 1) 0
      let dayInMonth := Day t
      match ruleMwithMonth.sameMonth dayInMonth mDays startdate with
      | .found gotDay => gotDay
      | .goOn startdate => ruleMwithMonth.loop mDays rest startdate
    else if month > Month startdate then
      let startdate := Date (Year startdate) month 1
      let t := Date (Year startdate) (Month startdate + 1) 0
      let dayInMonth := Day t
      match ruleMwithMonth.laterMonth dayInMonth mDays startdate with
      | .found gotDay => gotDay
      | .goOn startdate => ruleMwithMonth.loop mDays rest startdate
    else ruleMwithMonth.loop mDays rest startdate

/-- The function `ruleMwithMonth`. -/
def ruleMwithMonth (startdate : Int) (mDays mMonths : List Int) : Int :=
  ruleMwithMonth.loop mDays mMonths startdate

/-- The method `MRepeat.GetNextDate`. -/
def MRepeat.GetNextDate (mr : MRepeat) (now date : Int) : Res Int :=
  let startdate := startDateForMWrule now date
  let mDays := sortInts mr.mDays
  let nextDay : Int := 0
  if !mr.hasMonths then
    match mDays.find? (fun day => decide (day > Day startdate)) with
    | some day =>
      let nextDay := AddDate startdate 0 0 (day - Day startdate)
      let nextDay :=
        if Day nextDay ≠ day then Date (Year startdate) (Month startdate + 1) day else nextDay
      .ok nextDay
    | none =>
      if nextDay = Date 1 1 1 then
        let startdate := Date (Year startdate) (Month startdate + 1) 1
        match mDays.find? (fun day => decide (day ≥ Day startdate)) with
        | some day => .ok (AddDate startdate 0 0 (day - Day startdate))
        | none => .error .mDaysAndMonths
      else .error .mDaysAndMonths
  else
    let mMonths := sortInts mr.mMonths
    .ok (ruleMwithMonth startdate mDays mMonths)

/-- Dispatch of `GetNextDate` through the interface `RepeatRule`. -/
def RepeatRule.GetNextDate (pr : RepeatRule) (fuel : Nat) (now date : Int) : Option (Res Int) :=
  match pr with
  | .y yr => yr.GetNextDate fuel now date
  | .d dr => dr.GetNextDate fuel now date
  | .w wr => some (wr.GetNextDate now date)
  | .m mr => some (mr.GetNextDate now date)

/-- The function `ParseRepeat`. -/
def ParseRepeat (now date : Int) (rep : List Char) : Res RepeatRule :=
  if rep = [] then .error .emptyRepeat
  else
    let rule := Split ' ' rep
    match rule.head? with
    | none => .panic
    | some r0 =>
      if r0 = ['y'] then
        match ParseYRepeat rule with
        | .ok yr => .ok (.y yr)
        | .error e => .error e
        | .panic => .panic
      else if r0 = ['d'] then
        match ParseDRepeat rule with
        | .ok dr => .ok (.d dr)
        | .error e => .error e
        | .panic => .panic
      else if r0 = ['w'] then
        match ParseWRepeat rule with
        | .ok wr => .ok (.w wr)
        | .error e => .error e
        | .panic => .panic
      else if r0 = ['m'] then
        match ParseMRepeat rule now date with
        | .ok mr => .ok (.m mr)
        | .error e => .error e
        | .panic => .panic
      else .error .unknownIdentifier

/-! ## Package `dateparser` -/

/-- The function `NextDate`; `none` when the evaluator needs more than `fuel` iterations. -/
def NextDate (fuel : Nat) (now date : Int) (rep : List Char) : Option (Res (List Char)) :=
  match ParseRepeat now date rep with
  | .error e => some (.error e)
  | .panic => some .panic
  | .ok pr =>
    match pr.GetNextDate fuel now date with
    | none => none
    | some (.error e) => some (.error e)
    | some .panic => some .panic
    | some (.ok d) => some (.ok (Format20060102 d))

/-! ## Auxiliary definitions used in the statements and proofs -/

/-- The extra day of a leap year: 1 when `y` is a leap year, else 0. -/
def leapDay (y : Int) : Int := if isLeap y then 1 else 0

/-- Length of month `m`, given whether the year is a leap year (`daysIn` without the year). -/
def monthLen (leap : Bool) (m : Int) : Int :=
  if m = 2 ∧ leap = true then 29 else daysBefore m - daysBefore (m - 1)

/-- Days of the year before the first day of month `m`, as added up in `timeDate`. -/
def monthOffset (leap : Bool) (m : Int) : Int :=
  daysBefore (m - 1) + (if leap && decide (m ≥ 3) then 1 else 0)

/-- Weekday number used by the rule `w`: 1 is Monday, ..., 7 is Sunday. -/
def weekdayNumber (t : Int) : Int := if Weekday t = 0 then 7 else Weekday t

/-- Reference procedure for the yearly rule, following the specification: add one
calendar year to the running date, normalising the result, until it is strictly
after `now`; at most `fuel` additions. -/
def yearlyReference (now : Int) : Nat → Int → Option Int
  | 0, _ => none
  | fuel + 1, running =>
    let next := AddDate running 1 0 0
    if After next now then some next
    else yearlyReference now fuel next

/-- The invariant that the parser establishes on each kind of rule. -/
def RepeatRule.WellFormed : RepeatRule → Prop
  | .y _ => True
  | .d dr => 1 ≤ dr.num ∧ dr.num ≤ 365
  | .w wr => wr.nums ≠ [] ∧ ∀ s ∈ wr.nums, 1 ≤ s ∧ s ≤ 7
  | .m mr => mr.mDays ≠ [] ∧ (∀ d ∈ mr.mDays, 1 ≤ d ∧ d ≤ 31) ∧
      (∀ m ∈ mr.mMonths, 1 ≤ m ∧ m ≤ 12)

/-- The four decimal digits of a number below 10000, most significant first. -/
def fourDigits (n : Nat) : List Char :=
  [Nat.digitChar (n / 10 / 10 / 10 % 10), Nat.digitChar (n / 10 / 10 % 10),
    Nat.digitChar (n / 10 % 10), Nat.digitChar (n % 10)]

/-- The two decimal digits of a number below 100, most significant first. -/
def twoDigits (n : Nat) : List Char :=
  [Nat.digitChar (n / 10 % 10), Nat.digitChar (n % 10)]

/-! ## The calendar: `absDate` inverts `timeDate` -/


theorem isLeap_iff (y : Int) : isLeap y = true ↔ (y % 4 = 0 ∧ (y % 100 ≠ 0 ∨ y % 400 = 0)) := by
  simp [isLeap]


theorem daysSinceEpoch_closed (y : Int) :
    daysSinceEpoch y = 365 * (y - 1) + (y - 1) / 4 - (y - 1) / 100 + (y - 1) / 400 := by
  unfold daysSinceEpoch
  simp only
  omega

theorem daysSinceEpoch_succ (y : Int) :
    daysSinceEpoch (y + 1) = daysSinceEpoch y + 365 + leapDay y := by
  rw [daysSinceEpoch_closed, daysSinceEpoch_closed]
  unfold leapDay
  split
  next h => rw [isLeap_iff] at h; omega
  next h => rw [isLeap_iff] at h; omega

theorem daysSinceEpoch_strictMono : StrictMono daysSinceEpoch := by
  apply strictMono_int_of_lt_succ
  intro y
  rw [daysSinceEpoch_succ]
  unfold leapDay
  split <;> omega


theorem absYearDay_core (t a n1 c n3 : Int)
    (ha : a = t / 146097) (hn1 : n1 = (t - 146097 * a) / 36524)
    (hc : c = (t - 146097 * a - 36524 * (n1 - n1 / 4)) / 1461)
    (hn3 : n3 = (t - 146097 * a - 36524 * (n1 - n1 / 4) - 1461 * c) / 365) :
    let y := 400 * a + 100 * (n1 - n1 / 4) + 4 * c + (n3 - n3 / 4)
    let yd := t - 146097 * a - 36524 * (n1 - n1 / 4) - 1461 * c - 365 * (n3 - n3 / 4)
    365 * y + y / 4 - y / 100 + y / 400 + yd = t ∧ 0 ≤ yd ∧
      (yd < 365 ∨ (yd = 365 ∧ (y + 1) % 4 = 0 ∧ ((y + 1) % 100 ≠ 0 ∨ (y + 1) % 400 = 0))) := by
  intro y yd
  have h1 : n1 = 0 ∨ n1 = 1 ∨ n1 = 2 ∨ n1 = 3 ∨ n1 = 4 := by omega
  have h3 : n3 = 0 ∨ n3 = 1 ∨ n3 = 2 ∨ n3 = 3 ∨ n3 = 4 := by omega
  have hc0 : 0 ≤ c ∧ c ≤ 24 := by omega
  rcases h1 with h1 | h1 | h1 | h1 | h1 <;> rcases h3 with h3 | h3 | h3 | h3 | h3 <;>
    subst h1 <;> subst h3 <;> simp only [y, yd] <;> omega

theorem absYearDay_spec (t : Int) :
    daysSinceEpoch (absYearDay t).1 + (absYearDay t).2 = t ∧ 0 ≤ (absYearDay t).2 ∧
      (absYearDay t).2 < 365 + leapDay (absYearDay t).1 := by
  have h := absYearDay_core t _ _ _ _ rfl rfl rfl rfl
  simp only at h
  rw [daysSinceEpoch_closed]
  unfold leapDay
  simp only [isLeap_iff]
  unfold absYearDay
  simp only [add_sub_cancel_right]
  refine ⟨h.1, h.2.1, ?_⟩
  rcases h.2.2 with h2 | h2
  · split <;> omega
  · rw [if_pos h2.2]; omega


set_option maxRecDepth 100000 in
theorem monthDay_table : ∀ leap : Bool, ∀ n : Fin 366,
    ((n.val : Int) < 365 + (if leap then 1 else 0)) →
      1 ≤ (monthDay leap n.val).1 ∧ (monthDay leap n.val).1 ≤ 12 ∧
      1 ≤ (monthDay leap n.val).2 ∧
      (monthDay leap n.val).2 ≤ monthLen leap (monthDay leap n.val).1 ∧
      monthOffset leap (monthDay leap n.val).1 + ((monthDay leap n.val).2 - 1) = n.val := by
  decide

set_option maxRecDepth 100000 in
theorem monthDay_inv_table : ∀ leap : Bool, ∀ m : Fin 13, ∀ d : Fin 32,
    1 ≤ m.val → 1 ≤ d.val → (d.val : Int) ≤ monthLen leap m.val →
      monthDay leap (monthOffset leap m.val + ((d.val : Int) - 1)) = ((m.val : Int), (d.val : Int)) ∧
      0 ≤ monthOffset leap m.val + ((d.val : Int) - 1) ∧
      monthOffset leap m.val + ((d.val : Int) - 1) < 365 + (if leap then 1 else 0) := by
  decide


theorem monthLen_table : ∀ leap : Bool, ∀ m : Fin 13, 1 ≤ m.val →
    28 ≤ monthLen leap m.val ∧ monthLen leap m.val ≤ 31 ∧
    monthOffset leap ((m.val : Int) + 1) = monthOffset leap m.val + monthLen leap m.val := by
  decide

theorem monthDay_spec (leap : Bool) (yd : Int) (h0 : 0 ≤ yd)
    (h1 : yd < 365 + (if leap then 1 else 0)) :
    1 ≤ (monthDay leap yd).1 ∧ (monthDay leap yd).1 ≤ 12 ∧ 1 ≤ (monthDay leap yd).2 ∧
      (monthDay leap yd).2 ≤ monthLen leap (monthDay leap yd).1 ∧
      monthOffset leap (monthDay leap yd).1 + ((monthDay leap yd).2 - 1) = yd := by
  lift yd to ℕ using h0
  have hlt : yd < 366 := by split at h1 <;> omega
  exact monthDay_table leap ⟨yd, hlt⟩ h1

theorem monthLen_bounds (leap : Bool) (m : Int) (hm : 1 ≤ m) (hm12 : m ≤ 12) :
    28 ≤ monthLen leap m ∧ monthLen leap m ≤ 31 ∧
    monthOffset leap (m + 1) = monthOffset leap m + monthLen leap m := by
  lift m to ℕ using (by omega)
  have hlt : m < 13 := by omega
  exact monthLen_table leap ⟨m, hlt⟩ (by exact_mod_cast hm)

theorem monthDay_inv (leap : Bool) (m d : Int) (hm : 1 ≤ m) (hm12 : m ≤ 12) (hd : 1 ≤ d)
    (hd2 : d ≤ monthLen leap m) :
    monthDay leap (monthOffset leap m + (d - 1)) = (m, d) ∧
      0 ≤ monthOffset leap m + (d - 1) ∧
      monthOffset leap m + (d - 1) < 365 + (if leap then 1 else 0) := by
  have hb := monthLen_bounds leap m hm hm12
  lift m to ℕ using (by omega)
  lift d to ℕ using (by omega)
  have hmlt : m < 13 := by omega
  have hdlt : d < 32 := by omega
  exact monthDay_inv_table leap ⟨m, hmlt⟩ ⟨d, hdlt⟩ (by exact_mod_cast hm) (by exact_mod_cast hd) hd2

theorem daysIn_eq (m y : Int) : daysIn m y = monthLen (isLeap y) m := rfl

theorem timeDate_norm (y m d : Int) :
    timeDate y m d = daysSinceEpoch (y + (m - 1) / 12) +
      monthOffset (isLeap (y + (m - 1) / 12)) ((m - 1) % 12 + 1) + (d - 1) := by
  unfold timeDate monthOffset
  simp only [add_sub_cancel_right]
  rw [show ∀ (c : Bool) (a : Int), (if c then a + 1 else a) = a + (if c then 1 else 0) from by
    intro c a; cases c <;> simp]
  ring

theorem timeDate_valid (y m d : Int) (hm : 1 ≤ m) (hm12 : m ≤ 12) :
    timeDate y m d = daysSinceEpoch y + monthOffset (isLeap y) m + (d - 1) := by
  rw [timeDate_norm]
  have h1 : (m - 1) / 12 = 0 := by omega
  have h2 : (m - 1) % 12 + 1 = m := by omega
  rw [h1, h2, add_zero]

theorem absYearDay_unique (y yd : Int) (h0 : 0 ≤ yd) (h1 : yd < 365 + leapDay y) :
    absYearDay (daysSinceEpoch y + yd) = (y, yd) := by
  obtain ⟨e, p, q⟩ := absYearDay_spec (daysSinceEpoch y + yd)
  have hy : (absYearDay (daysSinceEpoch y + yd)).1 = y := by
    have a1 : daysSinceEpoch (absYearDay (daysSinceEpoch y + yd)).1 < daysSinceEpoch (y + 1) := by
      rw [daysSinceEpoch_succ]; omega
    have a2 : daysSinceEpoch y < daysSinceEpoch ((absYearDay (daysSinceEpoch y + yd)).1 + 1) := by
      rw [daysSinceEpoch_succ]; omega
    have b1 := daysSinceEpoch_strictMono.lt_iff_lt.mp a1
    have b2 := daysSinceEpoch_strictMono.lt_iff_lt.mp a2
    omega
  have hd : (absYearDay (daysSinceEpoch y + yd)).2 = yd := by
    rw [hy] at e; omega
  exact Prod.ext hy hd

theorem absDate_timeDate (y m d : Int) (hm : 1 ≤ m) (hm12 : m ≤ 12) (hd : 1 ≤ d)
    (hd2 : d ≤ daysIn m y) : absDate (timeDate y m d) = (y, m, d) := by
  rw [timeDate_valid y m d hm hm12]
  obtain ⟨a, b, c⟩ := monthDay_inv (isLeap y) m d hm hm12 hd hd2
  have hu := absYearDay_unique y (monthOffset (isLeap y) m + (d - 1)) b c
  unfold absDate
  rw [add_assoc, hu]
  simp only [a]

theorem absDate_valid (t : Int) :
    1 ≤ Month t ∧ Month t ≤ 12 ∧ 1 ≤ Day t ∧ Day t ≤ daysIn (Month t) (Year t) := by
  obtain ⟨_, p, q⟩ := absYearDay_spec t
  obtain ⟨a, b, c, d, _⟩ := monthDay_spec (isLeap (absYearDay t).1) (absYearDay t).2 p q
  exact ⟨a, b, c, d⟩

theorem timeDate_absDate (t : Int) : timeDate (Year t) (Month t) (Day t) = t := by
  obtain ⟨hm, hm12, _, _⟩ := absDate_valid t
  rw [timeDate_valid _ _ _ hm hm12]
  obtain ⟨e, p, q⟩ := absYearDay_spec t
  obtain ⟨_, _, _, _, f⟩ := monthDay_spec (isLeap (absYearDay t).1) (absYearDay t).2 p q
  unfold Year Month Day absDate
  simp only
  rw [add_assoc, f]
  exact e

theorem timeDate_add_day (y m d k : Int) : timeDate y m (d + k) = timeDate y m d + k := by
  rw [timeDate_norm, timeDate_norm, add_sub_right_comm d k 1, ← add_assoc]

theorem AddDate_days (t : Int) (k : Int) : AddDate t 0 0 k = t + k := by
  unfold AddDate
  rw [add_zero, add_zero, timeDate_add_day, timeDate_absDate]

theorem timeDate_next_month (y m : Int) (hm : 1 ≤ m) (hm12 : m ≤ 12) :
    timeDate y (m + 1) 1 = timeDate y m 1 + daysIn m y := by
  obtain ⟨_, _, h⟩ := monthLen_bounds (isLeap y) m hm hm12
  rw [timeDate_valid y m 1 hm hm12, daysIn_eq]
  by_cases h12 : m = 12
  · subst h12
    rw [timeDate_norm]
    norm_num
    rw [daysSinceEpoch_succ]
    unfold leapDay
    cases isLeap y <;> simp [monthOffset, monthLen, daysBefore] <;> omega
  · rw [timeDate_valid y (m + 1) 1 (by omega) (by omega), h]; omega

/-! ## Basic facts about the evaluators -/

theorem After_iff (t u : Int) : After t u = true ↔ u < t := by
  simp [After]

theorem startDate_eq_max (now date : Int) : startDateForMWrule now date = max now date := by
  unfold startDateForMWrule
  split
  next h => rw [After_iff] at h; omega
  next h => rw [After_iff] at h; omega

theorem Weekday_range (t : Int) : 0 ≤ Weekday t ∧ Weekday t ≤ 6 := by
  unfold Weekday; omega

/-! ## The rule `d` -/

theorem DRepeat_loop_succ (dr : DRepeat) (now : Int) (fuel : Nat) (r : Int) :
    DRepeat.loop dr now (fuel + 1) r =
      if After (r + dr.num) now then some (r + dr.num)
      else DRepeat.loop dr now fuel (r + dr.num) := by
  simp only [DRepeat.loop, AddDate_days]

theorem DRepeat_loop_mono (dr : DRepeat) (now : Int) :
    ∀ (fuel : Nat) (r v : Int), DRepeat.loop dr now fuel r = some v →
      ∀ fuel2, fuel ≤ fuel2 → DRepeat.loop dr now fuel2 r = some v := by
  intro fuel
  induction fuel with
  | zero => intro r v h; simp [DRepeat.loop] at h
  | succ f ih =>
    intro r v h fuel2 hle
    obtain ⟨g, rfl⟩ : ∃ g, fuel2 = g + 1 := ⟨fuel2 - 1, by omega⟩
    rw [DRepeat_loop_succ] at h ⊢
    split at h
    next hc => rw [if_pos hc]; exact h
    next hc => rw [if_neg hc]; exact ih _ _ h g (by omega)

theorem DRepeat_loop_sound (dr : DRepeat) (now : Int) :
    ∀ (fuel : Nat) (r v : Int), DRepeat.loop dr now fuel r = some v →
      ∃ k : Nat, 1 ≤ k ∧ v = r + k * dr.num ∧ now < v ∧
        ∀ j : Nat, 1 ≤ j → j < k → r + j * dr.num ≤ now := by
  intro fuel
  induction fuel with
  | zero => intro r v h; simp [DRepeat.loop] at h
  | succ f ih =>
    intro r v h
    rw [DRepeat_loop_succ] at h
    split at h
    next hc =>
      rw [After_iff] at hc
      injection h with h
      refine ⟨1, le_refl _, by rw [← h]; simp, by omega, ?_⟩
      intro j h1 h2; omega
    next hc =>
      rw [After_iff] at hc
      obtain ⟨k, hk1, hv, hlt, hmin⟩ := ih _ _ h
      refine ⟨k + 1, by omega, by rw [hv]; push_cast; ring, hlt, ?_⟩
      intro j h1 h2
      by_cases hj : j = 1
      · subst hj; simp; omega
      · have := hmin (j - 1) (by omega) (by omega)
        have e : ((j - 1 : Nat) : Int) = (j : Int) - 1 := by omega
        rw [e] at this
        linarith

theorem DRepeat_loop_terminates (dr : DRepeat) (now : Int) (hn : 1 ≤ dr.num) :
    ∀ (fuel : Nat) (r : Int), now < r + (fuel + 1) →
      ∃ v, DRepeat.loop dr now (fuel + 1) r = some v := by
  intro fuel
  induction fuel with
  | zero =>
    intro r h
    refine ⟨r + dr.num, ?_⟩
    rw [DRepeat_loop_succ, if_pos]
    rw [After_iff]; omega
  | succ f ih =>
    intro r h
    rw [DRepeat_loop_succ]
    by_cases hc : After (r + dr.num) now = true
    · exact ⟨_, by rw [if_pos hc]⟩
    · rw [if_neg hc]
      exact ih (r + dr.num) (by push_cast at h; omega)

/-- The result of `DRepeat.GetNextDate` for a positive interval. -/
theorem DRepeat_GetNextDate_spec (now date n : Int) (h1 : 1 ≤ n) :
    ∃ k : Nat, 1 ≤ k ∧ now < date + k * n ∧
      (∀ j : Nat, 1 ≤ j → j < k → date + j * n ≤ now) ∧
      (∃ fuel, DRepeat.GetNextDate { num := n } fuel now date = some (.ok (date + k * n))) ∧
      (∀ fuel r, DRepeat.GetNextDate { num := n } fuel now date = some r →
        r = .ok (date + k * n)) := by
  obtain ⟨v, hv⟩ := DRepeat_loop_terminates { num := n } now h1 (now - date).toNat date
    (by omega)
  obtain ⟨k, hk1, hvk, hlt, hmin⟩ := DRepeat_loop_sound _ _ _ _ _ hv
  simp only at hvk hmin
  subst hvk
  refine ⟨k, hk1, hlt, hmin, ⟨(now - date).toNat + 1, by simp [DRepeat.GetNextDate, hv]⟩, ?_⟩
  intro fuel r hr
  unfold DRepeat.GetNextDate at hr
  cases hl : DRepeat.loop { num := n } now fuel date with
  | none => simp [hl] at hr
  | some w =>
    have a := DRepeat_loop_mono _ _ _ _ _ hl (max fuel ((now - date).toNat + 1)) (le_max_left _ _)
    have b := DRepeat_loop_mono _ _ _ _ _ hv (max fuel ((now - date).toNat + 1)) (le_max_right _ _)
    rw [a] at b
    injection b with b
    simp [hl] at hr
    rw [← hr, b]

/-- C7: with an interval `n` in [1,365], `DRepeat.GetNextDate` returns `date` plus `k * n`
days for the smallest `k ≥ 1` that puts the result strictly after `now`: such a `k`
exists, enough fuel yields that date, and no amount of fuel yields anything else. -/
theorem DRepeat_GetNextDate_smallest_multiple (now date n : Int) (h1 : 1 ≤ n) (_h365 : n ≤ 365) :
    ∃ k : Nat, 1 ≤ k ∧ now < date + k * n ∧
      (∀ j : Nat, 1 ≤ j → j < k → date + j * n ≤ now) ∧
      (∃ fuel, DRepeat.GetNextDate { num := n } fuel now date = some (.ok (date + k * n))) ∧
      (∀ fuel r, DRepeat.GetNextDate { num := n } fuel now date = some r →
        r = .ok (date + k * n)) :=
  DRepeat_GetNextDate_spec now date n h1

/-- C7, witness: rule "d 7", date 20240101, now 20240105 (with the resulting string 20240108). -/
theorem DRepeat_GetNextDate_smallest_multiple_witness :
    NextDate 1 (timeDate 2024 1 5) (timeDate 2024 1 1) "d 7".toList = some (.ok "20240108".toList) ∧
    ∃ k : Nat, 1 ≤ k ∧ timeDate 2024 1 5 < timeDate 2024 1 1 + k * 7 ∧
      (∀ j : Nat, 1 ≤ j → j < k → timeDate 2024 1 1 + j * 7 ≤ timeDate 2024 1 5) ∧
      (∃ fuel, DRepeat.GetNextDate { num := 7 } fuel (timeDate 2024 1 5) (timeDate 2024 1 1) =
        some (.ok (timeDate 2024 1 1 + k * 7))) ∧
      (∀ fuel r, DRepeat.GetNextDate { num := 7 } fuel (timeDate 2024 1 5) (timeDate 2024 1 1) =
        some r → r = .ok (timeDate 2024 1 1 + k * 7)) :=
  ⟨by decide, DRepeat_GetNextDate_smallest_multiple (timeDate 2024 1 5) (timeDate 2024 1 1) 7
    (by decide) (by decide)⟩

/-! ## The rule `y` -/

theorem daysSinceEpoch_add (y : Int) (i : Nat) :
    daysSinceEpoch y + 365 * i ≤ daysSinceEpoch (y + i) := by
  induction i with
  | zero => simp
  | succ k ih =>
    have h := daysSinceEpoch_succ (y + k)
    have hl : 0 ≤ leapDay (y + k) := by unfold leapDay; split <;> omega
    push_cast
    rw [← add_assoc, h]
    omega

theorem monthOffset_nonneg (leap : Bool) (m : Int) (hm : 1 ≤ m) (hm12 : m ≤ 12) :
    0 ≤ monthOffset leap m := by
  have hb := monthLen_bounds leap m hm hm12
  have h := (monthDay_inv leap m 1 hm hm12 (le_refl _) (by omega)).2.1
  omega

theorem AddDate_years (t i : Int) : AddDate t i 0 0 = timeDate (Year t + i) (Month t) (Day t) := by
  unfold AddDate; rw [add_zero, add_zero]

theorem AddDate_years_lower (t : Int) (i : Nat) :
    daysSinceEpoch (Year t) + 365 * i ≤ AddDate t i 0 0 := by
  obtain ⟨hm, hm12, hd, _⟩ := absDate_valid t
  rw [AddDate_years, timeDate_valid _ _ _ hm hm12]
  have h1 := daysSinceEpoch_add (Year t) i
  have h2 := monthOffset_nonneg (isLeap (Year t + i)) (Month t) hm hm12
  omega

theorem YRepeat_loop_succ (now date : Int) (fuel : Nat) (i : Int) :
    YRepeat.loop now date (fuel + 1) i =
      if After (AddDate date i 0 0) now then some (AddDate date i 0 0)
      else YRepeat.loop now date fuel (i + 1) := by
  simp only [YRepeat.loop]

theorem YRepeat_loop_mono (now date : Int) :
    ∀ (fuel : Nat) (i v : Int), YRepeat.loop now date fuel i = some v →
      ∀ fuel2, fuel ≤ fuel2 → YRepeat.loop now date fuel2 i = some v := by
  intro fuel
  induction fuel with
  | zero => intro i v h; simp [YRepeat.loop] at h
  | succ f ih =>
    intro i v h fuel2 hle
    obtain ⟨g, rfl⟩ : ∃ g, fuel2 = g + 1 := ⟨fuel2 - 1, by omega⟩
    rw [YRepeat_loop_succ] at h ⊢
    split at h
    next hc => rw [if_pos hc]; exact h
    next hc => rw [if_neg hc]; exact ih _ _ h g (by omega)

theorem YRepeat_loop_sound (now date : Int) :
    ∀ (fuel : Nat) (i v : Int), YRepeat.loop now date fuel i = some v →
      ∃ k : Nat, v = AddDate date (i + k) 0 0 ∧ now < v ∧
        ∀ j : Nat, j < k → AddDate date (i + j) 0 0 ≤ now := by
  intro fuel
  induction fuel with
  | zero => intro i v h; simp [YRepeat.loop] at h
  | succ f ih =>
    intro i v h
    rw [YRepeat_loop_succ] at h
    split at h
    next hc =>
      rw [After_iff] at hc
      injection h with h
      refine ⟨0, by simp [h], by omega, ?_⟩
      intro j hj; omega
    next hc =>
      rw [After_iff] at hc
      obtain ⟨k, hv, hlt, hmin⟩ := ih _ _ h
      refine ⟨k + 1, by rw [hv]; push_cast; congr 1; ring, hlt, ?_⟩
      intro j hj
      by_cases hj0 : j = 0
      · subst hj0; simp; omega
      · have := hmin (j - 1) (by omega)
        have e : i + 1 + ((j - 1 : Nat) : Int) = i + (j : Int) := by omega
        rw [e] at this
        exact this

theorem YRepeat_loop_terminates (now date : Int) :
    ∀ (k : Nat) (i : Int), now < AddDate date (i + k) 0 0 →
      ∃ v, YRepeat.loop now date (k + 1) i = some v := by
  intro k
  induction k with
  | zero =>
    intro i h
    rw [YRepeat_loop_succ, if_pos]
    · exact ⟨_, rfl⟩
    · rw [After_iff]; simpa using h
  | succ f ih =>
    intro i h
    rw [YRepeat_loop_succ]
    by_cases hc : After (AddDate date i 0 0) now = true
    · exact ⟨_, by rw [if_pos hc]⟩
    · rw [if_neg hc]
      apply ih (i + 1)
      have e : i + 1 + (f : Int) = i + ((f + 1 : Nat) : Int) := by push_cast; ring
      rw [e]; exact h

theorem YRepeat_loop_returns (now date : Int) :
    ∃ fuel v, YRepeat.loop now date fuel 1 = some v := by
  obtain ⟨v, hv⟩ := YRepeat_loop_terminates now date (now - daysSinceEpoch (Year date)).toNat 1
    (by
      have h := AddDate_years_lower date (1 + (now - daysSinceEpoch (Year date)).toNat)
      push_cast at h
      omega)
  exact ⟨_, v, hv⟩

/-- A date other than 29 February keeps its month and day when whole years are added. -/
theorem absDate_AddDate_years (date i : Int) (h : ¬(Month date = 2 ∧ Day date = 29)) :
    absDate (AddDate date i 0 0) = (Year date + i, Month date, Day date) := by
  obtain ⟨hm, hm12, hd, hd2⟩ := absDate_valid date
  rw [AddDate_years]
  apply absDate_timeDate _ _ _ hm hm12 hd
  unfold daysIn at hd2 ⊢
  by_cases h2 : Month date = 2
  · rw [h2] at hd2 ⊢
    have hne : Day date ≠ 29 := fun e => h ⟨h2, e⟩
    have e28 : daysBefore 2 - daysBefore (2 - 1) = 28 := by decide
    rw [e28] at hd2 ⊢
    split at hd2 <;> split <;> omega
  · rw [if_neg (fun e => h2 e.1)] at hd2 ⊢
    exact hd2

theorem yearlyReference_eq_loop (now date : Int) (h : ¬(Month date = 2 ∧ Day date = 29)) :
    ∀ (fuel : Nat) (i : Int),
      yearlyReference now fuel (AddDate date i 0 0) = YRepeat.loop now date fuel (i + 1) := by
  intro fuel
  induction fuel with
  | zero => intro i; simp [yearlyReference, YRepeat.loop]
  | succ f ih =>
    intro i
    have e : AddDate (AddDate date i 0 0) 1 0 0 = AddDate date (i + 1) 0 0 := by
      have a := absDate_AddDate_years date i h
      rw [AddDate_years (AddDate date i 0 0), AddDate_years date (i + 1)]
      unfold Year Month Day
      rw [a]
      simp only [add_assoc]
      rfl
    rw [YRepeat_loop_succ]
    simp only [yearlyReference]
    rw [e, ih (i + 1)]

theorem AddDate_zero (t : Int) : AddDate t 0 0 0 = t := by
  rw [AddDate_days, add_zero]

/-- C8, counterexample: for the date 29 February 2024 and now = 1 January 2028 the
evaluator returns 29 February 2028 while the reference procedure, which renormalises
the running date after every added year, returns 1 March 2028. -/
theorem YRepeat_GetNextDate_reference_counterexample :
    YRepeat.GetNextDate {} 4 (timeDate 2028 1 1) (timeDate 2024 2 29) =
        some (.ok (timeDate 2028 2 29)) ∧
      yearlyReference (timeDate 2028 1 1) 4 (timeDate 2024 2 29) = some (timeDate 2028 3 1) ∧
      timeDate 2028 2 29 ≠ timeDate 2028 3 1 := by
  decide

/-- C8, amended: for every `now` and every `date` that is not a 29 February,
`YRepeat.GetNextDate` returns a date, the reference procedure (add one calendar year to
the running date until it is strictly after `now`) returns the same date, and neither
returns anything else whatever the fuel. -/
theorem YRepeat_GetNextDate_eq_reference (now date : Int)
    (h : ¬(Month date = 2 ∧ Day date = 29)) :
    ∃ t, (∃ fuel, YRepeat.GetNextDate {} fuel now date = some (.ok t)) ∧
      (∃ fuel, yearlyReference now fuel date = some t) ∧
      (∀ fuel r, YRepeat.GetNextDate {} fuel now date = some r → r = .ok t) ∧
      (∀ fuel r, yearlyReference now fuel date = some r → r = t) := by
  obtain ⟨fuel, t, ht⟩ := YRepeat_loop_returns now date
  have hre : ∀ f, yearlyReference now f date = YRepeat.loop now date f 1 := by
    intro f
    have := yearlyReference_eq_loop now date h f 0
    rw [AddDate_zero] at this
    simpa using this
  have huniq : ∀ f r, YRepeat.loop now date f 1 = some r → r = t := by
    intro f r hr
    have a := YRepeat_loop_mono _ _ _ _ _ hr (max f fuel) (le_max_left _ _)
    have b := YRepeat_loop_mono _ _ _ _ _ ht (max f fuel) (le_max_right _ _)
    rw [a] at b
    injection b
  refine ⟨t, ⟨fuel, by simp [YRepeat.GetNextDate, ht]⟩, ⟨fuel, by rw [hre, ht]⟩, ?_, ?_⟩
  · intro f r hr
    unfold YRepeat.GetNextDate at hr
    cases hl : YRepeat.loop now date f 1 with
    | none => simp [hl] at hr
    | some w =>
      simp [hl] at hr
      rw [← hr, huniq f w hl]
  · intro f r hr
    rw [hre] at hr
    exact huniq f r hr

/-- C8, witness: rule "y", date 20230301, now 20240215 gives 20240301. -/
theorem YRepeat_GetNextDate_eq_reference_witness :
    NextDate 1 (timeDate 2024 2 15) (timeDate 2023 3 1) "y".toList = some (.ok "20240301".toList) ∧
    ¬(Month (timeDate 2023 3 1) = 2 ∧ Day (timeDate 2023 3 1) = 29) ∧
    ∃ t, (∃ fuel, YRepeat.GetNextDate {} fuel (timeDate 2024 2 15) (timeDate 2023 3 1) =
        some (.ok t)) ∧
      (∃ fuel, yearlyReference (timeDate 2024 2 15) fuel (timeDate 2023 3 1) = some t) ∧
      (∀ fuel r, YRepeat.GetNextDate {} fuel (timeDate 2024 2 15) (timeDate 2023 3 1) = some r →
        r = .ok t) ∧
      (∀ fuel r, yearlyReference (timeDate 2024 2 15) fuel (timeDate 2023 3 1) = some r → r = t) :=
  ⟨by decide, by decide,
    YRepeat_GetNextDate_eq_reference (timeDate 2024 2 15) (timeDate 2023 3 1) (by decide)⟩

/-! ## Sorting and searching -/

theorem sortInts_sorted (l : List Int) : (sortInts l).Sorted (fun a b => a ≤ b) :=
  List.sorted_insertionSort _ l

theorem mem_sortInts (l : List Int) (a : Int) : a ∈ sortInts l ↔ a ∈ l :=
  (List.perm_insertionSort _ l).mem_iff

theorem sortInts_ne_nil (l : List Int) (h : l ≠ []) : sortInts l ≠ [] := by
  intro e
  have hp := List.perm_insertionSort (fun a b : Int => a ≤ b) l
  unfold sortInts at e
  rw [e] at hp
  exact h (List.nil_perm.mp hp)

theorem sorted_head_le (l : List Int) (hs : l.Sorted (fun a b => a ≤ b)) (n0 : Int)
    (h : l.head? = some n0) : n0 ∈ l ∧ ∀ s ∈ l, n0 ≤ s := by
  cases l with
  | nil => simp at h
  | cons a t =>
    simp only [List.head?_cons, Option.some.injEq] at h
    subst h
    refine ⟨List.mem_cons_self _ _, ?_⟩
    intro s hs2
    rcases List.mem_cons.mp hs2 with e | e
    · omega
    · exact List.rel_of_sorted_cons hs s e

/-- On an ascending list, the first element above a bound is the least element above it. -/
theorem find_gt_sorted (w : Int) :
    ∀ (l : List Int), l.Sorted (fun a b => a ≤ b) → ∀ n : Int,
      l.find? (fun x => decide (x > w)) = some n →
      n ∈ l ∧ w < n ∧ ∀ s ∈ l, w < s → n ≤ s := by
  intro l
  induction l with
  | nil => intro _ n h; simp at h
  | cons a t ih =>
    intro hs n h
    rw [List.find?_cons] at h
    by_cases ha : a > w
    · simp only [ha, decide_True] at h
      injection h with h
      subst h
      refine ⟨List.mem_cons_self _ _, ha, ?_⟩
      intro s hs2 _
      rcases List.mem_cons.mp hs2 with e | e
      · omega
      · exact List.rel_of_sorted_cons hs s e
    · simp only [ha, decide_False] at h
      obtain ⟨h1, h2, h3⟩ := ih (List.Sorted.of_cons hs) n h
      refine ⟨List.mem_cons_of_mem _ h1, h2, ?_⟩
      intro s hs2 hw
      rcases List.mem_cons.mp hs2 with e | e
      · omega
      · exact h3 s e hw

/-- On an ascending list, the first element at or above a bound is the least such element. -/
theorem find_ge_sorted (w : Int) :
    ∀ (l : List Int), l.Sorted (fun a b => a ≤ b) → ∀ n : Int,
      l.find? (fun x => decide (x ≥ w)) = some n →
      n ∈ l ∧ w ≤ n ∧ ∀ s ∈ l, w ≤ s → n ≤ s := by
  intro l
  induction l with
  | nil => intro _ n h; simp at h
  | cons a t ih =>
    intro hs n h
    rw [List.find?_cons] at h
    by_cases ha : a ≥ w
    · simp only [ha, decide_True] at h
      injection h with h
      subst h
      refine ⟨List.mem_cons_self _ _, ha, ?_⟩
      intro s hs2 _
      rcases List.mem_cons.mp hs2 with e | e
      · omega
      · exact List.rel_of_sorted_cons hs s e
    · simp only [ha, decide_False] at h
      obtain ⟨h1, h2, h3⟩ := ih (List.Sorted.of_cons hs) n h
      refine ⟨List.mem_cons_of_mem _ h1, h2, ?_⟩
      intro s hs2 hw
      rcases List.mem_cons.mp hs2 with e | e
      · omega
      · exact h3 s e hw

/-! ## The rule `w` -/

/-- The two ways in which `WRepeat.GetNextDate` computes its result, on a non-empty list. -/
theorem WRepeat_GetNextDate_cases (S : List Int) (now date : Int) (hne : S ≠ []) :
    (∃ n, n ∈ S ∧ Weekday (startDateForMWrule now date) < n ∧
        (∀ s ∈ S, Weekday (startDateForMWrule now date) < s → n ≤ s) ∧
        WRepeat.GetNextDate { nums := S } now date =
          .ok (startDateForMWrule now date + (n - Weekday (startDateForMWrule now date)))) ∨
    (∃ n0, n0 ∈ S ∧ (∀ s ∈ S, n0 ≤ s) ∧
        (∀ s ∈ S, s ≤ Weekday (startDateForMWrule now date)) ∧
        WRepeat.GetNextDate { nums := S } now date =
          .ok (startDateForMWrule now date +
            (7 - Weekday (startDateForMWrule now date) + n0))) := by
  have hw := Weekday_range (startDateForMWrule now date)
  have hnd : (if Weekday (startDateForMWrule now date) = 7 then 0
      else Weekday (startDateForMWrule now date)) = Weekday (startDateForMWrule now date) := by
    rw [if_neg]; omega
  unfold WRepeat.GetNextDate
  simp only [hnd, AddDate_days]
  cases hf : (sortInts S).find? (fun n => decide (n > Weekday (startDateForMWrule now date))) with
  | some n =>
    left
    obtain ⟨h1, h2, h3⟩ := find_gt_sorted _ _ (sortInts_sorted S) n hf
    refine ⟨n, (mem_sortInts S n).mp h1, h2, ?_, rfl⟩
    intro s hs hlt
    exact h3 s ((mem_sortInts S s).mpr hs) hlt
  | none =>
    right
    have hall := List.find?_eq_none.mp hf
    cases hh : (sortInts S).head? with
    | none =>
      exfalso
      exact sortInts_ne_nil S hne (List.head?_eq_none_iff.mp hh)
    | some n0 =>
      obtain ⟨h1, h2⟩ := sorted_head_le _ (sortInts_sorted S) n0 hh
      refine ⟨n0, (mem_sortInts S n0).mp h1, ?_, ?_, rfl⟩
      · intro s hs
        exact h2 s ((mem_sortInts S s).mpr hs)
      · intro s hs
        have := hall s ((mem_sortInts S s).mpr hs)
        simpa using this

/-- C5: for a non-empty list `S` of weekday numbers in [1,7], `WRepeat.GetNextDate`
returns the earliest date strictly after the anchor whose weekday number (1 = Monday,
..., 7 = Sunday) is in `S`: the weekday of the result is in `S`, the result is 1 to 7
days after the anchor, and no date strictly in between has its weekday in `S`. -/
theorem WRepeat_GetNextDate_earliest (now date : Int) (S : List Int) (hne : S ≠ [])
    (hS : ∀ s ∈ S, 1 ≤ s ∧ s ≤ 7) :
    ∃ t, WRepeat.GetNextDate { nums := S } now date = .ok t ∧
      weekdayNumber t ∈ S ∧
      startDateForMWrule now date + 1 ≤ t ∧ t ≤ startDateForMWrule now date + 7 ∧
      ∀ u, startDateForMWrule now date < u → u < t → weekdayNumber u ∉ S := by
  generalize ha : startDateForMWrule now date = a
  have hcases := WRepeat_GetNextDate_cases S now date hne
  rw [ha] at hcases
  have hw := Weekday_range a
  rcases hcases with ⟨n, hn, hlt, hmin, hres⟩ | ⟨n0, hn0, hmin, hmax, hres⟩
  · have hn7 := hS n hn
    refine ⟨_, hres, ?_, by omega, by omega, ?_⟩
    · have e : weekdayNumber (a + (n - Weekday a)) = n := by
        unfold weekdayNumber Weekday at *
        split <;> omega
      rw [e]; exact hn
    · intro u hu1 hu2 hmem
      have hu7 := hS _ hmem
      have hgt : Weekday a < weekdayNumber u := by
        unfold weekdayNumber Weekday at *
        split <;> omega
      have := hmin _ hmem hgt
      unfold weekdayNumber Weekday at *
      split at this <;> omega
  · have hn7 := hS n0 hn0
    have hle := hmax n0 hn0
    refine ⟨_, hres, ?_, by omega, by omega, ?_⟩
    · have e : weekdayNumber (a + (7 - Weekday a + n0)) = n0 := by
        unfold weekdayNumber Weekday at *
        split <;> omega
      rw [e]; exact hn0
    · intro u hu1 hu2 hmem
      have h1 := hmin _ hmem
      have h2 := hmax _ hmem
      unfold weekdayNumber Weekday at *
      split at h1 <;> omega

/-- C5, witness: rule "w 1,3,5" with a Tuesday anchor (2 January 2024). -/
theorem WRepeat_GetNextDate_earliest_witness :
    WRepeat.GetNextDate { nums := [1, 3, 5] } (timeDate 2024 1 2) (timeDate 2024 1 1) =
      .ok (timeDate 2024 1 3) ∧
    ∃ t, WRepeat.GetNextDate { nums := [1, 3, 5] } (timeDate 2024 1 2) (timeDate 2024 1 1) =
        .ok t ∧
      weekdayNumber t ∈ [1, 3, 5] ∧
      startDateForMWrule (timeDate 2024 1 2) (timeDate 2024 1 1) + 1 ≤ t ∧
      t ≤ startDateForMWrule (timeDate 2024 1 2) (timeDate 2024 1 1) + 7 ∧
      ∀ u, startDateForMWrule (timeDate 2024 1 2) (timeDate 2024 1 1) < u → u < t →
        weekdayNumber u ∉ [1, 3, 5] :=
  ⟨by decide, WRepeat_GetNextDate_earliest (timeDate 2024 1 2) (timeDate 2024 1 1) [1, 3, 5]
    (by decide) (by decide)⟩

/-! ## Month boundaries -/

theorem timeDate_Year_Month_one (t : Int) : timeDate (Year t) (Month t) 1 = t - (Day t - 1) := by
  have h := timeDate_add_day (Year t) (Month t) 1 (Day t - 1)
  rw [show (1 : Int) + (Day t - 1) = Day t by ring, timeDate_absDate] at h
  omega

theorem daysIn_bounds (m y : Int) (hm : 1 ≤ m) (hm12 : m ≤ 12) :
    28 ≤ daysIn m y ∧ daysIn m y ≤ 31 := by
  obtain ⟨a, b, _⟩ := monthLen_bounds (isLeap y) m hm hm12
  rw [daysIn_eq]
  exact ⟨a, b⟩

theorem timeDate_month_carry (y d : Int) : timeDate y (12 + 1) d = timeDate (y + 1) 1 d := by
  rw [timeDate_norm, timeDate_norm]
  norm_num

/-- The first day of the month after month `m` of year `y`, as `Date(y, m + 1, 1)` builds it. -/
theorem absDate_next_month (y m : Int) (hm : 1 ≤ m) (hm12 : m ≤ 12) :
    absDate (timeDate y (m + 1) 1) = if m = 12 then (y + 1, 1, 1) else (y, m + 1, 1) := by
  split
  next h =>
    subst h
    rw [timeDate_month_carry]
    exact absDate_timeDate _ _ _ (by omega) (by omega) (by omega)
      (by have := daysIn_bounds 1 (y + 1) (by omega) (by omega); omega)
  next h =>
    exact absDate_timeDate _ _ _ (by omega) (by omega) (by omega)
      (by have := daysIn_bounds (m + 1) y (by omega) (by omega); omega)

theorem Day_next_month (y m : Int) (hm : 1 ≤ m) (hm12 : m ≤ 12) :
    Day (timeDate y (m + 1) 1) = 1 := by
  unfold Day
  rw [absDate_next_month y m hm hm12]
  split <;> rfl

/-- The first day of the following month lies after every day of the month of `t`. -/
theorem next_month_first (t : Int) :
    Date (Year t) (Month t + 1) 1 = t - (Day t - 1) + daysIn (Month t) (Year t) ∧
      t < Date (Year t) (Month t + 1) 1 ∧ Day (Date (Year t) (Month t + 1) 1) = 1 := by
  obtain ⟨hm, hm12, hd, hd2⟩ := absDate_valid t
  have h1 := timeDate_next_month (Year t) (Month t) hm hm12
  rw [timeDate_Year_Month_one] at h1
  unfold Date
  exact ⟨h1, by omega, Day_next_month _ _ hm hm12⟩

/-- The idiom `Date(y, m + 1, 0).Day()` of parser.go yields the length of month `m`. -/
theorem absDate_last_day (y m : Int) (hm : 1 ≤ m) (hm12 : m ≤ 12) :
    absDate (Date y (m + 1) 0) = (y, m, daysIn m y) := by
  have hb := daysIn_bounds m y hm hm12
  have h1 := timeDate_next_month y m hm hm12
  have h2 := timeDate_add_day y (m + 1) 1 (-1)
  have h3 := timeDate_add_day y m 1 (daysIn m y - 1)
  have e : Date y (m + 1) 0 = timeDate y m (daysIn m y) := by
    unfold Date
    rw [show (1 : Int) + -1 = 0 by ring] at h2
    rw [show (1 : Int) + (daysIn m y - 1) = daysIn m y by ring] at h3
    omega
  rw [e]
  exact absDate_timeDate _ _ _ hm hm12 (by omega) (le_refl _)

theorem Day_last_day (t : Int) :
    Day (Date (Year t) (Month t + 1) 0) = daysIn (Month t) (Year t) := by
  obtain ⟨hm, hm12, _, _⟩ := absDate_valid t
  unfold Day
  rw [absDate_last_day _ _ hm hm12]

/-! ## The rule `m` without months -/

/-- The two ways in which `MRepeat.GetNextDate` computes its result when the rule has no
month list and only positive days. -/
theorem MRepeat_GetNextDate_noMonths_cases (now date : Int) (days : List Int) (hne : days ≠ [])
    (hpos : ∀ d ∈ days, 1 ≤ d) :
    (∃ day, day ∈ days ∧ Day (startDateForMWrule now date) < day ∧
        (∀ s ∈ days, Day (startDateForMWrule now date) < s → day ≤ s) ∧
        MRepeat.GetNextDate { mDays := days, mMonths := [] } now date =
          .ok (if Day (startDateForMWrule now date + (day - Day (startDateForMWrule now date)))
                ≠ day
            then Date (Year (startDateForMWrule now date))
              (Month (startDateForMWrule now date) + 1) day
            else startDateForMWrule now date + (day - Day (startDateForMWrule now date)))) ∨
    (∃ d0, d0 ∈ days ∧ (∀ s ∈ days, d0 ≤ s) ∧
        (∀ s ∈ days, s ≤ Day (startDateForMWrule now date)) ∧
        MRepeat.GetNextDate { mDays := days, mMonths := [] } now date =
          .ok (Date (Year (startDateForMWrule now date))
            (Month (startDateForMWrule now date) + 1) 1 + (d0 - 1))) := by
  generalize ha : startDateForMWrule now date = a
  obtain ⟨hs1, hs2, hs3⟩ := next_month_first a
  have hz : Date 1 1 1 = 0 := by decide
  unfold MRepeat.GetNextDate
  simp only [MRepeat.hasMonths, ha, AddDate_days, List.length_nil, gt_iff_lt, lt_self_iff_false,
    decide_False, Bool.not_false, if_true, hz, hs3]
  cases hf : (sortInts days).find? (fun day => decide (Day a < day)) with
  | some day =>
    left
    obtain ⟨h1, h2, h3⟩ := find_gt_sorted _ _ (sortInts_sorted days) day hf
    refine ⟨day, (mem_sortInts days day).mp h1, h2, ?_, by simp⟩
    intro s hs hlt
    exact h3 s ((mem_sortInts days s).mpr hs) hlt
  | none =>
    right
    have hall := List.find?_eq_none.mp hf
    cases hh : (sortInts days).head? with
    | none =>
      exfalso
      exact sortInts_ne_nil days hne (List.head?_eq_none_iff.mp hh)
    | some d0 =>
      obtain ⟨h1, h2⟩ := sorted_head_le _ (sortInts_sorted days) d0 hh
      have hd0 : 1 ≤ d0 := hpos d0 ((mem_sortInts days d0).mp h1)
      have hf2 : (sortInts days).find? (fun day => decide (day ≥ 1)) = some d0 := by
        cases hl : sortInts days with
        | nil => rw [hl] at hh; simp at hh
        | cons x xs =>
          rw [hl] at hh
          simp only [List.head?_cons, Option.some.injEq] at hh
          subst hh
          simp [List.find?_cons, hd0]
      simp only [hf2]
      refine ⟨d0, (mem_sortInts days d0).mp h1, ?_, ?_, rfl⟩
      · intro s hs
        exact h2 s ((mem_sortInts days s).mpr hs)
      · intro s hs
        have := hall s ((mem_sortInts days s).mpr hs)
        simpa using this

/-- With no month list and positive days the result lies strictly after the anchor. -/
theorem MRepeat_GetNextDate_noMonths_after (now date : Int) (days : List Int) (hne : days ≠ [])
    (hpos : ∀ d ∈ days, 1 ≤ d) :
    ∃ t, MRepeat.GetNextDate { mDays := days, mMonths := [] } now date = .ok t ∧
      startDateForMWrule now date < t := by
  obtain ⟨hs1, hs2, hs3⟩ := next_month_first (startDateForMWrule now date)
  rcases MRepeat_GetNextDate_noMonths_cases now date days hne hpos with
    ⟨day, hmem, hlt, _, hres⟩ | ⟨d0, hmem, _, _, hres⟩
  · refine ⟨_, hres, ?_⟩
    split
    · have h1 := hpos day hmem
      have h2 := timeDate_add_day (Year (startDateForMWrule now date))
        (Month (startDateForMWrule now date) + 1) 1 (day - 1)
      rw [show (1 : Int) + (day - 1) = day by ring] at h2
      unfold Date at hs2 ⊢
      omega
    · omega
  · refine ⟨_, hres, ?_⟩
    have h1 := hpos d0 hmem
    omega

/-! ## The parser -/

theorem Split_ne_nil (sep : Char) (s : List Char) : Split sep s ≠ [] := by
  cases s with
  | nil => simp [Split]
  | cons c cs =>
    unfold Split
    split
    · simp
    · split <;> simp

theorem ParseDRepeat_ok (rule : List (List Char)) (dr : DRepeat) :
    ParseDRepeat rule = .ok dr ↔
      ∃ r1, rule[1]? = some r1 ∧ Atoi r1 = some dr.num ∧ 1 ≤ dr.num ∧ dr.num ≤ 365 := by
  unfold ParseDRepeat
  cases h1 : rule[1]? with
  | none => simp
  | some r1 =>
    simp only [Option.some.injEq, exists_eq_left']
    cases h2 : Atoi r1 with
    | none => simp
    | some n =>
      simp only [Option.some.injEq]
      split
      next hc =>
        constructor
        · intro h
          injection h with h
          subst h
          exact ⟨rfl, hc.1, hc.2⟩
        · rintro ⟨e, _, _⟩
          cases dr
          simp only at e
          subst e
          rfl
      next hc =>
        constructor
        · intro h; cases h
        · rintro ⟨e, a, b⟩
          exfalso; apply hc; subst e; exact ⟨by omega, b⟩

/-- What the loop of `ParseWRepeat` appends: one weekday in [1,7] per entry, in order. -/
theorem ParseWRepeat_loop_ok :
    ∀ (entries : List (List Char)) (acc ds : List Int),
      ParseWRepeat.loop entries acc = .ok ds →
      ∃ ns, List.Forall₂ (fun x n => Atoi x = some n ∧ 1 ≤ n ∧ n ≤ 7) entries ns ∧
        ds = acc ++ ns := by
  intro entries
  induction entries with
  | nil =>
    intro acc ds h
    simp only [ParseWRepeat.loop, Res.ok.injEq] at h
    exact ⟨[], List.Forall₂.nil, by simp [h]⟩
  | cons x rest ih =>
    intro acc ds h
    simp only [ParseWRepeat.loop] at h
    cases hx : Atoi x with
    | none => simp [hx] at h
    | some num =>
      simp only [hx] at h
      split at h
      · cases h
      next hc =>
        obtain ⟨ns, hf, hds⟩ := ih _ _ h
        exact ⟨num :: ns, List.Forall₂.cons ⟨hx, by omega, by omega⟩ hf, by simp [hds]⟩

/-- What the day loop of `ParseMRepeat` appends: one day per entry, in order, the
sentinels -1 and -2 being replaced by the last and the last but one day of the month of
`startdate`. -/
theorem ParseMRepeat_daysLoop_ok (startdate : Int) :
    ∀ (entries : List (List Char)) (acc ds : List Int),
      ParseMRepeat.daysLoop startdate entries acc = .ok ds →
      ∃ ns, List.Forall₂ (fun x n => ∃ k, Atoi x = some k ∧
          ((1 ≤ k ∧ k ≤ 31 ∧ n = k) ∨
           (k = -1 ∧ n = daysIn (Month startdate) (Year startdate)) ∨
           (k = -2 ∧ n = daysIn (Month startdate) (Year startdate) - 1))) entries ns ∧
        ds = acc ++ ns := by
  intro entries
  induction entries with
  | nil =>
    intro acc ds h
    simp only [ParseMRepeat.daysLoop, Res.ok.injEq] at h
    exact ⟨[], List.Forall₂.nil, by simp [h]⟩
  | cons x rest ih =>
    intro acc ds h
    simp only [ParseMRepeat.daysLoop, Day_last_day] at h
    cases hx : Atoi x with
    | none => simp [hx] at h
    | some num =>
      simp only [hx] at h
      split at h
      next hc =>
        obtain ⟨ns, hf, hds⟩ := ih _ _ h
        exact ⟨num :: ns, List.Forall₂.cons ⟨num, hx, Or.inl ⟨hc.1, hc.2, rfl⟩⟩ hf,
          by simp [hds]⟩
      next hc =>
        split at h
        next h1 =>
          obtain ⟨ns, hf, hds⟩ := ih _ _ h
          exact ⟨_ :: ns, List.Forall₂.cons ⟨num, hx, Or.inr (Or.inl ⟨h1, rfl⟩)⟩ hf,
            by simp [hds]⟩
        next h1 =>
          split at h
          next h2 =>
            obtain ⟨ns, hf, hds⟩ := ih _ _ h
            exact ⟨_ :: ns, List.Forall₂.cons ⟨num, hx, Or.inr (Or.inr ⟨h2, rfl⟩)⟩ hf,
              by simp [hds]⟩
          next h2 => cases h

/-- What the month loop of `ParseMRepeat` appends: one month in [1,12] per entry, in order. -/
theorem ParseMRepeat_monthsLoop_ok :
    ∀ (entries : List (List Char)) (acc ms : List Int),
      ParseMRepeat.monthsLoop entries acc = .ok ms →
      ∃ ns, List.Forall₂ (fun x n => Atoi x = some n ∧ 1 ≤ n ∧ n ≤ 12) entries ns ∧
        ms = acc ++ ns := by
  intro entries
  induction entries with
  | nil =>
    intro acc ms h
    simp only [ParseMRepeat.monthsLoop, Res.ok.injEq] at h
    exact ⟨[], List.Forall₂.nil, by simp [h]⟩
  | cons x rest ih =>
    intro acc ms h
    simp only [ParseMRepeat.monthsLoop] at h
    cases hx : Atoi x with
    | none => simp [hx] at h
    | some num =>
      simp only [hx] at h
      split at h
      · cases h
      next hc =>
        obtain ⟨ns, hf, hds⟩ := ih _ _ h
        exact ⟨num :: ns, List.Forall₂.cons ⟨hx, by omega, by omega⟩ hf, by simp [hds]⟩

theorem Forall₂_ne_nil {α β : Type} (R : α → β → Prop) (l : List α) (ns : List β)
    (h : List.Forall₂ R l ns) (hl : l ≠ []) : ns ≠ [] := by
  cases h with
  | nil => exact absurd rfl hl
  | cons _ _ => simp

theorem Forall₂_mem {α β : Type} (R : α → β → Prop) (l : List α) (ns : List β)
    (h : List.Forall₂ R l ns) (n : β) (hn : n ∈ ns) : ∃ x, x ∈ l ∧ R x n := by
  induction h with
  | nil => simp at hn
  | cons hr _ ih =>
    rcases List.mem_cons.mp hn with e | e
    · subst e; exact ⟨_, List.mem_cons_self _ _, hr⟩
    · obtain ⟨x, hx, hR⟩ := ih e
      exact ⟨x, List.mem_cons_of_mem _ hx, hR⟩

theorem ParseWRepeat_ok (rule : List (List Char)) (wr : WRepeat)
    (h : ParseWRepeat rule = .ok wr) : wr.nums ≠ [] ∧ ∀ s ∈ wr.nums, 1 ≤ s ∧ s ≤ 7 := by
  unfold ParseWRepeat at h
  split at h
  · cases h
  · cases h1 : rule[1]? with
    | none => simp [h1] at h
    | some r1 =>
      simp only [h1] at h
      cases h2 : ParseWRepeat.loop (Split ',' r1) [] with
      | error e => simp [h2] at h
      | panic => simp [h2] at h
      | ok ds =>
        simp only [h2, Res.ok.injEq] at h
        subst h
        obtain ⟨ns, hf, hds⟩ := ParseWRepeat_loop_ok _ _ _ h2
        simp only [List.nil_append] at hds
        subst hds
        refine ⟨Forall₂_ne_nil _ _ _ hf (Split_ne_nil _ _), ?_⟩
        intro s hs
        obtain ⟨x, _, hx⟩ := Forall₂_mem _ _ _ hf s hs
        exact hx.2

theorem ParseMRepeat_ok (rule : List (List Char)) (now date : Int) (mr : MRepeat)
    (h : ParseMRepeat rule now date = .ok mr) :
    mr.mDays ≠ [] ∧ (∀ d ∈ mr.mDays, 1 ≤ d ∧ d ≤ 31) ∧ (∀ m ∈ mr.mMonths, 1 ≤ m ∧ m ≤ 12) := by
  unfold ParseMRepeat at h
  split at h
  · cases h
  · cases h1 : rule[1]? with
    | none => simp [h1] at h
    | some r1 =>
      simp only [h1] at h
      cases h2 : ParseMRepeat.daysLoop (startDateForMWrule now date) (Split ',' r1) [] with
      | error e => simp [h2] at h
      | panic => simp [h2] at h
      | ok ds =>
        simp only [h2] at h
        obtain ⟨ns, hf, hds⟩ := ParseMRepeat_daysLoop_ok _ _ _ _ h2
        simp only [List.nil_append] at hds
        rw [hds] at h
        obtain ⟨vm, vm12, _, _⟩ := absDate_valid (startDateForMWrule now date)
        have hb := daysIn_bounds _ (Year (startDateForMWrule now date)) vm vm12
        have hdays : ns ≠ [] ∧ ∀ d ∈ ns, 1 ≤ d ∧ d ≤ 31 := by
          refine ⟨Forall₂_ne_nil _ _ _ hf (Split_ne_nil _ _), ?_⟩
          intro d hd
          obtain ⟨x, _, k, _, hk⟩ := Forall₂_mem _ _ _ hf d hd
          rcases hk with ⟨a, b, c⟩ | ⟨_, c⟩ | ⟨_, c⟩ <;> omega
        split at h
        · cases h3 : rule[2]? with
          | none => simp [h3] at h
          | some r2 =>
            simp only [h3] at h
            cases h4 : ParseMRepeat.monthsLoop (Split ',' r2) [] with
            | error e => simp [h4] at h
            | panic => simp [h4] at h
            | ok ms =>
              simp only [h4, Res.ok.injEq] at h
              subst h
              obtain ⟨ms2, hf2, hms⟩ := ParseMRepeat_monthsLoop_ok _ _ _ h4
              simp only [List.nil_append] at hms
              subst hms
              refine ⟨hdays.1, hdays.2, ?_⟩
              intro m hm
              obtain ⟨x, _, hx⟩ := Forall₂_mem _ _ _ hf2 m hm
              exact hx.2
        · simp only [Res.ok.injEq] at h
          subst h
          exact ⟨hdays.1, hdays.2, by simp⟩

/-- The invariant of a parsed rule. -/
theorem ParseRepeat_ok (now date : Int) (rep : List Char) (pr : RepeatRule)
    (h : ParseRepeat now date rep = .ok pr) : pr.WellFormed := by
  unfold ParseRepeat at h
  split at h
  · cases h
  · cases h0 : (Split ' ' rep).head? with
    | none => simp [h0] at h
    | some r0 =>
      simp only [h0] at h
      split at h
      · simp only [ParseYRepeat, Res.ok.injEq] at h
        subst h
        trivial
      · split at h
        · cases hd : ParseDRepeat (Split ' ' rep) with
          | error e => simp [hd] at h
          | panic => simp [hd] at h
          | ok dr =>
            simp only [hd, Res.ok.injEq] at h
            subst h
            obtain ⟨_, _, _, a, b⟩ := (ParseDRepeat_ok _ _).mp hd
            exact ⟨a, b⟩
        · split at h
          · cases hw : ParseWRepeat (Split ' ' rep) with
            | error e => simp [hw] at h
            | panic => simp [hw] at h
            | ok wr =>
              simp only [hw, Res.ok.injEq] at h
              subst h
              exact ParseWRepeat_ok _ _ hw
          · split at h
            · cases hm : ParseMRepeat (Split ' ' rep) now date with
              | error e => simp [hm] at h
              | panic => simp [hm] at h
              | ok mr =>
                simp only [hm, Res.ok.injEq] at h
                subst h
                exact ParseMRepeat_ok _ _ _ _ hm
            · cases h

/-! ## Results of the evaluators on parsed rules -/

/-- The yearly evaluator returns one date, strictly after `now`, whatever the fuel. -/
theorem YRepeat_GetNextDate_spec (yr : YRepeat) (now date : Int) :
    ∃ t, now < t ∧ (∃ fuel, YRepeat.GetNextDate yr fuel now date = some (.ok t)) ∧
      ∀ fuel r, YRepeat.GetNextDate yr fuel now date = some r → r = .ok t := by
  obtain ⟨fuel, t, ht⟩ := YRepeat_loop_returns now date
  obtain ⟨_, _, hlt, _⟩ := YRepeat_loop_sound _ _ _ _ _ ht
  refine ⟨t, hlt, ⟨fuel, by simp [YRepeat.GetNextDate, ht]⟩, ?_⟩
  intro f r hr
  unfold YRepeat.GetNextDate at hr
  cases hl : YRepeat.loop now date f 1 with
  | none => simp [hl] at hr
  | some w =>
    have a := YRepeat_loop_mono _ _ _ _ _ hl (max f fuel) (le_max_left _ _)
    have b := YRepeat_loop_mono _ _ _ _ _ ht (max f fuel) (le_max_right _ _)
    rw [a] at b
    injection b with b
    simp [hl] at hr
    rw [← hr, b]

/-- The weekly evaluator returns a date strictly after the anchor. -/
theorem WRepeat_GetNextDate_after (S : List Int) (now date : Int) (hne : S ≠ [])
    (hS : ∀ s ∈ S, 1 ≤ s ∧ s ≤ 7) :
    ∃ t, WRepeat.GetNextDate { nums := S } now date = .ok t ∧
      startDateForMWrule now date < t := by
  have hw := Weekday_range (startDateForMWrule now date)
  rcases WRepeat_GetNextDate_cases S now date hne with
    ⟨n, _, hlt, _, hres⟩ | ⟨n0, hn0, _, _, hres⟩
  · exact ⟨_, hres, by omega⟩
  · have := hS n0 hn0
    exact ⟨_, hres, by omega⟩

/-- The monthly evaluator returns a date, not an error, on non-empty positive days. -/
theorem MRepeat_GetNextDate_ok (mr : MRepeat) (now date : Int) (hne : mr.mDays ≠ [])
    (hpos : ∀ d ∈ mr.mDays, 1 ≤ d) : ∃ t, MRepeat.GetNextDate mr now date = .ok t := by
  obtain ⟨days, months⟩ := mr
  cases months with
  | nil =>
    obtain ⟨t, ht, _⟩ := MRepeat_GetNextDate_noMonths_after now date days hne hpos
    exact ⟨t, ht⟩
  | cons m ms =>
    exact ⟨ruleMwithMonth (startDateForMWrule now date) (sortInts days) (sortInts (m :: ms)),
      by simp [MRepeat.GetNextDate, MRepeat.hasMonths]⟩

/-- Every rule that satisfies the parser's invariant evaluates to one date: some fuel
suffices, and no fuel yields an error, a panic or another date. -/
theorem RepeatRule_GetNextDate_total (pr : RepeatRule) (now date : Int)
    (hinv : pr.WellFormed) :
    ∃ t, (∃ fuel, pr.GetNextDate fuel now date = some (.ok t)) ∧
      (∀ fuel r, pr.GetNextDate fuel now date = some r → r = .ok t) ∧
      ((∀ mr, pr ≠ .m mr) → now < t) := by
  have hanchor : now ≤ startDateForMWrule now date := by
    rw [startDate_eq_max]; exact le_max_left _ _
  cases pr with
  | y yr =>
    obtain ⟨t, hlt, hex, huniq⟩ := YRepeat_GetNextDate_spec yr now date
    exact ⟨t, hex, huniq, fun _ => hlt⟩
  | d dr =>
    obtain ⟨n⟩ := dr
    obtain ⟨k, _, hlt, _, hex, huniq⟩ := DRepeat_GetNextDate_spec now date n hinv.1
    exact ⟨_, hex, huniq, fun _ => hlt⟩
  | w wr =>
    obtain ⟨S⟩ := wr
    obtain ⟨t, ht, hlt⟩ := WRepeat_GetNextDate_after S now date hinv.1 hinv.2
    refine ⟨t, ⟨0, by simp [RepeatRule.GetNextDate, ht]⟩, ?_, fun _ => by omega⟩
    intro fuel r hr
    simp only [RepeatRule.GetNextDate, Option.some.injEq] at hr
    rw [← hr, ht]
  | m mr =>
    obtain ⟨t, ht⟩ := MRepeat_GetNextDate_ok mr now date hinv.1 (fun d hd => (hinv.2.1 d hd).1)
    refine ⟨t, ⟨0, by simp [RepeatRule.GetNextDate, ht]⟩, ?_, fun h => absurd rfl (h mr)⟩
    intro fuel r hr
    simp only [RepeatRule.GetNextDate, Option.some.injEq] at hr
    rw [← hr, ht]

/-- The facade applied to a text that parses: the evaluator's outcome, formatted. -/
theorem NextDate_of_parsed (fuel : Nat) (now date : Int) (rep : List Char) (pr : RepeatRule)
    (hp : ParseRepeat now date rep = .ok pr) :
    NextDate fuel now date rep =
      match pr.GetNextDate fuel now date with
      | none => none
      | some (.error e) => some (.error e)
      | some .panic => some .panic
      | some (.ok d) => some (.ok (Format20060102 d)) := by
  simp only [NextDate, hp]

/-- C1: for every rule text that `ParseRepeat` accepts as a `y`, `d` or `w` rule, the
evaluator returns one date `t` (with enough fuel, and nothing else with any fuel), `t` is
strictly after `now`, and `NextDate` returns `t` formatted. -/
theorem NextDate_ydw_after_now (now date : Int) (rep : List Char) (pr : RepeatRule)
    (hp : ParseRepeat now date rep = .ok pr) (hk : ∀ mr, pr ≠ .m mr) :
    ∃ t, now < t ∧
      (∃ fuel, pr.GetNextDate fuel now date = some (.ok t) ∧
        NextDate fuel now date rep = some (.ok (Format20060102 t))) ∧
      (∀ fuel r, pr.GetNextDate fuel now date = some r → r = .ok t) ∧
      (∀ fuel s, NextDate fuel now date rep = some s → s = .ok (Format20060102 t)) := by
  obtain ⟨t, ⟨fuel, hf⟩, huniq, hlt⟩ :=
    RepeatRule_GetNextDate_total pr now date (ParseRepeat_ok now date rep pr hp)
  refine ⟨t, hlt hk, ⟨fuel, hf, ?_⟩, huniq, ?_⟩
  · rw [NextDate_of_parsed fuel now date rep pr hp, hf]
  · intro f s hs
    rw [NextDate_of_parsed f now date rep pr hp] at hs
    cases hg : pr.GetNextDate f now date with
    | none => simp [hg] at hs
    | some r =>
      have := huniq f r hg
      subst this
      simp only [hg, Option.some.injEq] at hs
      exact hs.symm

/-- C1, witness: the rule "w 1,3,5" with now = date = 2 January 2024. -/
theorem NextDate_ydw_after_now_witness :
    ∃ t, timeDate 2024 1 2 < t ∧
      (∃ fuel, (RepeatRule.w { nums := [1, 3, 5] }).GetNextDate fuel (timeDate 2024 1 2)
          (timeDate 2024 1 2) = some (.ok t) ∧
        NextDate fuel (timeDate 2024 1 2) (timeDate 2024 1 2) "w 1,3,5".toList =
          some (.ok (Format20060102 t))) ∧
      (∀ fuel r, (RepeatRule.w { nums := [1, 3, 5] }).GetNextDate fuel (timeDate 2024 1 2)
        (timeDate 2024 1 2) = some r → r = .ok t) ∧
      (∀ fuel s, NextDate fuel (timeDate 2024 1 2) (timeDate 2024 1 2) "w 1,3,5".toList = some s →
        s = .ok (Format20060102 t)) :=
  NextDate_ydw_after_now (timeDate 2024 1 2) (timeDate 2024 1 2) "w 1,3,5".toList
    (.w { nums := [1, 3, 5] }) (by decide) (by intro mr h; cases h)

/-- C2: for every accepted `m` rule without a month list, `MRepeat.GetNextDate` returns a
date strictly after the anchor `startDateForMWrule now date`. -/
theorem MRepeat_GetNextDate_noMonths_after_anchor (now date : Int) (rep : List Char)
    (days : List Int)
    (hp : ParseRepeat now date rep = .ok (.m { mDays := days, mMonths := [] })) :
    ∃ t, MRepeat.GetNextDate { mDays := days, mMonths := [] } now date = .ok t ∧
      startDateForMWrule now date < t ∧
      startDateForMWrule now date = (if date > now then date else now) := by
  have hinv := ParseRepeat_ok now date rep _ hp
  obtain ⟨t, ht, hlt⟩ := MRepeat_GetNextDate_noMonths_after now date days hinv.1
    (fun d hd => (hinv.2.1 d hd).1)
  exact ⟨t, ht, hlt, by simp [startDateForMWrule, After]⟩

/-- C2, witness: the rule "m 31" with anchor 15 April 2024. -/
theorem MRepeat_GetNextDate_noMonths_after_anchor_witness :
    ∃ t, MRepeat.GetNextDate { mDays := [31], mMonths := [] } (timeDate 2024 4 15)
        (timeDate 2024 1 1) = .ok t ∧
      startDateForMWrule (timeDate 2024 4 15) (timeDate 2024 1 1) < t ∧
      startDateForMWrule (timeDate 2024 4 15) (timeDate 2024 1 1) =
        (if timeDate 2024 1 1 > timeDate 2024 4 15 then timeDate 2024 1 1
          else timeDate 2024 4 15) :=
  MRepeat_GetNextDate_noMonths_after_anchor (timeDate 2024 4 15) (timeDate 2024 1 1)
    "m 31".toList [31] (by decide)

/-- C3: for every rule text on which `ParseRepeat` succeeds, the evaluator terminates and
returns a date (some fuel suffices, and with no fuel does it return an error or a panic),
so that `NextDate` returns a date string; a parsed `m` rule never reaches the final error
return of `MRepeat.GetNextDate`, and a parsed `d` rule has an interval of at least 1. -/
theorem NextDate_returns_date (now date : Int) (rep : List Char) (pr : RepeatRule)
    (hp : ParseRepeat now date rep = .ok pr) :
    (∃ fuel t, pr.GetNextDate fuel now date = some (.ok t) ∧
      NextDate fuel now date rep = some (.ok (Format20060102 t))) ∧
    (∀ fuel r, pr.GetNextDate fuel now date = some r → ∃ t, r = .ok t) ∧
    (∀ fuel s, NextDate fuel now date rep = some s → ∃ str, s = .ok str) ∧
    (∀ mr, pr = .m mr → MRepeat.GetNextDate mr now date ≠ .error .mDaysAndMonths) ∧
    (∀ dr, pr = .d dr → 1 ≤ dr.num) := by
  have hinv := ParseRepeat_ok now date rep pr hp
  obtain ⟨t, ⟨fuel, hf⟩, huniq, _⟩ := RepeatRule_GetNextDate_total pr now date hinv
  refine ⟨⟨fuel, t, hf, ?_⟩, fun f r hr => ⟨t, huniq f r hr⟩, ?_, ?_, ?_⟩
  · rw [NextDate_of_parsed fuel now date rep pr hp, hf]
  · intro f s hs
    rw [NextDate_of_parsed f now date rep pr hp] at hs
    cases hg : pr.GetNextDate f now date with
    | none => simp [hg] at hs
    | some r =>
      have := huniq f r hg
      subst this
      simp only [hg, Option.some.injEq] at hs
      exact ⟨_, hs.symm⟩
  · intro mr hmr
    subst hmr
    have := huniq 0 (MRepeat.GetNextDate mr now date) rfl
    rw [this]
    intro h; cases h
  · intro dr hdr
    subst hdr
    exact hinv.1

/-- C3, witness: the rule "m 30,31 2,3" with anchor 20 January 2024. -/
theorem NextDate_returns_date_witness :
    (∃ fuel t, (RepeatRule.m { mDays := [30, 31], mMonths := [2, 3] }).GetNextDate fuel
        (timeDate 2024 1 20) (timeDate 2024 1 1) = some (.ok t) ∧
      NextDate fuel (timeDate 2024 1 20) (timeDate 2024 1 1) "m 30,31 2,3".toList =
        some (.ok (Format20060102 t))) ∧
    (∀ fuel r, (RepeatRule.m { mDays := [30, 31], mMonths := [2, 3] }).GetNextDate fuel
        (timeDate 2024 1 20) (timeDate 2024 1 1) = some r → ∃ t, r = .ok t) ∧
    (∀ fuel s, NextDate fuel (timeDate 2024 1 20) (timeDate 2024 1 1) "m 30,31 2,3".toList =
        some s → ∃ str, s = .ok str) ∧
    (∀ mr, RepeatRule.m { mDays := [30, 31], mMonths := [2, 3] } = .m mr →
      MRepeat.GetNextDate mr (timeDate 2024 1 20) (timeDate 2024 1 1) ≠
        .error .mDaysAndMonths) ∧
    (∀ dr, RepeatRule.m { mDays := [30, 31], mMonths := [2, 3] } = .d dr → 1 ≤ dr.num) :=
  NextDate_returns_date (timeDate 2024 1 20) (timeDate 2024 1 1) "m 30,31 2,3".toList
    (.m { mDays := [30, 31], mMonths := [2, 3] }) (by decide)

/-! ## The rule `m` with months -/

/-- A first day of a month that is not after `s` is not after the first day of the month
of `s`. -/
theorem first_le_first (F s : Int) (hF : Day F = 1) (h : F ≤ s) : F ≤ s - (Day s - 1) := by
  by_contra hlt
  obtain ⟨hm, hm12, hd, hd2⟩ := absDate_valid s
  have e := timeDate_add_day (Year s) (Month s) (Day s) (F - s)
  rw [timeDate_absDate] at e
  have hv := absDate_timeDate (Year s) (Month s) (Day s + (F - s)) hm hm12 (by omega) (by omega)
  rw [e, show s + (F - s) = F by ring] at hv
  unfold Day at hF
  rw [hv] at hF
  simp only at hF
  omega

theorem monthOffset_mono_table : ∀ leap : Bool, ∀ m n : Fin 13, 1 ≤ m.val → m.val ≤ n.val →
    monthOffset leap m.val ≤ monthOffset leap n.val := by
  decide

/-- Within a year, the first day of a later month is a later day. -/
theorem timeDate_month_mono (y m n : Int) (hm : 1 ≤ m) (hmn : m ≤ n) (hn : n ≤ 12) :
    timeDate y m 1 ≤ timeDate y n 1 := by
  rw [timeDate_valid y m 1 hm (by omega), timeDate_valid y n 1 (by omega) hn]
  have hmono : monthOffset (isLeap y) m ≤ monthOffset (isLeap y) n := by
    lift m to ℕ using (by omega)
    lift n to ℕ using (by omega)
    have h1 : m < 13 := by omega
    have h2 : n < 13 := by omega
    exact monthOffset_mono_table (isLeap y) ⟨m, h1⟩ ⟨n, h2⟩ (by exact_mod_cast hm)
      (by exact_mod_cast hmn)
  omega

theorem Date_same_month (s day : Int) : Date (Year s) (Month s) day = s + (day - Day s) := by
  have e := timeDate_add_day (Year s) (Month s) (Day s) (day - Day s)
  rw [timeDate_absDate, show Day s + (day - Day s) = day by ring] at e
  exact e

theorem ruleMwithMonth_sameMonth_inv (F dayInMonth : Int) :
    ∀ (mDays : List Int) (s : Int), F ≤ s →
      match ruleMwithMonth.sameMonth dayInMonth mDays s with
      | .found r => F < r
      | .goOn s2 => F ≤ s2 := by
  intro mDays
  induction mDays with
  | nil => intro s h; simpa [ruleMwithMonth.sameMonth] using h
  | cons day rest ih =>
    intro s h
    unfold ruleMwithMonth.sameMonth
    by_cases hc : day > Day s ∧ day ≤ dayInMonth
    · rw [if_pos hc]
      show F < Date (Year s) (Month s) day
      rw [Date_same_month]; omega
    · rw [if_neg hc]
      by_cases hc2 : day > Day s ∧ day > dayInMonth
      · rw [if_pos hc2]
        have := (next_month_first s).2.1
        exact ih _ (by omega)
      · rw [if_neg hc2]
        exact ih _ h

theorem ruleMwithMonth_laterMonth_inv (F dayInMonth : Int) :
    ∀ (mDays : List Int) (s : Int), F < s →
      match ruleMwithMonth.laterMonth dayInMonth mDays s with
      | .found r => F < r
      | .goOn s2 => F ≤ s2 := by
  intro mDays
  induction mDays with
  | nil =>
    intro s h
    simp only [ruleMwithMonth.laterMonth]
    omega
  | cons day rest ih =>
    intro s h
    unfold ruleMwithMonth.laterMonth
    by_cases hc : day ≥ Day s ∧ day ≤ dayInMonth
    · rw [if_pos hc]
      show F < Date (Year s) (Month s) day
      rw [Date_same_month]; omega
    · rw [if_neg hc]
      by_cases hc2 : day > Day s ∧ day > dayInMonth
      · rw [if_pos hc2]
        have := (next_month_first s).2.1
        exact ih _ (by omega)
      · rw [if_neg hc2]
        exact ih _ h

/-- Invariant of `ruleMwithMonth`: started on or after `F`, the first day of a month, the
search returns the zero time or a date strictly after `F`. -/
theorem ruleMwithMonth_loop_inv (F : Int) (hF : Day F = 1) (mDays : List Int) :
    ∀ (mMonths : List Int), (∀ m ∈ mMonths, 1 ≤ m ∧ m ≤ 12) → ∀ s : Int, F ≤ s →
      ruleMwithMonth.loop mDays mMonths s = 0 ∨ F < ruleMwithMonth.loop mDays mMonths s := by
  intro mMonths
  induction mMonths with
  | nil => intro _ s _; left; rfl
  | cons month rest ih =>
    intro hM s h
    have hrest : ∀ m ∈ rest, 1 ≤ m ∧ m ≤ 12 := fun m hm => hM m (List.mem_cons_of_mem _ hm)
    have hmonth := hM month (List.mem_cons_self _ _)
    obtain ⟨vm, vm12, vd, vd2⟩ := absDate_valid s
    unfold ruleMwithMonth.loop
    split
    next heq =>
      have hs1 : F ≤ Date (Year s) month 1 := by
        rw [heq, Date_same_month]
        have := first_le_first F s hF h
        omega
      have hinv := ruleMwithMonth_sameMonth_inv F
        (Day (Date (Year (Date (Year s) month 1)) (Month (Date (Year s) month 1) + 1) 0))
        mDays _ hs1
      simp only
      split
      next r hr => rw [hr] at hinv; right; exact hinv
      next s2 hr => rw [hr] at hinv; exact ih hrest s2 hinv
    next hne =>
      split
      next hgt =>
        have hs1 : F < Date (Year s) month 1 := by
          have h1 := (next_month_first s).2.1
          have h2 := timeDate_month_mono (Year s) (Month s + 1) month (by omega) (by omega)
            hmonth.2
          unfold Date at h1 ⊢
          omega
        have hinv := ruleMwithMonth_laterMonth_inv F
          (Day (Date (Year (Date (Year s) month 1)) (Month (Date (Year s) month 1) + 1) 0))
          mDays _ hs1
        simp only
        split
        next r hr => rw [hr] at hinv; right; exact hinv
        next s2 hr => rw [hr] at hinv; exact ih hrest s2 hinv
      next hle => exact ih hrest s h

/-- C4, the code at the failing input: with now = 20 January 2024, date = 1 January 2024
and the rule "m 5 1" the evaluator returns 5 January 2024, which is not the zero date and
lies before the anchor, 20 January 2024 (`ruleMwithMonth` has reset its start date to the
first day of the month before comparing the days). -/
theorem MRepeat_GetNextDate_months_before_anchor :
    ParseRepeat (timeDate 2024 1 20) (timeDate 2024 1 1) "m 5 1".toList =
        .ok (.m { mDays := [5], mMonths := [1] }) ∧
      MRepeat.GetNextDate { mDays := [5], mMonths := [1] } (timeDate 2024 1 20)
        (timeDate 2024 1 1) = .ok (timeDate 2024 1 5) ∧
      timeDate 2024 1 5 ≠ 0 ∧
      startDateForMWrule (timeDate 2024 1 20) (timeDate 2024 1 1) = timeDate 2024 1 20 ∧
      ¬(startDateForMWrule (timeDate 2024 1 20) (timeDate 2024 1 1) < timeDate 2024 1 5) := by
  decide

/-- What does hold of an accepted `m` rule with a month list: `MRepeat.GetNextDate`
returns a date, and whenever that date is not the zero date it is strictly after the first
day of the anchor's month. -/
theorem MRepeat_GetNextDate_months_after_month_start (now date : Int) (rep : List Char)
    (mr : MRepeat) (hp : ParseRepeat now date rep = .ok (.m mr)) (hm : mr.mMonths ≠ []) :
    ∃ t, MRepeat.GetNextDate mr now date = .ok t ∧
      (t ≠ 0 → Date (Year (startDateForMWrule now date)) (Month (startDateForMWrule now date)) 1
        < t) := by
  have hinv := ParseRepeat_ok now date rep _ hp
  obtain ⟨days, months⟩ := mr
  simp only at hm
  have hres : MRepeat.GetNextDate { mDays := days, mMonths := months } now date =
      .ok (ruleMwithMonth (startDateForMWrule now date) (sortInts days) (sortInts months)) := by
    cases months with
    | nil => exact absurd rfl hm
    | cons m ms => simp [MRepeat.GetNextDate, MRepeat.hasMonths]
  refine ⟨_, hres, ?_⟩
  intro hne
  generalize startDateForMWrule now date = a at hne ⊢
  obtain ⟨vm, vm12, vd, vd2⟩ := absDate_valid a
  have hF : Day (Date (Year a) (Month a) 1) = 1 := by
    unfold Day Date
    rw [absDate_timeDate _ _ _ vm vm12 (le_refl _)
      (by have := daysIn_bounds (Month a) (Year a) vm vm12; omega)]
  have hle : Date (Year a) (Month a) 1 ≤ a := by rw [Date_same_month]; omega
  have hmon : ∀ m ∈ sortInts months, 1 ≤ m ∧ m ≤ 12 :=
    fun m hmem => hinv.2.2 m ((mem_sortInts months m).mp hmem)
  rcases ruleMwithMonth_loop_inv _ hF (sortInts days) (sortInts months) hmon a hle with h0 | hlt
  · exact absurd h0 hne
  · exact hlt

/-! ## The rule `m` without months: earliest date, last day of the month -/

/-- C6, the code at the failing input: with now = date = 31 March 2024 the rule "m 31"
resolves to the day list [31] and the evaluator returns 1 May 2024 (April 1 plus 30 days),
whose day of month is not in the list, although 31 May 2024 lies after the anchor; with
the list [5, 31] and anchor 15 April 2024 it returns 31 May 2024 although 5 May 2024 lies
strictly in between. -/
theorem MRepeat_GetNextDate_not_earliest :
    ParseRepeat (timeDate 2024 3 31) (timeDate 2024 3 31) "m 31".toList =
        .ok (.m { mDays := [31], mMonths := [] }) ∧
      MRepeat.GetNextDate { mDays := [31], mMonths := [] } (timeDate 2024 3 31)
        (timeDate 2024 3 31) = .ok (timeDate 2024 5 1) ∧
      NextDate 0 (timeDate 2024 3 31) (timeDate 2024 3 31) "m 31".toList =
        some (.ok "20240501".toList) ∧
      Day (timeDate 2024 5 1) ∉ [31] ∧
      MRepeat.GetNextDate { mDays := [5, 31], mMonths := [] } (timeDate 2024 4 15)
        (timeDate 2024 4 15) = .ok (timeDate 2024 5 31) ∧
      timeDate 2024 4 15 < timeDate 2024 5 5 ∧ timeDate 2024 5 5 < timeDate 2024 5 31 ∧
      Day (timeDate 2024 5 5) ∈ [5, 31] := by
  decide

theorem ParseRepeat_m_last (now date : Int) :
    ParseRepeat now date "m -1".toList =
      .ok (.m { mDays := [daysIn (Month (startDateForMWrule now date))
        (Year (startDateForMWrule now date))], mMonths := [] }) := by
  rw [← Day_last_day]
  rfl

/-- With the single day `daysIn` of the anchor's month, and an anchor before that day, the
evaluator returns that day of the anchor's month. -/
theorem MRepeat_GetNextDate_last (now date a : Int) (ha : startDateForMWrule now date = a)
    (h : Day a ≠ daysIn (Month a) (Year a)) :
    MRepeat.GetNextDate { mDays := [daysIn (Month a) (Year a)], mMonths := [] } now date =
        .ok (timeDate (Year a) (Month a) (daysIn (Month a) (Year a))) ∧
      absDate (timeDate (Year a) (Month a) (daysIn (Month a) (Year a))) =
        (Year a, Month a, daysIn (Month a) (Year a)) := by
  obtain ⟨vm, vm12, vd, vd2⟩ := absDate_valid a
  have hb := daysIn_bounds (Month a) (Year a) vm vm12
  have habs : absDate (timeDate (Year a) (Month a) (daysIn (Month a) (Year a))) =
      (Year a, Month a, daysIn (Month a) (Year a)) :=
    absDate_timeDate _ _ _ vm vm12 (by omega) (le_refl _)
  refine ⟨?_, habs⟩
  have hsame := Date_same_month a (daysIn (Month a) (Year a))
  unfold Date at hsame
  rcases MRepeat_GetNextDate_noMonths_cases now date [daysIn (Month a) (Year a)] (by simp)
      (by intro d hd; rw [List.mem_singleton] at hd; omega) with
    ⟨day, hmem, _, _, hres⟩ | ⟨d0, hmem, _, hmax, _⟩
  · rw [List.mem_singleton] at hmem
    subst hmem
    rw [ha, ← hsame] at hres
    rw [hres]
    have hD : Day (timeDate (Year a) (Month a) (daysIn (Month a) (Year a))) =
        daysIn (Month a) (Year a) := by
      unfold Day; rw [habs]
    rw [hD, if_neg (by simp)]
  · exfalso
    have := hmax _ (List.mem_singleton_self _)
    rw [ha] at this
    omega

/-- C9: when the anchor is not the last day of its month, `NextDate` with the rule "m -1"
returns the last day of the anchor's own month and year: the date `t` with the anchor's
year and month and with day `daysIn` of that month, formatted. -/
theorem NextDate_m_last_day (fuel : Nat) (now date : Int)
    (h : Day (startDateForMWrule now date) ≠
      daysIn (Month (startDateForMWrule now date)) (Year (startDateForMWrule now date))) :
    ∃ t, NextDate fuel now date "m -1".toList = some (.ok (Format20060102 t)) ∧
      Year t = Year (startDateForMWrule now date) ∧
      Month t = Month (startDateForMWrule now date) ∧
      Day t = daysIn (Month (startDateForMWrule now date)) (Year (startDateForMWrule now date)) := by
  obtain ⟨hres, habs⟩ := MRepeat_GetNextDate_last now date _ rfl h
  refine ⟨timeDate (Year (startDateForMWrule now date)) (Month (startDateForMWrule now date))
    (daysIn (Month (startDateForMWrule now date)) (Year (startDateForMWrule now date))),
    ?_, ?_, ?_, ?_⟩
  · rw [NextDate_of_parsed fuel now date _ _ (ParseRepeat_m_last now date)]
    simp only [RepeatRule.GetNextDate, hres]
  · exact congrArg (fun p => p.1) habs
  · exact congrArg (fun p => p.2.1) habs
  · exact congrArg (fun p => p.2.2) habs

/-- C9, witness: anchor 10 April 2024 gives 30 April 2024. -/
theorem NextDate_m_last_day_witness :
    NextDate 0 (timeDate 2024 4 10) (timeDate 2024 1 1) "m -1".toList =
      some (.ok "20240430".toList) ∧
    ∃ t, NextDate 0 (timeDate 2024 4 10) (timeDate 2024 1 1) "m -1".toList =
        some (.ok (Format20060102 t)) ∧
      Year t = Year (startDateForMWrule (timeDate 2024 4 10) (timeDate 2024 1 1)) ∧
      Month t = Month (startDateForMWrule (timeDate 2024 4 10) (timeDate 2024 1 1)) ∧
      Day t = daysIn (Month (startDateForMWrule (timeDate 2024 4 10) (timeDate 2024 1 1)))
        (Year (startDateForMWrule (timeDate 2024 4 10) (timeDate 2024 1 1))) :=
  ⟨by decide, NextDate_m_last_day 0 (timeDate 2024 4 10) (timeDate 2024 1 1) (by decide)⟩

/-! ## Parsing the rule `d` -/

theorem ParseRepeat_d_dispatch (now date : Int) (rep : List Char) (t : List Char)
    (rest : List (List Char)) (hs : Split ' ' rep = ['d'] :: t :: rest) :
    ParseRepeat now date rep =
      match Atoi t with
      | none => .error .dNotANumber
      | some next =>
        if next > 0 ∧ next ≤ 365 then .ok (.d { num := next }) else .error .dOutOfRange := by
  have hne : rep ≠ [] := by
    intro e; subst e; simp [Split] at hs
  unfold ParseRepeat
  rw [if_neg hne]
  simp only [hs, List.head?_cons, ParseDRepeat, List.getElem?_cons_succ, List.getElem?_cons_zero]
  rw [if_neg (by decide), if_pos trivial]
  cases Atoi t with
  | none => rfl
  | some n =>
    simp only
    by_cases hc : n > 0 ∧ n ≤ 365
    · rw [if_pos hc, if_pos hc]
    · rw [if_neg hc, if_neg hc]

/-- C10: for every rule text whose first token is "d" and whose second token is `t`,
`ParseRepeat` succeeds exactly when `strconv.Atoi` reads `t` as an integer `n` with
1 ≤ n ≤ 365, the parsed rule is then `DRepeat` with that `n`, and in every other case
`ParseRepeat` returns an error. -/
theorem ParseRepeat_d_iff (now date : Int) (rep : List Char) (t : List Char)
    (rest : List (List Char)) (hs : Split ' ' rep = ['d'] :: t :: rest) :
    (∀ pr, ParseRepeat now date rep = .ok pr ↔
      ∃ n, Atoi t = some n ∧ 1 ≤ n ∧ n ≤ 365 ∧ pr = .d { num := n }) ∧
    ((¬∃ n, Atoi t = some n ∧ 1 ≤ n ∧ n ≤ 365) → ∃ e, ParseRepeat now date rep = .error e) := by
  rw [ParseRepeat_d_dispatch now date rep t rest hs]
  cases hA : Atoi t with
  | none => simp
  | some n =>
    simp only [Option.some.injEq]
    by_cases hc : n > 0 ∧ n ≤ 365
    · rw [if_pos hc]
      constructor
      · intro pr
        constructor
        · intro h
          injection h with h
          exact ⟨n, rfl, by omega, hc.2, h.symm⟩
        · rintro ⟨k, hk, _, _, hpr⟩
          subst hk; subst hpr; rfl
      · intro hno
        exact absurd ⟨n, rfl, by omega, hc.2⟩ hno
    · rw [if_neg hc]
      constructor
      · intro pr
        constructor
        · intro h; cases h
        · rintro ⟨k, hk, h1, h2, _⟩
          subst hk
          exact absurd ⟨by omega, h2⟩ hc
      · intro _
        exact ⟨_, rfl⟩

/-- C10, witness: the texts "d 7" (accepted), "d 400", "d 0" and "d x" (rejected). -/
theorem ParseRepeat_d_iff_witness :
    (ParseRepeat 0 0 "d 7".toList = .ok (.d { num := 7 }) ∧
      ParseRepeat 0 0 "d 400".toList = .error .dOutOfRange ∧
      ParseRepeat 0 0 "d 0".toList = .error .dOutOfRange ∧
      ParseRepeat 0 0 "d x".toList = .error .dNotANumber) ∧
    Split ' ' "d 7".toList = ['d'] :: "7".toList :: [] ∧
    (∀ pr, ParseRepeat 0 0 "d 7".toList = .ok pr ↔
      ∃ n, Atoi "7".toList = some n ∧ 1 ≤ n ∧ n ≤ 365 ∧ pr = .d { num := n }) ∧
    ((¬∃ n, Atoi "7".toList = some n ∧ 1 ≤ n ∧ n ≤ 365) →
      ∃ e, ParseRepeat 0 0 "d 7".toList = .error e) :=
  ⟨by decide, by decide, ParseRepeat_d_iff 0 0 "d 7".toList "7".toList [] (by decide)⟩

/-! ## Dispatch of `ParseRepeat` -/

theorem Split_cons_ne_nil (sep : Char) (rep : List Char) (r0 : List Char)
    (rest : List (List Char)) (hs : Split sep rep = r0 :: rest) (h0 : r0 ≠ []) : rep ≠ [] := by
  intro e
  subst e
  simp only [Split, List.cons.injEq] at hs
  exact h0 hs.1.symm

/-- C11, the code at the failing input: on the text "d" the slice has one element and
`ParseDRepeat` reads `rule[1]`, so `ParseRepeat` and `NextDate` end in a run-time panic
instead of returning an error; on "w" and "m" the length check of the sibling parsers
returns an error. -/
theorem ParseRepeat_d_alone_panics (fuel : Nat) (now date : Int) :
    Split ' ' "d".toList = ["d".toList] ∧
      ParseDRepeat ["d".toList] = .panic ∧
      ParseRepeat now date "d".toList = .panic ∧
      NextDate fuel now date "d".toList = some .panic ∧
      ParseRepeat now date "w".toList = .error .wRule ∧
      ParseRepeat now date "m".toList = .error .mRule :=
  ⟨rfl, rfl, rfl, rfl, rfl, rfl⟩

theorem ParseRepeat_w_dispatch (now date : Int) (rep : List Char) (rest : List (List Char))
    (hs : Split ' ' rep = ['w'] :: rest) :
    ParseRepeat now date rep =
      match ParseWRepeat (['w'] :: rest) with
      | .ok wr => .ok (.w wr)
      | .error e => .error e
      | .panic => .panic := by
  have hne : rep ≠ [] := Split_cons_ne_nil _ _ _ _ hs (by simp)
  unfold ParseRepeat
  rw [if_neg hne]
  simp only [hs, List.head?_cons]
  rw [if_neg (by decide), if_neg (by decide), if_pos trivial]

theorem ParseRepeat_m_dispatch (now date : Int) (rep : List Char) (rest : List (List Char))
    (hs : Split ' ' rep = ['m'] :: rest) :
    ParseRepeat now date rep =
      match ParseMRepeat (['m'] :: rest) now date with
      | .ok mr => .ok (.m mr)
      | .error e => .error e
      | .panic => .panic := by
  have hne : rep ≠ [] := Split_cons_ne_nil _ _ _ _ hs (by simp)
  unfold ParseRepeat
  rw [if_neg hne]
  simp only [hs, List.head?_cons]
  rw [if_neg (by decide), if_neg (by decide), if_neg (by decide), if_pos trivial]

theorem ParseRepeat_y_dispatch (now date : Int) (rep : List Char) (rest : List (List Char))
    (hs : Split ' ' rep = ['y'] :: rest) : ParseRepeat now date rep = .ok (.y {}) := by
  have hne : rep ≠ [] := Split_cons_ne_nil _ _ _ _ hs (by simp)
  unfold ParseRepeat
  rw [if_neg hne]
  simp only [hs, List.head?_cons]
  rw [if_pos trivial]
  rfl

theorem ParseRepeat_unknown (now date : Int) (rep : List Char) (r0 : List Char)
    (rest : List (List Char)) (hs : Split ' ' rep = r0 :: rest) (hy : r0 ≠ ['y'])
    (hd : r0 ≠ ['d']) (hw : r0 ≠ ['w']) (hm : r0 ≠ ['m']) :
    ParseRepeat now date rep = .error (if rep = [] then .emptyRepeat else .unknownIdentifier) := by
  unfold ParseRepeat
  by_cases hne : rep = []
  · rw [if_pos hne, if_pos hne]
  · rw [if_neg hne, if_neg hne]
    simp only [hs, List.head?_cons]
    rw [if_neg hy, if_neg hd, if_neg hw, if_neg hm]

theorem NextDate_of_error (fuel : Nat) (now date : Int) (rep : List Char) (e : Err)
    (hp : ParseRepeat now date rep = .error e) :
    NextDate fuel now date rep = some (.error e) := by
  simp only [NextDate, hp]

/-- C14: `ParseRepeat`, and hence `NextDate`, returns an error for the empty text and for
every text whose first space-separated token is none of "y", "d", "w", "m"; it returns
the yearly rule for every text whose first token is "y", whatever follows. -/
theorem ParseRepeat_first_token (now date : Int) :
    (ParseRepeat now date [] = .error .emptyRepeat ∧
      ∀ fuel, NextDate fuel now date [] = some (.error .emptyRepeat)) ∧
    (∀ (rep r0 : List Char) (rest : List (List Char)), Split ' ' rep = r0 :: rest →
      r0 ≠ ['y'] → r0 ≠ ['d'] → r0 ≠ ['w'] → r0 ≠ ['m'] →
      ∃ e, ParseRepeat now date rep = .error e ∧
        (rep ≠ [] → e = .unknownIdentifier) ∧
        ∀ fuel, NextDate fuel now date rep = some (.error e)) ∧
    (∀ (rep : List Char) (rest : List (List Char)), Split ' ' rep = ['y'] :: rest →
      ParseRepeat now date rep = .ok (.y {})) := by
  refine ⟨⟨rfl, fun _ => rfl⟩, ?_, ?_⟩
  · intro rep r0 rest hs hy hd hw hm
    have h := ParseRepeat_unknown now date rep r0 rest hs hy hd hw hm
    refine ⟨_, h, ?_, fun fuel => NextDate_of_error fuel now date rep _ h⟩
    intro hne
    rw [if_neg hne]
  · intro rep rest hs
    exact ParseRepeat_y_dispatch now date rep rest hs

/-- C14, witness: the texts "z 1" (unknown first token) and "y 5 x" (yearly). -/
theorem ParseRepeat_first_token_witness :
    (∃ e, ParseRepeat 0 0 "z 1".toList = .error e ∧
        ("z 1".toList ≠ [] → e = .unknownIdentifier) ∧
        ∀ fuel, NextDate fuel 0 0 "z 1".toList = some (.error e)) ∧
      ParseRepeat 0 0 "y 5 x".toList = .ok (.y {}) :=
  ⟨(ParseRepeat_first_token 0 0).2.1 "z 1".toList "z".toList ["1".toList] (by decide)
      (by decide) (by decide) (by decide) (by decide),
    (ParseRepeat_first_token 0 0).2.2 "y 5 x".toList ["5".toList, "x".toList] (by decide)⟩

/-! ## Parsing the rules `w` and `m`: success and failure -/

theorem Forall₂_of_forall {α β : Type} (R : α → β → Prop) :
    ∀ l : List α, (∀ x ∈ l, ∃ n, R x n) → ∃ ns, List.Forall₂ R l ns := by
  intro l
  induction l with
  | nil => intro _; exact ⟨[], List.Forall₂.nil⟩
  | cons a t ih =>
    intro h
    obtain ⟨n, hn⟩ := h a (List.mem_cons_self _ _)
    obtain ⟨ns, hns⟩ := ih (fun x hx => h x (List.mem_cons_of_mem _ hx))
    exact ⟨n :: ns, List.Forall₂.cons hn hns⟩

theorem forall_of_Forall₂ {α β : Type} (R : α → β → Prop) (l : List α) (ns : List β)
    (h : List.Forall₂ R l ns) : ∀ x ∈ l, ∃ n, R x n := by
  induction h with
  | nil => intro x hx; simp at hx
  | cons hr _ ih =>
    intro x hx
    rcases List.mem_cons.mp hx with e | e
    · subst e; exact ⟨_, hr⟩
    · exact ih x e

theorem ParseWRepeat_loop_complete :
    ∀ (entries : List (List Char)) (ns acc : List Int),
      List.Forall₂ (fun x n => Atoi x = some n ∧ 1 ≤ n ∧ n ≤ 7) entries ns →
      ParseWRepeat.loop entries acc = .ok (acc ++ ns) := by
  intro entries ns acc h
  induction h generalizing acc with
  | nil => simp [ParseWRepeat.loop]
  | cons hr _ ih =>
    simp only [ParseWRepeat.loop, hr.1]
    rw [if_neg (by omega), ih]
    simp

theorem ParseWRepeat_loop_error :
    ∀ (entries : List (List Char)) (acc : List Int),
      (¬∀ x ∈ entries, ∃ n, Atoi x = some n ∧ 1 ≤ n ∧ n ≤ 7) →
      ParseWRepeat.loop entries acc = .error .wDays := by
  intro entries
  induction entries with
  | nil => intro acc h; exact absurd (fun x hx => by simp at hx) h
  | cons x rest ih =>
    intro acc h
    simp only [ParseWRepeat.loop]
    cases hx : Atoi x with
    | none => rfl
    | some num =>
      simp only
      by_cases hc : num > 7 ∨ num < 1
      · rw [if_pos hc]
      · rw [if_neg hc]
        apply ih
        intro hall
        apply h
        intro y hy
        rcases List.mem_cons.mp hy with e | e
        · subst e; exact ⟨num, hx, by omega, by omega⟩
        · exact hall y e

theorem ParseMRepeat_daysLoop_complete (startdate : Int) :
    ∀ (entries : List (List Char)) (ns acc : List Int),
      List.Forall₂ (fun x n => ∃ k, Atoi x = some k ∧
          ((1 ≤ k ∧ k ≤ 31 ∧ n = k) ∨
           (k = -1 ∧ n = daysIn (Month startdate) (Year startdate)) ∨
           (k = -2 ∧ n = daysIn (Month startdate) (Year startdate) - 1))) entries ns →
      ParseMRepeat.daysLoop startdate entries acc = .ok (acc ++ ns) := by
  intro entries ns acc h
  induction h generalizing acc with
  | nil => simp [ParseMRepeat.daysLoop]
  | cons hr _ ih =>
    obtain ⟨k, hk, hcase⟩ := hr
    simp only [ParseMRepeat.daysLoop, hk, Day_last_day]
    rcases hcase with ⟨a, b, c⟩ | ⟨a, c⟩ | ⟨a, c⟩
    · rw [if_pos ⟨a, b⟩, ih, c]; simp
    · subst a
      rw [if_neg (by omega), if_pos rfl, ih, c]; simp
    · subst a
      rw [if_neg (by omega), if_neg (by omega), if_pos rfl, ih, c]; simp

theorem ParseMRepeat_daysLoop_error (startdate : Int) :
    ∀ (entries : List (List Char)) (acc : List Int),
      (¬∀ x ∈ entries, ∃ k, Atoi x = some k ∧ ((1 ≤ k ∧ k ≤ 31) ∨ k = -1 ∨ k = -2)) →
      ∃ e, ParseMRepeat.daysLoop startdate entries acc = .error e := by
  intro entries
  induction entries with
  | nil => intro acc h; exact absurd (fun x hx => by simp at hx) h
  | cons x rest ih =>
    intro acc h
    have hrest : ∀ k, Atoi x = some k → ((1 ≤ k ∧ k ≤ 31) ∨ k = -1 ∨ k = -2) →
        ¬∀ y ∈ rest, ∃ k, Atoi y = some k ∧ ((1 ≤ k ∧ k ≤ 31) ∨ k = -1 ∨ k = -2) := by
      intro k hk hc hall
      apply h
      intro y hy
      rcases List.mem_cons.mp hy with e | e
      · subst e; exact ⟨k, hk, hc⟩
      · exact hall y e
    simp only [ParseMRepeat.daysLoop]
    cases hx : Atoi x with
    | none => exact ⟨_, rfl⟩
    | some num =>
      simp only
      by_cases h1 : num ≥ 1 ∧ num ≤ 31
      · rw [if_pos h1]
        exact ih _ (hrest num hx (Or.inl h1))
      · rw [if_neg h1]
        by_cases h2 : num = -1
        · rw [if_pos h2]
          exact ih _ (hrest num hx (Or.inr (Or.inl h2)))
        · rw [if_neg h2]
          by_cases h3 : num = -2
          · rw [if_pos h3]
            exact ih _ (hrest num hx (Or.inr (Or.inr h3)))
          · rw [if_neg h3]
            exact ⟨_, rfl⟩

theorem ParseMRepeat_monthsLoop_complete :
    ∀ (entries : List (List Char)) (ns acc : List Int),
      List.Forall₂ (fun x n => Atoi x = some n ∧ 1 ≤ n ∧ n ≤ 12) entries ns →
      ParseMRepeat.monthsLoop entries acc = .ok (acc ++ ns) := by
  intro entries ns acc h
  induction h generalizing acc with
  | nil => simp [ParseMRepeat.monthsLoop]
  | cons hr _ ih =>
    simp only [ParseMRepeat.monthsLoop, hr.1]
    rw [if_neg (by omega), ih]
    simp

theorem ParseMRepeat_monthsLoop_error :
    ∀ (entries : List (List Char)) (acc : List Int),
      (¬∀ x ∈ entries, ∃ n, Atoi x = some n ∧ 1 ≤ n ∧ n ≤ 12) →
      ParseMRepeat.monthsLoop entries acc = .error .mMonth := by
  intro entries
  induction entries with
  | nil => intro acc h; exact absurd (fun x hx => by simp at hx) h
  | cons x rest ih =>
    intro acc h
    simp only [ParseMRepeat.monthsLoop]
    cases hx : Atoi x with
    | none => rfl
    | some num =>
      simp only
      by_cases hc : num < 1 ∨ num > 12
      · rw [if_pos hc]
      · rw [if_neg hc]
        apply ih
        intro hall
        apply h
        intro y hy
        rcases List.mem_cons.mp hy with e | e
        · subst e; exact ⟨num, hx, by omega, by omega⟩
        · exact hall y e

theorem ParseWRepeat_two (r0 t : List Char) (more : List (List Char)) :
    ParseWRepeat (r0 :: t :: more) =
      match ParseWRepeat.loop (Split ',' t) [] with
      | .ok weekDays => .ok { nums := weekDays }
      | .error e => .error e
      | .panic => .panic := by
  unfold ParseWRepeat
  rw [if_neg (by simp)]
  simp only [List.getElem?_cons_succ, List.getElem?_cons_zero]

/-- C12: for every rule text whose first token is "w", `ParseRepeat` succeeds exactly
when a second token exists and every comma-separated entry of it is read by `Atoi` as an
integer in [1,7]; the parsed rule is then the weekly rule whose list holds those
integers, one per entry and in order, so it is non-empty; in every other case
`ParseRepeat` returns an error. -/
theorem ParseRepeat_w_iff (now date : Int) (rep : List Char) (rest : List (List Char))
    (hs : Split ' ' rep = ['w'] :: rest) :
    ((∃ pr, ParseRepeat now date rep = .ok pr) ↔
      ∃ t more, rest = t :: more ∧
        ∀ x ∈ Split ',' t, ∃ n, Atoi x = some n ∧ 1 ≤ n ∧ n ≤ 7) ∧
    (∀ pr, ParseRepeat now date rep = .ok pr →
      ∃ t more ns, rest = t :: more ∧ pr = .w { nums := ns } ∧ ns ≠ [] ∧
        List.Forall₂ (fun x n => Atoi x = some n ∧ 1 ≤ n ∧ n ≤ 7) (Split ',' t) ns) ∧
    ((¬∃ pr, ParseRepeat now date rep = .ok pr) →
      ∃ e, ParseRepeat now date rep = .error e) := by
  rw [ParseRepeat_w_dispatch now date rep rest hs]
  cases rest with
  | nil =>
    have h1 : ParseWRepeat [['w']] = .error .wRule := rfl
    rw [h1]
    simp
  | cons t more =>
    rw [ParseWRepeat_two]
    by_cases hall : ∀ x ∈ Split ',' t, ∃ n, Atoi x = some n ∧ 1 ≤ n ∧ n ≤ 7
    · obtain ⟨ns, hns⟩ := Forall₂_of_forall _ _ hall
      have hl := ParseWRepeat_loop_complete _ _ [] hns
      rw [List.nil_append] at hl
      rw [hl]
      refine ⟨⟨fun _ => ⟨t, more, rfl, hall⟩, fun _ => ⟨_, rfl⟩⟩, ?_, ?_⟩
      · intro pr hpr
        simp only [Res.ok.injEq] at hpr
        exact ⟨t, more, ns, rfl, hpr.symm, Forall₂_ne_nil _ _ _ hns (Split_ne_nil _ _), hns⟩
      · intro hno
        exact absurd ⟨_, rfl⟩ hno
    · have hl := ParseWRepeat_loop_error _ [] hall
      rw [hl]
      refine ⟨⟨?_, ?_⟩, ?_, ?_⟩
      · rintro ⟨pr, hpr⟩; cases hpr
      · rintro ⟨t2, more2, he, hall2⟩
        simp only [List.cons.injEq] at he
        obtain ⟨e1, _⟩ := he
        subst e1
        exact absurd hall2 hall
      · intro pr hpr; cases hpr
      · intro _; exact ⟨_, rfl⟩

/-- C12, witness: "w 1,3,5" is accepted with the list [1, 3, 5]; "w", "w 9", "w 1,,3" and
"w 0" are rejected. -/
theorem ParseRepeat_w_iff_witness :
    (ParseRepeat 0 0 "w 1,3,5".toList = .ok (.w { nums := [1, 3, 5] }) ∧
      ParseRepeat 0 0 "w".toList = .error .wRule ∧
      ParseRepeat 0 0 "w 9".toList = .error .wDays ∧
      ParseRepeat 0 0 "w 1,,3".toList = .error .wDays ∧
      ParseRepeat 0 0 "w 0".toList = .error .wDays) ∧
    ((∃ pr, ParseRepeat 0 0 "w 1,3,5".toList = .ok pr) ↔
      ∃ t more, ["1,3,5".toList] = t :: more ∧
        ∀ x ∈ Split ',' t, ∃ n, Atoi x = some n ∧ 1 ≤ n ∧ n ≤ 7) ∧
    (∀ pr, ParseRepeat 0 0 "w 1,3,5".toList = .ok pr →
      ∃ t more ns, ["1,3,5".toList] = t :: more ∧ pr = .w { nums := ns } ∧ ns ≠ [] ∧
        List.Forall₂ (fun x n => Atoi x = some n ∧ 1 ≤ n ∧ n ≤ 7) (Split ',' t) ns) ∧
    ((¬∃ pr, ParseRepeat 0 0 "w 1,3,5".toList = .ok pr) →
      ∃ e, ParseRepeat 0 0 "w 1,3,5".toList = .error e) :=
  ⟨by decide, ParseRepeat_w_iff 0 0 "w 1,3,5".toList ["1,3,5".toList] (by decide)⟩

theorem ParseMRepeat_one (r0 : List Char) (now date : Int) :
    ParseMRepeat [r0] now date = .error .mRule := by
  unfold ParseMRepeat
  rw [if_pos (by simp)]

theorem ParseMRepeat_many (r0 t2 t3 t4 : List Char) (more : List (List Char))
    (now date : Int) : ParseMRepeat (r0 :: t2 :: t3 :: t4 :: more) now date = .error .mRule := by
  unfold ParseMRepeat
  rw [if_pos (by simp)]

theorem ParseMRepeat_two (r0 t2 : List Char) (now date : Int) :
    ParseMRepeat [r0, t2] now date =
      match ParseMRepeat.daysLoop (startDateForMWrule now date) (Split ',' t2) [] with
      | .error e => .error e
      | .panic => .panic
      | .ok days => .ok { mDays := days, mMonths := [] } := by
  unfold ParseMRepeat
  rw [if_neg (by simp)]
  simp only [List.getElem?_cons_succ, List.getElem?_cons_zero, List.length_cons,
    List.length_nil]
  cases ParseMRepeat.daysLoop (startDateForMWrule now date) (Split ',' t2) [] <;> rfl

theorem ParseMRepeat_three (r0 t2 t3 : List Char) (now date : Int) :
    ParseMRepeat [r0, t2, t3] now date =
      match ParseMRepeat.daysLoop (startDateForMWrule now date) (Split ',' t2) [] with
      | .error e => .error e
      | .panic => .panic
      | .ok days =>
        match ParseMRepeat.monthsLoop (Split ',' t3) [] with
        | .error e => .error e
        | .panic => .panic
        | .ok months => .ok { mDays := days, mMonths := months } := by
  unfold ParseMRepeat
  rw [if_neg (by simp)]
  simp only [List.getElem?_cons_succ, List.getElem?_cons_zero, List.length_cons,
    List.length_nil]
  cases ParseMRepeat.daysLoop (startDateForMWrule now date) (Split ',' t2) [] <;> rfl

/-- The outcome of `ParseMRepeat` on a two-token rule, by the validity of the day entries. -/
theorem ParseMRepeat_two_cases (r0 t2 : List Char) (now date : Int) :
    ((∀ x ∈ Split ',' t2, ∃ k, Atoi x = some k ∧ ((1 ≤ k ∧ k ≤ 31) ∨ k = -1 ∨ k = -2)) ∧
      ∃ days, ParseMRepeat [r0, t2] now date = .ok { mDays := days, mMonths := [] }) ∨
    ((¬∀ x ∈ Split ',' t2, ∃ k, Atoi x = some k ∧ ((1 ≤ k ∧ k ≤ 31) ∨ k = -1 ∨ k = -2)) ∧
      ∃ e, ParseMRepeat [r0, t2] now date = .error e) := by
  rw [ParseMRepeat_two]
  by_cases hall : ∀ x ∈ Split ',' t2, ∃ k, Atoi x = some k ∧
      ((1 ≤ k ∧ k ≤ 31) ∨ k = -1 ∨ k = -2)
  · left
    refine ⟨hall, ?_⟩
    have hall2 : ∀ x ∈ Split ',' t2, ∃ n, ∃ k, Atoi x = some k ∧
        ((1 ≤ k ∧ k ≤ 31 ∧ n = k) ∨
         (k = -1 ∧ n = daysIn (Month (startDateForMWrule now date))
            (Year (startDateForMWrule now date))) ∨
         (k = -2 ∧ n = daysIn (Month (startDateForMWrule now date))
            (Year (startDateForMWrule now date)) - 1)) := by
      intro x hx
      obtain ⟨k, hk, hc⟩ := hall x hx
      rcases hc with ⟨a, b⟩ | c | c
      · exact ⟨k, k, hk, Or.inl ⟨a, b, rfl⟩⟩
      · exact ⟨_, k, hk, Or.inr (Or.inl ⟨c, rfl⟩)⟩
      · exact ⟨_, k, hk, Or.inr (Or.inr ⟨c, rfl⟩)⟩
    obtain ⟨ns, hns⟩ := Forall₂_of_forall _ _ hall2
    have hl := ParseMRepeat_daysLoop_complete _ _ _ [] hns
    rw [hl]
    exact ⟨_, rfl⟩
  · right
    refine ⟨hall, ?_⟩
    obtain ⟨e, he⟩ := ParseMRepeat_daysLoop_error (startDateForMWrule now date) _ [] hall
    rw [he]
    exact ⟨_, rfl⟩

/-- The outcome of `ParseMRepeat` on a three-token rule, by the validity of the entries. -/
theorem ParseMRepeat_three_cases (r0 t2 t3 : List Char) (now date : Int) :
    ((∀ x ∈ Split ',' t2, ∃ k, Atoi x = some k ∧ ((1 ≤ k ∧ k ≤ 31) ∨ k = -1 ∨ k = -2)) ∧
      (∀ x ∈ Split ',' t3, ∃ n, Atoi x = some n ∧ 1 ≤ n ∧ n ≤ 12) ∧
      ∃ mr, ParseMRepeat [r0, t2, t3] now date = .ok mr) ∨
    ((¬((∀ x ∈ Split ',' t2, ∃ k, Atoi x = some k ∧ ((1 ≤ k ∧ k ≤ 31) ∨ k = -1 ∨ k = -2)) ∧
        ∀ x ∈ Split ',' t3, ∃ n, Atoi x = some n ∧ 1 ≤ n ∧ n ≤ 12)) ∧
      ∃ e, ParseMRepeat [r0, t2, t3] now date = .error e) := by
  rw [ParseMRepeat_three]
  by_cases hall : ∀ x ∈ Split ',' t2, ∃ k, Atoi x = some k ∧
      ((1 ≤ k ∧ k ≤ 31) ∨ k = -1 ∨ k = -2)
  · have hall2 : ∀ x ∈ Split ',' t2, ∃ n, ∃ k, Atoi x = some k ∧
        ((1 ≤ k ∧ k ≤ 31 ∧ n = k) ∨
         (k = -1 ∧ n = daysIn (Month (startDateForMWrule now date))
            (Year (startDateForMWrule now date))) ∨
         (k = -2 ∧ n = daysIn (Month (startDateForMWrule now date))
            (Year (startDateForMWrule now date)) - 1)) := by
      intro x hx
      obtain ⟨k, hk, hc⟩ := hall x hx
      rcases hc with ⟨a, b⟩ | c | c
      · exact ⟨k, k, hk, Or.inl ⟨a, b, rfl⟩⟩
      · exact ⟨_, k, hk, Or.inr (Or.inl ⟨c, rfl⟩)⟩
      · exact ⟨_, k, hk, Or.inr (Or.inr ⟨c, rfl⟩)⟩
    obtain ⟨ns, hns⟩ := Forall₂_of_forall _ _ hall2
    have hl := ParseMRepeat_daysLoop_complete _ _ _ [] hns
    rw [hl]
    by_cases hmon : ∀ x ∈ Split ',' t3, ∃ n, Atoi x = some n ∧ 1 ≤ n ∧ n ≤ 12
    · left
      obtain ⟨ms, hms⟩ := Forall₂_of_forall _ _ hmon
      have hl2 := ParseMRepeat_monthsLoop_complete _ _ [] hms
      simp only [hl2]
      exact ⟨hall, hmon, _, rfl⟩
    · right
      have hl2 := ParseMRepeat_monthsLoop_error _ [] hmon
      simp only [hl2]
      exact ⟨fun h => hmon h.2, _, rfl⟩
  · right
    obtain ⟨e, he⟩ := ParseMRepeat_daysLoop_error (startDateForMWrule now date) _ [] hall
    rw [he]
    exact ⟨fun h => hall h.1, _, rfl⟩

/-- C13: for every rule text whose first token is "m", `ParseRepeat` succeeds exactly
when the text has two or three space-separated tokens, every comma-separated entry of
the second token is read by `Atoi` as an integer in [1,31] or as -1 or -2, and, with a
third token, every comma-separated entry of it is read as an integer in [1,12]; in
every other case `ParseRepeat` returns an error. -/
theorem ParseRepeat_m_iff (now date : Int) (rep : List Char) (rest : List (List Char))
    (hs : Split ' ' rep = ['m'] :: rest) :
    ((∃ pr, ParseRepeat now date rep = .ok pr) ↔
      ((∃ t2, rest = [t2] ∧
          ∀ x ∈ Split ',' t2, ∃ k, Atoi x = some k ∧ ((1 ≤ k ∧ k ≤ 31) ∨ k = -1 ∨ k = -2)) ∨
       (∃ t2 t3, rest = [t2, t3] ∧
          (∀ x ∈ Split ',' t2, ∃ k, Atoi x = some k ∧ ((1 ≤ k ∧ k ≤ 31) ∨ k = -1 ∨ k = -2)) ∧
          ∀ x ∈ Split ',' t3, ∃ n, Atoi x = some n ∧ 1 ≤ n ∧ n ≤ 12))) ∧
    ((¬∃ pr, ParseRepeat now date rep = .ok pr) →
      ∃ e, ParseRepeat now date rep = .error e) := by
  rw [ParseRepeat_m_dispatch now date rep rest hs]
  match rest with
  | [] =>
    rw [ParseMRepeat_one]
    simp
  | [t2] =>
    rcases ParseMRepeat_two_cases ['m'] t2 now date with ⟨hall, days, hd⟩ | ⟨hall, e, he⟩
    · rw [hd]
      refine ⟨⟨fun _ => Or.inl ⟨t2, rfl, hall⟩, fun _ => ⟨_, rfl⟩⟩, ?_⟩
      intro hno
      exact absurd ⟨_, rfl⟩ hno
    · rw [he]
      refine ⟨⟨?_, ?_⟩, fun _ => ⟨_, rfl⟩⟩
      · rintro ⟨pr, hpr⟩; cases hpr
      · rintro (⟨u2, hu, hall2⟩ | ⟨u2, u3, hu, _⟩)
        · simp only [List.cons.injEq, and_true] at hu
          subst hu
          exact absurd hall2 hall
        · simp at hu
  | [t2, t3] =>
    rcases ParseMRepeat_three_cases ['m'] t2 t3 now date with
      ⟨hall, hmon, mr, hd⟩ | ⟨hall, e, he⟩
    · rw [hd]
      refine ⟨⟨fun _ => Or.inr ⟨t2, t3, rfl, hall, hmon⟩, fun _ => ⟨_, rfl⟩⟩, ?_⟩
      intro hno
      exact absurd ⟨_, rfl⟩ hno
    · rw [he]
      refine ⟨⟨?_, ?_⟩, fun _ => ⟨_, rfl⟩⟩
      · rintro ⟨pr, hpr⟩; cases hpr
      · rintro (⟨u2, hu, _⟩ | ⟨u2, u3, hu, hall2, hmon2⟩)
        · simp at hu
        · simp only [List.cons.injEq, and_true] at hu
          obtain ⟨e1, e2⟩ := hu
          subst e1; subst e2
          exact absurd ⟨hall2, hmon2⟩ hall
  | t2 :: t3 :: t4 :: more =>
    rw [ParseMRepeat_many]
    simp

/-- C13, witness: "m 31,-1 1,12" is accepted; "m", "m 1 2 3", "m 0", "m 32", "m -3",
"m 1 0", "m 1 13" and "m x" are rejected. -/
theorem ParseRepeat_m_iff_witness :
    ((∃ mr, ParseRepeat 0 0 "m 31,-1 1,12".toList = .ok (.m mr)) ∧
      ParseRepeat 0 0 "m".toList = .error .mRule ∧
      ParseRepeat 0 0 "m 1 2 3".toList = .error .mRule ∧
      ParseRepeat 0 0 "m 0".toList = .error .mDayOutOfRange ∧
      ParseRepeat 0 0 "m 32".toList = .error .mDayOutOfRange ∧
      ParseRepeat 0 0 "m -3".toList = .error .mDayOutOfRange ∧
      ParseRepeat 0 0 "m 1 0".toList = .error .mMonth ∧
      ParseRepeat 0 0 "m 1 13".toList = .error .mMonth ∧
      ParseRepeat 0 0 "m x".toList = .error .mDayNotANumber) ∧
    ((∃ pr, ParseRepeat 0 0 "m 31,-1 1,12".toList = .ok pr) ↔
      ((∃ t2, ["31,-1".toList, "1,12".toList] = [t2] ∧
          ∀ x ∈ Split ',' t2, ∃ k, Atoi x = some k ∧ ((1 ≤ k ∧ k ≤ 31) ∨ k = -1 ∨ k = -2)) ∨
       (∃ t2 t3, ["31,-1".toList, "1,12".toList] = [t2, t3] ∧
          (∀ x ∈ Split ',' t2, ∃ k, Atoi x = some k ∧ ((1 ≤ k ∧ k ≤ 31) ∨ k = -1 ∨ k = -2)) ∧
          ∀ x ∈ Split ',' t3, ∃ n, Atoi x = some n ∧ 1 ≤ n ∧ n ≤ 12))) ∧
    ((¬∃ pr, ParseRepeat 0 0 "m 31,-1 1,12".toList = .ok pr) →
      ∃ e, ParseRepeat 0 0 "m 31,-1 1,12".toList = .error e) :=
  ⟨⟨⟨_, rfl⟩, by decide⟩,
    ParseRepeat_m_iff 0 0 "m 31,-1 1,12".toList ["31,-1".toList, "1,12".toList] (by decide)⟩

/-- A successful `ParseMRepeat` has run its day loop on the entries of the second token. -/
theorem ParseMRepeat_ok_daysLoop (r0 t2 : List Char) (rest : List (List Char))
    (now date : Int) (mr : MRepeat) (h : ParseMRepeat (r0 :: t2 :: rest) now date = .ok mr) :
    ParseMRepeat.daysLoop (startDateForMWrule now date) (Split ',' t2) [] = .ok mr.mDays := by
  match rest with
  | [] =>
    rw [ParseMRepeat_two] at h
    cases hd : ParseMRepeat.daysLoop (startDateForMWrule now date) (Split ',' t2) [] with
    | error e => rw [hd] at h; cases h
    | panic => rw [hd] at h; cases h
    | ok days =>
      rw [hd] at h
      simp only [Res.ok.injEq] at h
      rw [← h]
  | [t3] =>
    rw [ParseMRepeat_three] at h
    cases hd : ParseMRepeat.daysLoop (startDateForMWrule now date) (Split ',' t2) [] with
    | error e => rw [hd] at h; cases h
    | panic => rw [hd] at h; cases h
    | ok days =>
      rw [hd] at h
      cases hm : ParseMRepeat.monthsLoop (Split ',' t3) [] with
      | error e => simp only [hm] at h; cases h
      | panic => simp only [hm] at h; cases h
      | ok months =>
        simp only [hm, Res.ok.injEq] at h
        rw [← h]
  | t3 :: t4 :: more =>
    rw [ParseMRepeat_many] at h
    cases h

theorem ParseRepeat_m_ok (now date : Int) (rep : List Char) (rest : List (List Char))
    (mr : MRepeat) (hs : Split ' ' rep = ['m'] :: rest)
    (hp : ParseRepeat now date rep = .ok (.m mr)) :
    ParseMRepeat (['m'] :: rest) now date = .ok mr := by
  rw [ParseRepeat_m_dispatch now date rep rest hs] at hp
  cases hm : ParseMRepeat (['m'] :: rest) now date with
  | error e => rw [hm] at hp; cases hp
  | panic => rw [hm] at hp; cases hp
  | ok mr2 =>
    rw [hm] at hp
    simp only [Res.ok.injEq, RepeatRule.m.injEq] at hp
    rw [hp]

/-- C20: for every accepted `m` rule, `ParseMRepeat` stores one day per comma-separated
entry of the second token, in order: an entry read as `k` in [1,31] is stored as `k`, -1
as the number of days `daysIn` of the anchor's month in the anchor's year, -2 as that
number minus one, the anchor being `date` if it is after `now` and `now` otherwise; hence
the stored list is non-empty and all stored days lie in [1,31]. -/
theorem ParseMRepeat_days_resolved (now date : Int) (rep t2 : List Char)
    (rest : List (List Char)) (mr : MRepeat) (hs : Split ' ' rep = ['m'] :: t2 :: rest)
    (hp : ParseRepeat now date rep = .ok (.m mr)) :
    List.Forall₂ (fun x n => ∃ k, Atoi x = some k ∧
        ((1 ≤ k ∧ k ≤ 31 ∧ n = k) ∨
         (k = -1 ∧ n = daysIn (Month (startDateForMWrule now date))
            (Year (startDateForMWrule now date))) ∨
         (k = -2 ∧ n = daysIn (Month (startDateForMWrule now date))
            (Year (startDateForMWrule now date)) - 1))) (Split ',' t2) mr.mDays ∧
      mr.mDays ≠ [] ∧ mr.mDays.length = (Split ',' t2).length ∧
      (∀ d ∈ mr.mDays, 1 ≤ d ∧ d ≤ 31) ∧
      startDateForMWrule now date = (if date > now then date else now) := by
  have hm := ParseRepeat_m_ok now date rep (t2 :: rest) mr hs hp
  have hd := ParseMRepeat_ok_daysLoop _ _ _ _ _ _ hm
  obtain ⟨ns, hf, hds⟩ := ParseMRepeat_daysLoop_ok _ _ _ _ hd
  rw [List.nil_append] at hds
  rw [hds]
  have hinv := ParseMRepeat_ok _ _ _ _ hm
  rw [hds] at hinv
  exact ⟨hf, hinv.1, hf.length_eq.symm, hinv.2.1, by simp [startDateForMWrule, After]⟩

/-- C20, witness: "m -1,-2,5" stores [29, 28, 5] for an anchor in February 2024 and
[31, 30, 5] for an anchor in December 2023. -/
theorem ParseMRepeat_days_resolved_witness :
    (ParseRepeat (timeDate 2024 2 10) (timeDate 2024 1 1) "m -1,-2,5".toList =
        .ok (.m { mDays := [29, 28, 5], mMonths := [] }) ∧
      ParseRepeat (timeDate 2023 1 1) (timeDate 2023 12 7) "m -1,-2,5".toList =
        .ok (.m { mDays := [31, 30, 5], mMonths := [] })) ∧
    List.Forall₂ (fun x n => ∃ k, Atoi x = some k ∧
        ((1 ≤ k ∧ k ≤ 31 ∧ n = k) ∨
         (k = -1 ∧ n = daysIn (Month (startDateForMWrule (timeDate 2024 2 10) (timeDate 2024 1 1)))
            (Year (startDateForMWrule (timeDate 2024 2 10) (timeDate 2024 1 1)))) ∨
         (k = -2 ∧ n = daysIn (Month (startDateForMWrule (timeDate 2024 2 10) (timeDate 2024 1 1)))
            (Year (startDateForMWrule (timeDate 2024 2 10) (timeDate 2024 1 1))) - 1)))
        (Split ',' "-1,-2,5".toList) (MRepeat.mk [29, 28, 5] []).mDays ∧
      (MRepeat.mk [29, 28, 5] []).mDays ≠ [] ∧
      (MRepeat.mk [29, 28, 5] []).mDays.length = (Split ',' "-1,-2,5".toList).length ∧
      (∀ d ∈ (MRepeat.mk [29, 28, 5] []).mDays, 1 ≤ d ∧ d ≤ 31) ∧
      startDateForMWrule (timeDate 2024 2 10) (timeDate 2024 1 1) =
        (if timeDate 2024 1 1 > timeDate 2024 2 10 then timeDate 2024 1 1
          else timeDate 2024 2 10) :=
  ⟨by decide, ParseMRepeat_days_resolved (timeDate 2024 2 10) (timeDate 2024 1 1)
    "m -1,-2,5".toList "-1,-2,5".toList [] (MRepeat.mk [29, 28, 5] []) (by decide) (by decide)⟩

/-! ## The rule `m` with months: no listed month left in the year -/

theorem ruleMwithMonth_loop_earlier (mDays : List Int) :
    ∀ (mMonths : List Int) (s : Int), (∀ m ∈ mMonths, m < Month s) →
      ruleMwithMonth.loop mDays mMonths s = 0 := by
  intro mMonths
  induction mMonths with
  | nil => intro s _; rfl
  | cons month rest ih =>
    intro s h
    have hlt := h month (List.mem_cons_self _ _)
    unfold ruleMwithMonth.loop
    rw [if_neg (by omega), if_neg (by omega)]
    exact ih s (fun m hm => h m (List.mem_cons_of_mem _ hm))

theorem MRepeat_GetNextDate_months (days months : List Int) (now date : Int)
    (hm : months ≠ []) :
    MRepeat.GetNextDate { mDays := days, mMonths := months } now date =
      .ok (ruleMwithMonth (startDateForMWrule now date) (sortInts days) (sortInts months)) := by
  cases months with
  | nil => exact absurd rfl hm
  | cons m ms => simp [MRepeat.GetNextDate, MRepeat.hasMonths]

/-- C15: for every accepted `m` rule with a month list in which every listed month is
earlier than the anchor's month, `MRepeat.GetNextDate` returns no error but the zero
date 0001-01-01, and `NextDate` returns "00010101": the search does not go on into the
following year. -/
theorem MRepeat_GetNextDate_months_exhausted (now date : Int) (rep : List Char) (mr : MRepeat)
    (hp : ParseRepeat now date rep = .ok (.m mr)) (hm : mr.mMonths ≠ [])
    (hall : ∀ m ∈ mr.mMonths, m < Month (startDateForMWrule now date)) :
    MRepeat.GetNextDate mr now date = .ok 0 ∧ (0 : Int) = Date 1 1 1 ∧
      ∀ fuel, NextDate fuel now date rep = some (.ok "00010101".toList) := by
  obtain ⟨days, months⟩ := mr
  simp only at hm hall
  have hres : MRepeat.GetNextDate { mDays := days, mMonths := months } now date = .ok 0 := by
    rw [MRepeat_GetNextDate_months days months now date hm]
    unfold ruleMwithMonth
    rw [ruleMwithMonth_loop_earlier]
    intro m hmem
    exact hall m ((mem_sortInts months m).mp hmem)
  refine ⟨hres, by decide, ?_⟩
  intro fuel
  rw [NextDate_of_parsed fuel now date rep _ hp]
  simp only [RepeatRule.GetNextDate, hres]
  decide

/-- C15, witness: the rule "m 5 1,2" with anchor 20 March 2024. -/
theorem MRepeat_GetNextDate_months_exhausted_witness :
    MRepeat.GetNextDate { mDays := [5], mMonths := [1, 2] } (timeDate 2024 3 20)
        (timeDate 2024 1 1) = .ok 0 ∧ (0 : Int) = Date 1 1 1 ∧
      ∀ fuel, NextDate fuel (timeDate 2024 3 20) (timeDate 2024 1 1) "m 5 1,2".toList =
        some (.ok "00010101".toList) :=
  MRepeat_GetNextDate_months_exhausted (timeDate 2024 3 20) (timeDate 2024 1 1)
    "m 5 1,2".toList { mDays := [5], mMonths := [1, 2] } (by decide) (by decide) (by decide)

/-! ## The rule `w`: the formula of the specification -/

/-- C17: with `wd` the weekday number of the anchor (1 = Monday, ..., 7 = Sunday) and a
non-empty list `S` of numbers in [1,7], `WRepeat.GetNextDate` returns the anchor plus
`s - wd` days for the smallest `s` in `S` above `wd` when there is one, and otherwise
the anchor plus `(7 - wd) + min S` days; a Sunday anchor, which the code holds as 0,
falls under the second case. -/
theorem WRepeat_GetNextDate_formula (now date : Int) (S : List Int) (hne : S ≠ [])
    (hS : ∀ s ∈ S, 1 ≤ s ∧ s ≤ 7) :
    (∀ s ∈ S, weekdayNumber (startDateForMWrule now date) < s →
      (∀ s2 ∈ S, weekdayNumber (startDateForMWrule now date) < s2 → s ≤ s2) →
      WRepeat.GetNextDate { nums := S } now date =
        .ok (startDateForMWrule now date +
          (s - weekdayNumber (startDateForMWrule now date)))) ∧
    ((∀ s ∈ S, s ≤ weekdayNumber (startDateForMWrule now date)) →
      ∀ n0 ∈ S, (∀ s ∈ S, n0 ≤ s) →
      WRepeat.GetNextDate { nums := S } now date =
        .ok (startDateForMWrule now date +
          ((7 - weekdayNumber (startDateForMWrule now date)) + n0))) ∧
    (Weekday (startDateForMWrule now date) = 0 →
      weekdayNumber (startDateForMWrule now date) = 7) := by
  generalize ha : startDateForMWrule now date = a
  have hcases := WRepeat_GetNextDate_cases S now date hne
  rw [ha] at hcases
  have hw := Weekday_range a
  refine ⟨?_, ?_, ?_⟩
  · intro s hs hlt hmin
    have hs7 := hS s hs
    have hwd : weekdayNumber a = Weekday a := by
      unfold weekdayNumber at hlt ⊢
      split at hlt
      · omega
      next h0 => rw [if_neg h0]
    rw [hwd] at hlt hmin ⊢
    rcases hcases with ⟨n, hn, hnlt, hnmin, hres⟩ | ⟨n0, _, _, hmax, _⟩
    · have h1 := hnmin s hs hlt
      have h2 := hmin n hn hnlt
      have e : n = s := by omega
      rw [hres, e]
    · have := hmax s hs
      omega
  · intro hmax n0 hn0 hmin
    have hn7 := hS n0 hn0
    by_cases hw0 : Weekday a = 0
    · have hwd : weekdayNumber a = 7 := by unfold weekdayNumber; rw [if_pos hw0]
      rw [hwd]
      rcases hcases with ⟨n, hn, hnlt, hnmin, hres⟩ | ⟨m0, hm0, _, hmax2, _⟩
      · have h1 := hnmin n0 hn0 (by omega)
        have h2 := hmin n hn
        have e : n = n0 := by omega
        rw [hres, e, hw0]
        congr 1
        omega
      · have := hmax2 m0 hm0
        have := hS m0 hm0
        omega
    · have hwd : weekdayNumber a = Weekday a := by unfold weekdayNumber; rw [if_neg hw0]
      rw [hwd] at hmax ⊢
      rcases hcases with ⟨n, hn, hnlt, _, _⟩ | ⟨m0, hm0, hmin2, _, hres⟩
      · have := hmax n hn
        omega
      · have h1 := hmin2 n0 hn0
        have h2 := hmin m0 hm0
        have e : m0 = n0 := by omega
        rw [hres, e]
  · intro h0
    unfold weekdayNumber
    rw [if_pos h0]

/-- C17, witness: the list [1, 3, 5] with a Sunday anchor (7 January 2024) gives the next
Monday, and with a Tuesday anchor (2 January 2024) the Wednesday of the same week. -/
theorem WRepeat_GetNextDate_formula_witness :
    (WRepeat.GetNextDate { nums := [1, 3, 5] } (timeDate 2024 1 7) (timeDate 2024 1 1) =
        .ok (timeDate 2024 1 8) ∧
      WRepeat.GetNextDate { nums := [1, 3, 5] } (timeDate 2024 1 2) (timeDate 2024 1 1) =
        .ok (timeDate 2024 1 3)) ∧
    (∀ s ∈ [1, 3, 5], weekdayNumber (startDateForMWrule (timeDate 2024 1 7) (timeDate 2024 1 1)) < s →
      (∀ s2 ∈ [1, 3, 5], weekdayNumber (startDateForMWrule (timeDate 2024 1 7) (timeDate 2024 1 1))
        < s2 → s ≤ s2) →
      WRepeat.GetNextDate { nums := [1, 3, 5] } (timeDate 2024 1 7) (timeDate 2024 1 1) =
        .ok (startDateForMWrule (timeDate 2024 1 7) (timeDate 2024 1 1) +
          (s - weekdayNumber (startDateForMWrule (timeDate 2024 1 7) (timeDate 2024 1 1))))) ∧
    ((∀ s ∈ [1, 3, 5], s ≤ weekdayNumber (startDateForMWrule (timeDate 2024 1 7) (timeDate 2024 1 1))) →
      ∀ n0 ∈ [1, 3, 5], (∀ s ∈ [1, 3, 5], n0 ≤ s) →
      WRepeat.GetNextDate { nums := [1, 3, 5] } (timeDate 2024 1 7) (timeDate 2024 1 1) =
        .ok (startDateForMWrule (timeDate 2024 1 7) (timeDate 2024 1 1) +
          ((7 - weekdayNumber (startDateForMWrule (timeDate 2024 1 7) (timeDate 2024 1 1))) + n0))) ∧
    (Weekday (startDateForMWrule (timeDate 2024 1 7) (timeDate 2024 1 1)) = 0 →
      weekdayNumber (startDateForMWrule (timeDate 2024 1 7) (timeDate 2024 1 1)) = 7) :=
  ⟨by decide, WRepeat_GetNextDate_formula (timeDate 2024 1 7) (timeDate 2024 1 1) [1, 3, 5]
    (by decide) (by decide)⟩

/-! ## The rule `m` without months: the day above the anchor's day -/

theorem monthLen_short_table : ∀ leap : Bool, ∀ m : Fin 13, 1 ≤ m.val →
    monthLen leap m.val < 31 → m.val < 12 ∧ monthLen leap ((m.val : Int) + 1) = 31 := by
  decide

/-- A month of fewer than 31 days is not December and is followed by a month of 31 days. -/
theorem daysIn_short (m y : Int) (hm : 1 ≤ m) (hm12 : m ≤ 12) (h : daysIn m y < 31) :
    m < 12 ∧ daysIn (m + 1) y = 31 := by
  rw [daysIn_eq] at h ⊢
  lift m to ℕ using (by omega)
  have hlt : m < 13 := by omega
  obtain ⟨a, b⟩ := monthLen_short_table (isLeap y) ⟨m, hlt⟩ (by exact_mod_cast hm) h
  exact ⟨by exact_mod_cast a, b⟩

/-- The result of `MRepeat.GetNextDate` without months when `d` is the smallest listed
day above the anchor's day. -/
theorem MRepeat_GetNextDate_noMonths_above (now date : Int) (days : List Int)
    (hne : days ≠ []) (hr : ∀ s ∈ days, 1 ≤ s ∧ s ≤ 31) (d : Int) (hd : d ∈ days)
    (hgt : Day (startDateForMWrule now date) < d)
    (hmin : ∀ s ∈ days, Day (startDateForMWrule now date) < s → d ≤ s) :
    ∃ t, MRepeat.GetNextDate { mDays := days, mMonths := [] } now date = .ok t ∧
      absDate t =
        (if d ≤ daysIn (Month (startDateForMWrule now date)) (Year (startDateForMWrule now date))
          then (Year (startDateForMWrule now date), Month (startDateForMWrule now date), d)
          else (Year (startDateForMWrule now date), Month (startDateForMWrule now date) + 1, d)) ∧
      (daysIn (Month (startDateForMWrule now date)) (Year (startDateForMWrule now date)) < d →
        Month (startDateForMWrule now date) + 1 ≤ 12 ∧
        d ≤ daysIn (Month (startDateForMWrule now date) + 1)
          (Year (startDateForMWrule now date))) := by
  have hcases := MRepeat_GetNextDate_noMonths_cases now date days hne (fun s hs => (hr s hs).1)
  generalize startDateForMWrule now date = a at hgt hmin hcases ⊢
  obtain ⟨vm, vm12, vd, vd2⟩ := absDate_valid a
  have hb := daysIn_bounds (Month a) (Year a) vm vm12
  have hd31 := hr d hd
  rcases hcases with ⟨day, hmem, hlt, hdmin, hres⟩ | ⟨d0, _, _, hmax, _⟩
  · have e : day = d := by
      have h1 := hdmin d hd hgt
      have h2 := hmin day hmem hlt
      omega
    subst e
    have hsame := Date_same_month a day
    unfold Date at hsame
    rw [← hsame] at hres
    by_cases hfit : day ≤ daysIn (Month a) (Year a)
    · have habs := absDate_timeDate (Year a) (Month a) day vm vm12 (by omega) hfit
      have hD : Day (timeDate (Year a) (Month a) day) = day := congrArg (fun p => p.2.2) habs
      rw [hD, if_neg (by simp)] at hres
      refine ⟨_, hres, ?_, fun h => absurd hfit (by omega)⟩
      rw [if_pos hfit, habs]
    · obtain ⟨hm11, h31⟩ := daysIn_short (Month a) (Year a) vm vm12 (by omega)
      have hnext := timeDate_next_month (Year a) (Month a) vm vm12
      have e1 := timeDate_add_day (Year a) (Month a) 1 (day - 1)
      have e2 := timeDate_add_day (Year a) (Month a + 1) 1 (day - daysIn (Month a) (Year a) - 1)
      rw [show (1 : Int) + (day - 1) = day by ring] at e1
      rw [show (1 : Int) + (day - daysIn (Month a) (Year a) - 1) =
        day - daysIn (Month a) (Year a) by ring] at e2
      have e3 : timeDate (Year a) (Month a) day =
          timeDate (Year a) (Month a + 1) (day - daysIn (Month a) (Year a)) := by omega
      have habs1 := absDate_timeDate (Year a) (Month a + 1) (day - daysIn (Month a) (Year a))
        (by omega) (by omega) (by omega) (by omega)
      have hD : Day (timeDate (Year a) (Month a) day) = day - daysIn (Month a) (Year a) := by
        rw [e3]; exact congrArg (fun p => p.2.2) habs1
      rw [hD, if_pos (by omega)] at hres
      have habs2 := absDate_timeDate (Year a) (Month a + 1) day (by omega) (by omega)
        (by omega) (by omega)
      refine ⟨_, hres, ?_, fun _ => ⟨by omega, by omega⟩⟩
      rw [if_neg hfit]
      exact habs2
  · have := hmax d hd
    omega

/-- C18: for every accepted `m` rule without months in which some resolved day exceeds
the anchor's day of month, with `d` the smallest such day, `MRepeat.GetNextDate` returns
day `d` of the anchor's month when that month has at least `d` days, and otherwise day
`d` of the following month of the same year, which then has at least `d` days: the
returned date has day of month exactly `d`. -/
theorem MRepeat_GetNextDate_noMonths_smallest_above (now date : Int) (rep : List Char)
    (days : List Int)
    (hp : ParseRepeat now date rep = .ok (.m { mDays := days, mMonths := [] }))
    (d : Int) (hd : d ∈ days) (hgt : Day (startDateForMWrule now date) < d)
    (hmin : ∀ s ∈ days, Day (startDateForMWrule now date) < s → d ≤ s) :
    ∃ t, MRepeat.GetNextDate { mDays := days, mMonths := [] } now date = .ok t ∧
      absDate t =
        (if d ≤ daysIn (Month (startDateForMWrule now date)) (Year (startDateForMWrule now date))
          then (Year (startDateForMWrule now date), Month (startDateForMWrule now date), d)
          else (Year (startDateForMWrule now date), Month (startDateForMWrule now date) + 1, d)) ∧
      (daysIn (Month (startDateForMWrule now date)) (Year (startDateForMWrule now date)) < d →
        Month (startDateForMWrule now date) + 1 ≤ 12 ∧
        d ≤ daysIn (Month (startDateForMWrule now date) + 1)
          (Year (startDateForMWrule now date))) := by
  have hinv := ParseRepeat_ok now date rep _ hp
  exact MRepeat_GetNextDate_noMonths_above now date days hinv.1 hinv.2.1 d hd hgt hmin

/-- C18, witness: the rule "m 31" with anchor 15 April 2024 gives 31 May 2024. -/
theorem MRepeat_GetNextDate_noMonths_smallest_above_witness :
    NextDate 0 (timeDate 2024 4 15) (timeDate 2024 1 1) "m 31".toList =
      some (.ok "20240531".toList) ∧
    ∃ t, MRepeat.GetNextDate { mDays := [31], mMonths := [] } (timeDate 2024 4 15)
        (timeDate 2024 1 1) = .ok t ∧
      absDate t =
        (if (31 : Int) ≤ daysIn (Month (startDateForMWrule (timeDate 2024 4 15) (timeDate 2024 1 1)))
            (Year (startDateForMWrule (timeDate 2024 4 15) (timeDate 2024 1 1)))
          then (Year (startDateForMWrule (timeDate 2024 4 15) (timeDate 2024 1 1)),
            Month (startDateForMWrule (timeDate 2024 4 15) (timeDate 2024 1 1)), 31)
          else (Year (startDateForMWrule (timeDate 2024 4 15) (timeDate 2024 1 1)),
            Month (startDateForMWrule (timeDate 2024 4 15) (timeDate 2024 1 1)) + 1, 31)) ∧
      (daysIn (Month (startDateForMWrule (timeDate 2024 4 15) (timeDate 2024 1 1)))
          (Year (startDateForMWrule (timeDate 2024 4 15) (timeDate 2024 1 1))) < 31 →
        Month (startDateForMWrule (timeDate 2024 4 15) (timeDate 2024 1 1)) + 1 ≤ 12 ∧
        31 ≤ daysIn (Month (startDateForMWrule (timeDate 2024 4 15) (timeDate 2024 1 1)) + 1)
          (Year (startDateForMWrule (timeDate 2024 4 15) (timeDate 2024 1 1)))) :=
  ⟨by decide, MRepeat_GetNextDate_noMonths_smallest_above (timeDate 2024 4 15)
    (timeDate 2024 1 1) "m 31".toList [31] (by decide) 31 (by decide) (by decide) (by decide)⟩

/-! ## Formatting -/

theorem toDigitsCore_step (fuel n : Nat) (ds : List Char) (hf : 0 < fuel) :
    Nat.toDigitsCore 10 fuel n ds =
      if n / 10 = 0 then Nat.digitChar (n % 10) :: ds
      else Nat.toDigitsCore 10 (fuel - 1) (n / 10) (Nat.digitChar (n % 10) :: ds) := by
  obtain ⟨f, rfl⟩ : ∃ f, fuel = f + 1 := ⟨fuel - 1, by omega⟩
  simp [Nat.toDigitsCore]

theorem toDigits_four (n : Nat) (h : n < 10000) :
    List.replicate (4 - (Nat.toDigits 10 n).length) '0' ++ Nat.toDigits 10 n = fourDigits n := by
  unfold Nat.toDigits fourDigits
  rw [toDigitsCore_step _ _ _ (by omega)]
  by_cases h1 : n / 10 = 0
  · rw [if_pos h1]
    have a : n / 10 / 10 / 10 % 10 = 0 := by omega
    have b : n / 10 / 10 % 10 = 0 := by omega
    have c : n / 10 % 10 = 0 := by omega
    rw [a, b, c]
    rfl
  · rw [if_neg h1, toDigitsCore_step _ _ _ (by omega)]
    by_cases h2 : n / 10 / 10 = 0
    · rw [if_pos h2]
      have a : n / 10 / 10 / 10 % 10 = 0 := by omega
      have b : n / 10 / 10 % 10 = 0 := by omega
      rw [a, b]
      rfl
    · rw [if_neg h2, toDigitsCore_step _ _ _ (by omega)]
      by_cases h3 : n / 10 / 10 / 10 = 0
      · rw [if_pos h3]
        have a : n / 10 / 10 / 10 % 10 = 0 := by omega
        rw [a]
        rfl
      · rw [if_neg h3, toDigitsCore_step _ _ _ (by omega)]
        rw [if_pos (by omega)]
        rfl

theorem toDigits_two (n : Nat) (h : n < 100) :
    List.replicate (2 - (Nat.toDigits 10 n).length) '0' ++ Nat.toDigits 10 n = twoDigits n := by
  unfold Nat.toDigits twoDigits
  rw [toDigitsCore_step _ _ _ (by omega)]
  by_cases h1 : n / 10 = 0
  · rw [if_pos h1]
    have c : n / 10 % 10 = 0 := by omega
    rw [c]
    rfl
  · rw [if_neg h1, toDigitsCore_step _ _ _ (by omega)]
    rw [if_pos (by omega)]
    rfl

theorem appendInt_four (x : Int) (h0 : 0 ≤ x) (h : x ≤ 9999) :
    appendInt x 4 = fourDigits x.toNat := by
  lift x to ℕ using h0
  unfold appendInt
  simp only [Int.natAbs_ofNat, Int.toNat_ofNat]
  rw [if_neg (by omega), List.nil_append]
  exact toDigits_four x (by omega)

theorem appendInt_two (x : Int) (h0 : 0 ≤ x) (h : x ≤ 99) :
    appendInt x 2 = twoDigits x.toNat := by
  lift x to ℕ using h0
  unfold appendInt
  simp only [Int.natAbs_ofNat, Int.toNat_ofNat]
  rw [if_neg (by omega), List.nil_append]
  exact toDigits_two x (by omega)

theorem digitChar_table : ∀ k : Fin 10,
    digitVal (Nat.digitChar k.val) = some k.val ∧ (Nat.digitChar k.val).isDigit = true := by
  decide

theorem digitChar_digit (k : Nat) (h : k < 10) :
    digitVal (Nat.digitChar k) = some k ∧ (Nat.digitChar k).isDigit = true :=
  digitChar_table ⟨k, h⟩

/-- The layout "20060102" of a date with a year in 0..9999: eight decimal digits that
read as year * 10000 + month * 100 + day. -/
theorem Format20060102_digits (t : Int) (h0 : 0 ≤ Year t) (h : Year t ≤ 9999) :
    (Format20060102 t).length = 8 ∧ (∀ c ∈ Format20060102 t, c.isDigit = true) ∧
      parseDigits (Format20060102 t) 0 =
        some (Year t * 10000 + Month t * 100 + Day t).toNat := by
  obtain ⟨vm, vm12, vd, vd2⟩ := absDate_valid t
  have hb := daysIn_bounds (Month t) (Year t) vm vm12
  unfold Format20060102
  rw [appendInt_four _ h0 h, appendInt_two _ (by omega) (by omega),
    appendInt_two _ (by omega) (by omega)]
  generalize Year t = y at h0 h
  generalize Month t = m at vm vm12
  generalize Day t = d at vd vd2
  lift y to ℕ using h0
  lift m to ℕ using (by omega)
  lift d to ℕ using (by omega)
  simp only [Int.toNat_ofNat]
  have e : (((y : Int) * 10000 + (m : Int) * 100 + (d : Int)).toNat) = y * 10000 + m * 100 + d := by
    omega
  rw [e]
  unfold fourDigits twoDigits
  have d1 := digitChar_digit (y / 10 / 10 / 10 % 10) (by omega)
  have d2 := digitChar_digit (y / 10 / 10 % 10) (by omega)
  have d3 := digitChar_digit (y / 10 % 10) (by omega)
  have d4 := digitChar_digit (y % 10) (by omega)
  have d5 := digitChar_digit (m / 10 % 10) (by omega)
  have d6 := digitChar_digit (m % 10) (by omega)
  have d7 := digitChar_digit (d / 10 % 10) (by omega)
  have d8 := digitChar_digit (d % 10) (by omega)
  refine ⟨rfl, ?_, ?_⟩
  · intro c hc
    simp only [List.cons_append, List.nil_append, List.mem_cons, List.mem_singleton,
      List.mem_nil_iff, or_false] at hc
    rcases hc with hc | hc | hc | hc | hc | hc | hc | hc <;> rw [hc]
    · exact d1.2
    · exact d2.2
    · exact d3.2
    · exact d4.2
    · exact d5.2
    · exact d6.2
    · exact d7.2
    · exact d8.2
  · simp only [List.cons_append, List.nil_append, parseDigits, d1.1, d2.1, d3.1, d4.1, d5.1,
      d6.1, d7.1, d8.1, Option.some.injEq]
    omega

theorem Year_bounds (t : Int) :
    daysSinceEpoch (Year t) ≤ t ∧ t < daysSinceEpoch (Year t + 1) := by
  obtain ⟨e, p, q⟩ := absYearDay_spec t
  have hs := daysSinceEpoch_succ (Year t)
  have hy : Year t = (absYearDay t).1 := rfl
  rw [hy] at hs ⊢
  omega

theorem Year_mono (t u : Int) (h : t ≤ u) : Year t ≤ Year u := by
  by_contra hlt
  obtain ⟨a1, _⟩ := Year_bounds t
  obtain ⟨_, b2⟩ := Year_bounds u
  have hm : daysSinceEpoch (Year u + 1) ≤ daysSinceEpoch (Year t) :=
    daysSinceEpoch_strictMono.monotone (by omega)
  omega

theorem Year_startDate (now date : Int) (h0n : 0 ≤ Year now) (h0d : 0 ≤ Year date) :
    0 ≤ Year (startDateForMWrule now date) := by
  unfold startDateForMWrule
  split <;> assumption

/-- A date returned for a parsed rule is not before year 0 when `now` and `date` are not. -/
theorem RepeatRule_GetNextDate_year_nonneg (fuel : Nat) (now date : Int) (rep : List Char)
    (pr : RepeatRule) (t : Int) (hp : ParseRepeat now date rep = .ok pr)
    (hg : pr.GetNextDate fuel now date = some (.ok t))
    (h0n : 0 ≤ Year now) (h0d : 0 ≤ Year date) : 0 ≤ Year t := by
  have hinv := ParseRepeat_ok now date rep pr hp
  obtain ⟨t0, _, huniq, hlt⟩ := RepeatRule_GetNextDate_total pr now date hinv
  have ht := huniq fuel _ hg
  simp only [Res.ok.injEq] at ht
  subst ht
  have ha := Year_startDate now date h0n h0d
  by_cases hk : ∀ mr, pr ≠ .m mr
  · have := Year_mono now t (by have := hlt hk; omega)
    omega
  · push_neg at hk
    obtain ⟨mr, rfl⟩ := hk
    by_cases hm : mr.mMonths = []
    · obtain ⟨days, months⟩ := mr
      simp only at hm
      subst hm
      obtain ⟨t1, ht1, hlt1⟩ := MRepeat_GetNextDate_noMonths_after now date days hinv.1
        (fun d hd => (hinv.2.1 d hd).1)
      simp only [RepeatRule.GetNextDate, ht1, Option.some.injEq, Res.ok.injEq] at hg
      subst hg
      have := Year_mono _ _ (le_of_lt hlt1)
      omega
    · obtain ⟨t1, ht1, hlt1⟩ :=
        MRepeat_GetNextDate_months_after_month_start now date rep mr hp hm
      simp only [RepeatRule.GetNextDate, ht1, Option.some.injEq, Res.ok.injEq] at hg
      subst hg
      by_cases hz : t1 = 0
      · subst hz
        decide
      · have h1 := hlt1 hz
        obtain ⟨vm, vm12, _, _⟩ := absDate_valid (startDateForMWrule now date)
        have hF : Year (Date (Year (startDateForMWrule now date))
            (Month (startDateForMWrule now date)) 1) = Year (startDateForMWrule now date) := by
          unfold Date
          have hb := daysIn_bounds (Month (startDateForMWrule now date))
            (Year (startDateForMWrule now date)) vm vm12
          exact congrArg (fun p => p.1) (absDate_timeDate (Year (startDateForMWrule now date))
            (Month (startDateForMWrule now date)) 1 vm vm12 (le_refl _) (by omega))
        have := Year_mono _ _ (le_of_lt h1)
        omega

/-- C16, counterexample: with now = date = 31 December 9999 and the rule "d 1" the
computed date is 1 January 10000 and `NextDate` returns the nine characters
"100000101". -/
theorem NextDate_format_counterexample :
    Year (timeDate 9999 12 31) = 9999 ∧
      NextDate 1 (timeDate 9999 12 31) (timeDate 9999 12 31) "d 1".toList =
        some (.ok "100000101".toList) ∧
      "100000101".toList.length ≠ 8 := by
  decide

/-- C16, amended: for `now` and `date` with a year in 0..9999 and every rule text, when
`NextDate` returns a string it is the layout "20060102" of the date computed by the
evaluator, and whenever the year of that date is at most 9999 the string has exactly 8
characters, all decimal digits, which read as year * 10000 + month * 100 + day. -/
theorem NextDate_format (fuel : Nat) (now date : Int) (rep s : List Char)
    (h0n : 0 ≤ Year now) (_hn : Year now ≤ 9999) (h0d : 0 ≤ Year date)
    (_hd : Year date ≤ 9999) (hres : NextDate fuel now date rep = some (.ok s)) :
    ∃ pr t, ParseRepeat now date rep = .ok pr ∧ pr.GetNextDate fuel now date = some (.ok t) ∧
      s = Format20060102 t ∧
      (Year t ≤ 9999 →
        s.length = 8 ∧ (∀ c ∈ s, c.isDigit = true) ∧
        parseDigits s 0 = some (Year t * 10000 + Month t * 100 + Day t).toNat) := by
  cases hp : ParseRepeat now date rep with
  | error e => simp [NextDate, hp] at hres
  | panic => simp [NextDate, hp] at hres
  | ok pr =>
    rw [NextDate_of_parsed fuel now date rep pr hp] at hres
    cases hg : pr.GetNextDate fuel now date with
    | none => simp [hg] at hres
    | some r =>
      cases r with
      | error e => simp [hg] at hres
      | panic => simp [hg] at hres
      | ok t =>
        simp only [hg, Option.some.injEq, Res.ok.injEq] at hres
        refine ⟨pr, t, rfl, hg, hres.symm, ?_⟩
        intro hy
        rw [← hres]
        exact Format20060102_digits t
          (RepeatRule_GetNextDate_year_nonneg fuel now date rep pr t hp hg h0n h0d) hy

/-- C16, witness: rule "d 7", date 20240101, now 20240105. -/
theorem NextDate_format_witness :
    ∃ pr t, ParseRepeat (timeDate 2024 1 5) (timeDate 2024 1 1) "d 7".toList = .ok pr ∧
      pr.GetNextDate 1 (timeDate 2024 1 5) (timeDate 2024 1 1) = some (.ok t) ∧
      "20240108".toList = Format20060102 t ∧
      (Year t ≤ 9999 →
        "20240108".toList.length = 8 ∧ (∀ c ∈ "20240108".toList, c.isDigit = true) ∧
        parseDigits "20240108".toList 0 = some (Year t * 10000 + Month t * 100 + Day t).toNat) :=
  NextDate_format 1 (timeDate 2024 1 5) (timeDate 2024 1 1) "d 7".toList "20240108".toList
    (by decide) (by decide) (by decide) (by decide) (by decide)

/-! ## The rule `m` with months: the month and day that are found -/

theorem ruleMwithMonth_sameMonth_found (dayInMonth s dstar : Int) (hs : Day s = 1)
    (h1 : 1 < dstar) (hfit : dstar ≤ dayInMonth) :
    ∀ (mDays : List Int), mDays.Sorted (fun a b => a ≤ b) → dstar ∈ mDays →
      (∀ d ∈ mDays, 1 < d → d ≤ dayInMonth → dstar ≤ d) →
      ruleMwithMonth.sameMonth dayInMonth mDays s =
        .found (Date (Year s) (Month s) dstar) := by
  intro mDays
  induction mDays with
  | nil => intro _ hmem; simp at hmem
  | cons day rest ih =>
    intro hsorted hmem hmin
    have hle : day ≤ dstar := by
      rcases List.mem_cons.mp hmem with e | e
      · omega
      · exact List.rel_of_sorted_cons hsorted dstar e
    unfold ruleMwithMonth.sameMonth
    rw [hs]
    by_cases hc : day > 1 ∧ day ≤ dayInMonth
    · rw [if_pos hc]
      have := hmin day (List.mem_cons_self _ _) hc.1 hc.2
      have e : day = dstar := by omega
      rw [e]
    · rw [if_neg hc, if_neg (by omega)]
      have hne : dstar ≠ day := by
        intro e; apply hc; rw [← e]; exact ⟨h1, hfit⟩
      have hmem2 : dstar ∈ rest := by
        rcases List.mem_cons.mp hmem with e | e
        · exact absurd e hne
        · exact e
      exact ih (List.Sorted.of_cons hsorted) hmem2
        (fun d hd => hmin d (List.mem_cons_of_mem _ hd))

theorem ruleMwithMonth_sameMonth_none (dayInMonth s : Int) (hs : Day s = 1) :
    ∀ (mDays : List Int), (∀ d ∈ mDays, d ≤ 1) →
      ruleMwithMonth.sameMonth dayInMonth mDays s = .goOn s := by
  intro mDays
  induction mDays with
  | nil => intro _; rfl
  | cons day rest ih =>
    intro h
    have := h day (List.mem_cons_self _ _)
    unfold ruleMwithMonth.sameMonth
    rw [hs, if_neg (by omega), if_neg (by omega)]
    exact ih (fun d hd => h d (List.mem_cons_of_mem _ hd))

theorem ruleMwithMonth_laterMonth_head (dayInMonth s d0 : Int) (rest : List Int)
    (hs : Day s = 1) (h1 : 1 ≤ d0) (hfit : d0 ≤ dayInMonth) :
    ruleMwithMonth.laterMonth dayInMonth (d0 :: rest) s =
      .found (Date (Year s) (Month s) d0) := by
  unfold ruleMwithMonth.laterMonth
  rw [hs, if_pos ⟨h1, hfit⟩]

/-- The first day of month `m` of year `y`, as `Date(y, m, 1)` builds it, and the length
of that month as the idiom `Date(y, m + 1, 0).Day()` computes it. -/
theorem Date_first (y m : Int) (hm : 1 ≤ m) (hm12 : m ≤ 12) :
    Year (Date y m 1) = y ∧ Month (Date y m 1) = m ∧ Day (Date y m 1) = 1 ∧
      Day (Date (Year (Date y m 1)) (Month (Date y m 1) + 1) 0) = daysIn m y := by
  have hb := daysIn_bounds m y hm hm12
  have habs : absDate (Date y m 1) = (y, m, 1) :=
    absDate_timeDate y m 1 hm hm12 (le_refl _) (by omega)
  have e1 : Year (Date y m 1) = y := congrArg (fun p => p.1) habs
  have e2 : Month (Date y m 1) = m := congrArg (fun p => p.2.1) habs
  have e3 : Day (Date y m 1) = 1 := congrArg (fun p => p.2.2) habs
  refine ⟨e1, e2, e3, ?_⟩
  rw [Day_last_day, e1, e2]

/-- The month loop of `ruleMwithMonth` on ascending days and months, started in month
`m0` of year `y`: when `mstar` is the first listed month from `m0` on with a fitting day,
and no listed day is too large for a listed month between `m0` and `mstar`, the loop
returns day `dstar`, the smallest fitting day, of month `mstar`. -/
theorem ruleMwithMonth_loop_found (mDays : List Int) (hDs : mDays.Sorted (fun a b => a ≤ b))
    (hD : ∀ d ∈ mDays, 1 ≤ d) (y m0 mstar dstar : Int) (hm0 : 1 ≤ m0)
    (hge : m0 ≤ mstar) (hle : mstar ≤ 12) (hd : dstar ∈ mDays)
    (hfit : dstar ≤ daysIn mstar y) (hcond : (if mstar = m0 then 1 < dstar else 1 ≤ dstar))
    (hdmin : ∀ d ∈ mDays, d ≤ daysIn mstar y → (if mstar = m0 then 1 < d else 1 ≤ d) →
      dstar ≤ d) :
    ∀ (mMonths : List Int), mMonths.Sorted (fun a b => a ≤ b) → mstar ∈ mMonths →
      (∀ m ∈ mMonths, m0 ≤ m → m < mstar →
        (¬∃ d ∈ mDays, d ≤ daysIn m y ∧ (if m = m0 then 1 < d else 1 ≤ d)) ∧
        ∀ d ∈ mDays, d ≤ daysIn m y) →
      ∀ s : Int, Year s = y → Month s = m0 →
        ruleMwithMonth.loop mDays mMonths s = Date y mstar dstar := by
  intro mMonths
  induction mMonths with
  | nil => intro _ hmem; simp at hmem
  | cons month rest ih =>
    intro hsorted hmem hbetween s hy hm
    by_cases hmonth : month = mstar
    · subst hmonth
      obtain ⟨f1, f2, f3, f4⟩ := Date_first y month (by omega) hle
      unfold ruleMwithMonth.loop
      rw [hy, hm]
      by_cases hsame : month = m0
      · rw [if_pos hsame]
        rw [if_pos hsame] at hcond
        simp only [f4]
        have hscan := ruleMwithMonth_sameMonth_found (daysIn month y) (Date y month 1) dstar f3
          hcond hfit mDays hDs hd
          (fun d hd1 h1 h2 => hdmin d hd1 h2 (by rw [if_pos hsame]; exact h1))
        rw [hscan, f1, f2]
      · rw [if_neg hsame, if_pos (by omega)]
        simp only [f4]
        cases hlist : mDays with
        | nil => rw [hlist] at hd; simp at hd
        | cons d0 ds =>
          rw [hlist] at hDs hd hD hdmin
          have h1 : 1 ≤ d0 := hD d0 (List.mem_cons_self _ _)
          have h2 : d0 ≤ dstar := by
            rcases List.mem_cons.mp hd with e | e
            · omega
            · exact List.rel_of_sorted_cons hDs dstar e
          have h3 := hdmin d0 (List.mem_cons_self _ _) (by omega)
            (by rw [if_neg hsame]; exact h1)
          rw [ruleMwithMonth_laterMonth_head (daysIn month y) (Date y month 1) d0 ds f3 h1
            (by omega), f1, f2]
          have e : d0 = dstar := by omega
          rw [e]
    · have hmem2 : mstar ∈ rest := by
        rcases List.mem_cons.mp hmem with e | e
        · exact absurd e.symm hmonth
        · exact e
      have hlt : month < mstar := by
        have := List.rel_of_sorted_cons hsorted mstar hmem2
        omega
      have hrest := ih (List.Sorted.of_cons hsorted) hmem2
        (fun m hmm => hbetween m (List.mem_cons_of_mem _ hmm))
      unfold ruleMwithMonth.loop
      rw [hy, hm]
      by_cases hsame : month = m0
      · rw [if_pos hsame]
        obtain ⟨f1, f2, f3, f4⟩ := Date_first y month (by omega) (by omega)
        obtain ⟨hno, hall⟩ := hbetween month (List.mem_cons_self _ _) (by omega) hlt
        have hones : ∀ d ∈ mDays, d ≤ 1 := by
          intro d hd1
          by_contra hgt
          exact hno ⟨d, hd1, hall d hd1, by rw [if_pos hsame]; omega⟩
        simp only [f4]
        rw [ruleMwithMonth_sameMonth_none (daysIn month y) (Date y month 1) f3 mDays hones]
        exact hrest (Date y month 1) f1 (by rw [f2]; exact hsame)
      · rw [if_neg hsame]
        by_cases hgt : month > m0
        · exfalso
          obtain ⟨hno, hall⟩ := hbetween month (List.mem_cons_self _ _) (by omega) hlt
          exact hno ⟨dstar, hd, hall dstar hd, by rw [if_neg hsame]; exact hD dstar hd⟩
        · rw [if_neg hgt]
          exact hrest s hy hm

/-- C19, the code at the failing input: with now = 10 February 2023 and the rule
"m 1,31 2,3" no listed day fits February, the anchor's month (1 is not above 1, 31 exceeds
28), and 1 is the smallest day fitting March, yet the evaluator returns 31 March 2023 and
not 1 March 2023: the day 31 has moved the start date to March, so that March is then
searched as if it were the anchor's month, with the strict comparison. With "m 30,31 2,3"
and anchor 20 January 2024 both days exceed the 29 days of February and move the start
date on to 1 April: day 30 fits March, but March is never searched and the evaluator
returns the zero date. With the distinct days 29, 30, 31 and the months 2, 3, 4, 5 from
10 February 2023 the result is 29 May 2023 although 29 fits March. -/
theorem MRepeat_GetNextDate_months_not_first_fit :
    ParseRepeat (timeDate 2023 2 10) (timeDate 2023 1 1) "m 1,31 2,3".toList =
        .ok (.m { mDays := [1, 31], mMonths := [2, 3] }) ∧
      Year (startDateForMWrule (timeDate 2023 2 10) (timeDate 2023 1 1)) = 2023 ∧
      Month (startDateForMWrule (timeDate 2023 2 10) (timeDate 2023 1 1)) = 2 ∧
      (∀ d ∈ [(1 : Int), 31], ¬(d ≤ daysIn 2 2023 ∧ 1 < d)) ∧
      ((1 : Int) ∈ [(1 : Int), 31] ∧ (1 : Int) ≤ daysIn 3 2023 ∧
        ∀ d ∈ [(1 : Int), 31], d ≤ daysIn 3 2023 → 1 ≤ d → 1 ≤ d) ∧
      MRepeat.GetNextDate { mDays := [1, 31], mMonths := [2, 3] } (timeDate 2023 2 10)
        (timeDate 2023 1 1) = .ok (timeDate 2023 3 31) ∧
      timeDate 2023 3 31 ≠ Date 2023 3 1 ∧
      ParseRepeat (timeDate 2024 1 20) (timeDate 2024 1 1) "m 30,31 2,3".toList =
        .ok (.m { mDays := [30, 31], mMonths := [2, 3] }) ∧
      Year (startDateForMWrule (timeDate 2024 1 20) (timeDate 2024 1 1)) = 2024 ∧
      Month (startDateForMWrule (timeDate 2024 1 20) (timeDate 2024 1 1)) = 1 ∧
      (∀ d ∈ [(30 : Int), 31], ¬(d ≤ daysIn 2 2024)) ∧
      ((30 : Int) ∈ [(30 : Int), 31] ∧ (30 : Int) ≤ daysIn 3 2024 ∧
        ∀ d ∈ [(30 : Int), 31], 30 ≤ d) ∧
      MRepeat.GetNextDate { mDays := [30, 31], mMonths := [2, 3] } (timeDate 2024 1 20)
        (timeDate 2024 1 1) = .ok 0 ∧
      Date 2024 3 30 ≠ 0 ∧
      ruleMwithMonth (timeDate 2023 2 10) [29, 30, 31] [2, 3, 4, 5] = timeDate 2023 5 29 ∧
      (29 : Int) ≤ daysIn 3 2023 ∧
      timeDate 2023 5 29 ≠ Date 2023 3 29 := by
  and_intros
  all_goals decide

/-- What does hold of an accepted `m` rule with a month list when the start date is never
shifted: let `mstar` be the smallest listed month, not earlier than the anchor's month,
with a listed day `d` that fits it (`d ≤ daysIn mstar year`, and `d > 1` when `mstar` is
the anchor's month, `d ≥ 1` when it is later), and `dstar` the smallest such day. If no
listed day exceeds the length of a listed month from the anchor's month up to, but not
including, `mstar`, then `MRepeat.GetNextDate` returns day `dstar` of month `mstar` of the
anchor's year. -/
theorem MRepeat_GetNextDate_months_first_fit (now date : Int) (rep : List Char) (mr : MRepeat)
    (hp : ParseRepeat now date rep = .ok (.m mr)) (hm : mr.mMonths ≠ [])
    (mstar dstar : Int) (hmem : mstar ∈ mr.mMonths)
    (hge : Month (startDateForMWrule now date) ≤ mstar) (hd : dstar ∈ mr.mDays)
    (hfit : dstar ≤ daysIn mstar (Year (startDateForMWrule now date)))
    (hcond : if mstar = Month (startDateForMWrule now date) then 1 < dstar else 1 ≤ dstar)
    (hdmin : ∀ d ∈ mr.mDays, d ≤ daysIn mstar (Year (startDateForMWrule now date)) →
      (if mstar = Month (startDateForMWrule now date) then 1 < d else 1 ≤ d) → dstar ≤ d)
    (hfirst : ∀ m ∈ mr.mMonths, Month (startDateForMWrule now date) ≤ m → m < mstar →
      ¬∃ d ∈ mr.mDays, d ≤ daysIn m (Year (startDateForMWrule now date)) ∧
        (if m = Month (startDateForMWrule now date) then 1 < d else 1 ≤ d))
    (hnoshift : ∀ m ∈ mr.mMonths, Month (startDateForMWrule now date) ≤ m → m < mstar →
      ∀ d ∈ mr.mDays, d ≤ daysIn m (Year (startDateForMWrule now date))) :
    MRepeat.GetNextDate mr now date =
        .ok (Date (Year (startDateForMWrule now date)) mstar dstar) ∧
      absDate (Date (Year (startDateForMWrule now date)) mstar dstar) =
        (Year (startDateForMWrule now date), mstar, dstar) := by
  have hinv := ParseRepeat_ok now date rep _ hp
  obtain ⟨days, months⟩ := mr
  simp only at hm hmem hd hdmin hfirst hnoshift
  obtain ⟨_, hdays, hmonths⟩ := hinv
  simp only at hdays hmonths
  obtain ⟨vm, vm12, _, _⟩ := absDate_valid (startDateForMWrule now date)
  have h12 := (hmonths mstar hmem).2
  have h1d := (hdays dstar hd).1
  refine ⟨?_, absDate_timeDate _ _ _ (by omega) h12 h1d hfit⟩
  rw [MRepeat_GetNextDate_months days months now date hm]
  unfold ruleMwithMonth
  rw [ruleMwithMonth_loop_found (sortInts days) (sortInts_sorted days)
    (fun d hd1 => (hdays d ((mem_sortInts days d).mp hd1)).1)
    (Year (startDateForMWrule now date)) (Month (startDateForMWrule now date)) mstar dstar
    vm hge h12 ((mem_sortInts days dstar).mpr hd) hfit hcond
    (fun d hd1 => hdmin d ((mem_sortInts days d).mp hd1))
    (sortInts months) (sortInts_sorted months) ((mem_sortInts months mstar).mpr hmem)
    ?_ (startDateForMWrule now date) rfl rfl]
  intro m hmm h1 h2
  have hmm2 := (mem_sortInts months m).mp hmm
  refine ⟨?_, fun d hd1 => hnoshift m hmm2 h1 h2 d ((mem_sortInts days d).mp hd1)⟩
  rintro ⟨d, hd1, hd2⟩
  exact hfirst m hmm2 h1 h2 ⟨d, (mem_sortInts days d).mp hd1, hd2⟩

/-- An instance of the search without a shift: the rule "m 1 3,6" with anchor
20 March 2024: day 1 does not count in March, the anchor's month, and the evaluator returns
1 June 2024. -/
theorem MRepeat_GetNextDate_months_first_fit_witness :
    MRepeat.GetNextDate { mDays := [1], mMonths := [3, 6] } (timeDate 2024 3 20)
        (timeDate 2024 1 1) =
        .ok (Date (Year (startDateForMWrule (timeDate 2024 3 20) (timeDate 2024 1 1))) 6 1) ∧
      absDate (Date (Year (startDateForMWrule (timeDate 2024 3 20) (timeDate 2024 1 1))) 6 1) =
        (Year (startDateForMWrule (timeDate 2024 3 20) (timeDate 2024 1 1)), 6, 1) :=
  MRepeat_GetNextDate_months_first_fit (timeDate 2024 3 20) (timeDate 2024 1 1)
    "m 1 3,6".toList { mDays := [1], mMonths := [3, 6] } (by decide) (by decide) 6 1
    (by decide) (by decide) (by decide) (by decide) (by decide) (by decide) (by decide)
    (by decide)

/-! ## The rule `m` with months: what a returned date looks like -/

theorem ruleMwithMonth_sameMonth_found_inv (dayInMonth s1 : Int) :
    ∀ (mDays : List Int), mDays.Sorted (fun a b => a ≤ b) → ∀ s : Int,
      (s = s1 ∨ ∀ d ∈ mDays, dayInMonth < d) → ∀ r : Int,
      ruleMwithMonth.sameMonth dayInMonth mDays s = .found r →
      ∃ d ∈ mDays, d ≤ dayInMonth ∧ r = Date (Year s1) (Month s1) d := by
  intro mDays
  induction mDays with
  | nil => intro _ s _ r h; simp [ruleMwithMonth.sameMonth] at h
  | cons day rest ih =>
    intro hsorted s hs r h
    unfold ruleMwithMonth.sameMonth at h
    by_cases hc : day > Day s ∧ day ≤ dayInMonth
    · rw [if_pos hc] at h
      simp only [DayScan.found.injEq] at h
      rcases hs with e | hall
      · subst e
        exact ⟨day, List.mem_cons_self _ _, hc.2, h.symm⟩
      · have := hall day (List.mem_cons_self _ _)
        omega
    · rw [if_neg hc] at h
      by_cases hc2 : day > Day s ∧ day > dayInMonth
      · rw [if_pos hc2] at h
        obtain ⟨d, hd, hfit, hr⟩ := ih (List.Sorted.of_cons hsorted) _
          (Or.inr (fun d hd => by
            have := List.rel_of_sorted_cons hsorted d hd
            omega)) r h
        exact ⟨d, List.mem_cons_of_mem _ hd, hfit, hr⟩
      · rw [if_neg hc2] at h
        obtain ⟨d, hd, hfit, hr⟩ := ih (List.Sorted.of_cons hsorted) s
          (hs.imp id (fun hall d hd => hall d (List.mem_cons_of_mem _ hd))) r h
        exact ⟨d, List.mem_cons_of_mem _ hd, hfit, hr⟩

theorem ruleMwithMonth_laterMonth_found_inv (dayInMonth s1 : Int) :
    ∀ (mDays : List Int), mDays.Sorted (fun a b => a ≤ b) → ∀ s : Int,
      (s = s1 ∨ ∀ d ∈ mDays, dayInMonth < d) → ∀ r : Int,
      ruleMwithMonth.laterMonth dayInMonth mDays s = .found r →
      ∃ d ∈ mDays, d ≤ dayInMonth ∧ r = Date (Year s1) (Month s1) d := by
  intro mDays
  induction mDays with
  | nil => intro _ s _ r h; simp [ruleMwithMonth.laterMonth] at h
  | cons day rest ih =>
    intro hsorted s hs r h
    unfold ruleMwithMonth.laterMonth at h
    by_cases hc : day ≥ Day s ∧ day ≤ dayInMonth
    · rw [if_pos hc] at h
      simp only [DayScan.found.injEq] at h
      rcases hs with e | hall
      · subst e
        exact ⟨day, List.mem_cons_self _ _, hc.2, h.symm⟩
      · have := hall day (List.mem_cons_self _ _)
        omega
    · rw [if_neg hc] at h
      by_cases hc2 : day > Day s ∧ day > dayInMonth
      · rw [if_pos hc2] at h
        obtain ⟨d, hd, hfit, hr⟩ := ih (List.Sorted.of_cons hsorted) _
          (Or.inr (fun d hd => by
            have := List.rel_of_sorted_cons hsorted d hd
            omega)) r h
        exact ⟨d, List.mem_cons_of_mem _ hd, hfit, hr⟩
      · rw [if_neg hc2] at h
        obtain ⟨d, hd, hfit, hr⟩ := ih (List.Sorted.of_cons hsorted) s
          (hs.imp id (fun hall d hd => hall d (List.mem_cons_of_mem _ hd))) r h
        exact ⟨d, List.mem_cons_of_mem _ hd, hfit, hr⟩

theorem monthLen_room_table : ∀ leap : Bool, ∀ m : Fin 13, 1 ≤ m.val →
    (m.val : Int) + (31 - monthLen leap m.val) ≤ 12 := by
  decide

/-- Counting one month per day that a month is short of 31 never leaves the year. -/
theorem daysIn_room (m y : Int) (hm : 1 ≤ m) (hm12 : m ≤ 12) : m + (31 - daysIn m y) ≤ 12 := by
  rw [daysIn_eq]
  lift m to ℕ using (by omega)
  have hlt : m < 13 := by omega
  exact monthLen_room_table (isLeap y) ⟨m, hlt⟩ (by exact_mod_cast hm)

/-- With strictly ascending days up to 31, the shifts of the start date in the inner loop
of the branch `month == startdate.Month()` stay within the year. -/
theorem ruleMwithMonth_sameMonth_goOn_year (y m dayInMonth : Int) (hm : 1 ≤ m)
    (hroom : m + (31 - dayInMonth) ≤ 12) :
    ∀ (mDays : List Int), mDays.Sorted (fun a b => a < b) → (∀ d ∈ mDays, d ≤ 31) →
      ∀ j : Int, 0 ≤ j → m + j ≤ 12 → (∀ d ∈ mDays, dayInMonth < d → dayInMonth + j < d) →
      ∀ s2 : Int, ruleMwithMonth.sameMonth dayInMonth mDays (Date y (m + j) 1) = .goOn s2 →
      Year s2 = y := by
  intro mDays
  induction mDays with
  | nil =>
    intro _ _ j hj hj12 _ s2 h
    simp only [ruleMwithMonth.sameMonth, DayScan.goOn.injEq] at h
    rw [← h]
    exact (Date_first y (m + j) (by omega) hj12).1
  | cons day rest ih =>
    intro hsorted h31 j hj hj12 hinv s2 h
    obtain ⟨f1, f2, f3, _⟩ := Date_first y (m + j) (by omega) hj12
    have hrest31 : ∀ d ∈ rest, d ≤ 31 := fun d hd => h31 d (List.mem_cons_of_mem _ hd)
    unfold ruleMwithMonth.sameMonth at h
    rw [f1, f2, f3] at h
    by_cases hc : day > 1 ∧ day ≤ dayInMonth
    · rw [if_pos hc] at h; cases h
    · rw [if_neg hc] at h
      by_cases hc2 : day > 1 ∧ day > dayInMonth
      · rw [if_pos hc2, show m + j + 1 = m + (j + 1) by ring] at h
        have h1 := hinv day (List.mem_cons_self _ _) hc2.2
        have h2 := h31 day (List.mem_cons_self _ _)
        refine ih (List.Sorted.of_cons hsorted) hrest31 (j + 1) (by omega) (by omega) ?_ s2 h
        intro d hd _
        have := List.rel_of_sorted_cons hsorted d hd
        omega
      · rw [if_neg hc2] at h
        exact ih (List.Sorted.of_cons hsorted) hrest31 j hj hj12
          (fun d hd => hinv d (List.mem_cons_of_mem _ hd)) s2 h

/-- With strictly ascending days up to 31, the shifts of the start date in the inner loop
of the branch `month > startdate.Month()` stay within the year. -/
theorem ruleMwithMonth_laterMonth_goOn_year (y m dayInMonth : Int) (hm : 1 ≤ m)
    (hroom : m + (31 - dayInMonth) ≤ 12) :
    ∀ (mDays : List Int), mDays.Sorted (fun a b => a < b) → (∀ d ∈ mDays, d ≤ 31) →
      ∀ j : Int, 0 ≤ j → m + j ≤ 12 → (∀ d ∈ mDays, dayInMonth < d → dayInMonth + j < d) →
      ∀ s2 : Int, ruleMwithMonth.laterMonth dayInMonth mDays (Date y (m + j) 1) = .goOn s2 →
      Year s2 = y := by
  intro mDays
  induction mDays with
  | nil =>
    intro _ _ j hj hj12 _ s2 h
    simp only [ruleMwithMonth.laterMonth, DayScan.goOn.injEq] at h
    rw [← h]
    exact (Date_first y (m + j) (by omega) hj12).1
  | cons day rest ih =>
    intro hsorted h31 j hj hj12 hinv s2 h
    obtain ⟨f1, f2, f3, _⟩ := Date_first y (m + j) (by omega) hj12
    have hrest31 : ∀ d ∈ rest, d ≤ 31 := fun d hd => h31 d (List.mem_cons_of_mem _ hd)
    unfold ruleMwithMonth.laterMonth at h
    rw [f1, f2, f3] at h
    by_cases hc : day ≥ 1 ∧ day ≤ dayInMonth
    · rw [if_pos hc] at h; cases h
    · rw [if_neg hc] at h
      by_cases hc2 : day > 1 ∧ day > dayInMonth
      · rw [if_pos hc2, show m + j + 1 = m + (j + 1) by ring] at h
        have h1 := hinv day (List.mem_cons_self _ _) hc2.2
        have h2 := h31 day (List.mem_cons_self _ _)
        refine ih (List.Sorted.of_cons hsorted) hrest31 (j + 1) (by omega) (by omega) ?_ s2 h
        intro d hd _
        have := List.rel_of_sorted_cons hsorted d hd
        omega
      · rw [if_neg hc2] at h
        exact ih (List.Sorted.of_cons hsorted) hrest31 j hj hj12
          (fun d hd => hinv d (List.mem_cons_of_mem _ hd)) s2 h

/-- Shape of a date returned by the month loop of `ruleMwithMonth`: its month is one of the
listed months, not below `lo` when the start month or every listed month is not below
`lo`; its day is a listed day that fits the month; with strictly ascending days its year
is the year of the start date. -/
theorem ruleMwithMonth_loop_shape (mDays : List Int)
    (hDs : mDays.Sorted (fun a b => a ≤ b)) (hD : ∀ d ∈ mDays, 1 ≤ d ∧ d ≤ 31) :
    ∀ (mMonths : List Int), mMonths.Sorted (fun a b => a ≤ b) →
      (∀ m ∈ mMonths, 1 ≤ m ∧ m ≤ 12) → ∀ s lo : Int,
      (lo ≤ Month s ∨ ∀ m ∈ mMonths, lo ≤ m) →
      ruleMwithMonth.loop mDays mMonths s = 0 ∨
        ∃ yr m d, m ∈ mMonths ∧ lo ≤ m ∧ d ∈ mDays ∧ d ≤ daysIn m yr ∧
          absDate (ruleMwithMonth.loop mDays mMonths s) = (yr, m, d) ∧
          (mDays.Sorted (fun a b => a < b) → yr = Year s) := by
  intro mMonths
  induction mMonths with
  | nil => intro _ _ s lo _; left; rfl
  | cons month rest ih =>
    intro hMs hM s lo hlo
    have hrest : ∀ m ∈ rest, 1 ≤ m ∧ m ≤ 12 := fun m hm => hM m (List.mem_cons_of_mem _ hm)
    have hrestS := List.Sorted.of_cons hMs
    have hmonth := hM month (List.mem_cons_self _ _)
    have h31 : ∀ d ∈ mDays, d ≤ 31 := fun d hd => (hD d hd).2
    obtain ⟨f1, f2, f3, f4⟩ := Date_first (Year s) month hmonth.1 hmonth.2
    have hroom := daysIn_room month (Year s) hmonth.1 hmonth.2
    have lift : ∀ t : Int, (ruleMwithMonth.loop mDays rest t = 0 ∨
        ∃ yr m d, m ∈ rest ∧ lo ≤ m ∧ d ∈ mDays ∧ d ≤ daysIn m yr ∧
          absDate (ruleMwithMonth.loop mDays rest t) = (yr, m, d) ∧
          (mDays.Sorted (fun a b => a < b) → yr = Year t)) → Year t = Year s →
        (ruleMwithMonth.loop mDays rest t = 0 ∨
        ∃ yr m d, m ∈ month :: rest ∧ lo ≤ m ∧ d ∈ mDays ∧ d ≤ daysIn m yr ∧
          absDate (ruleMwithMonth.loop mDays rest t) = (yr, m, d) ∧
          (mDays.Sorted (fun a b => a < b) → yr = Year s)) := by
      intro t h hy
      rcases h with h | ⟨yr, m, d, h1, h2, h3, h4, h5, h6⟩
      · left; exact h
      · right
        exact ⟨yr, m, d, List.mem_cons_of_mem _ h1, h2, h3, h4, h5, fun hs => by rw [h6 hs, hy]⟩
    have hgo : ∀ t : Int, lo ≤ month → (mDays.Sorted (fun a b => a < b) → Year t = Year s) →
        (ruleMwithMonth.loop mDays rest t = 0 ∨
        ∃ yr m d, m ∈ month :: rest ∧ lo ≤ m ∧ d ∈ mDays ∧ d ≤ daysIn m yr ∧
          absDate (ruleMwithMonth.loop mDays rest t) = (yr, m, d) ∧
          (mDays.Sorted (fun a b => a < b) → yr = Year s)) := by
      intro t hl hy
      have hall : ∀ m ∈ rest, lo ≤ m := fun m hm => by
        have := List.rel_of_sorted_cons hMs m hm
        omega
      rcases ih hrestS hrest t lo (Or.inr hall) with h | ⟨yr, m, d, h1, h2, h3, h4, h5, h6⟩
      · left; exact h
      · right
        exact ⟨yr, m, d, List.mem_cons_of_mem _ h1, h2, h3, h4, h5,
          fun hs => by rw [h6 hs, hy hs]⟩
    have hfound : ∀ r : Int, lo ≤ month →
        (∃ d ∈ mDays, d ≤ daysIn month (Year s) ∧
          r = Date (Year (Date (Year s) month 1)) (Month (Date (Year s) month 1)) d) →
        ∃ yr m d, m ∈ month :: rest ∧ lo ≤ m ∧ d ∈ mDays ∧ d ≤ daysIn m yr ∧
          absDate r = (yr, m, d) ∧ (mDays.Sorted (fun a b => a < b) → yr = Year s) := by
      rintro r hl ⟨d, hd, hfit, hr⟩
      rw [f1, f2] at hr
      refine ⟨Year s, month, d, List.mem_cons_self _ _, hl, hd, hfit, ?_, fun _ => rfl⟩
      rw [hr]
      exact absDate_timeDate (Year s) month d hmonth.1 hmonth.2 (hD d hd).1 hfit
    unfold ruleMwithMonth.loop
    split
    next heq =>
      have hl : lo ≤ month := by
        rcases hlo with h | h
        · omega
        · exact h month (List.mem_cons_self _ _)
      simp only
      rw [f4]
      split
      next r hr =>
        right
        exact hfound r hl (ruleMwithMonth_sameMonth_found_inv _ _ mDays hDs _ (Or.inl rfl) r hr)
      next s2 hr =>
        refine hgo s2 hl (fun hs => ?_)
        have := ruleMwithMonth_sameMonth_goOn_year (Year s) month (daysIn month (Year s))
          hmonth.1 hroom mDays hs h31 0 le_rfl (by omega) (fun d _ h => by omega) s2
        rw [add_zero] at this
        exact this hr
    next hne =>
      split
      next hgt =>
        have hl : lo ≤ month := by
          rcases hlo with h | h
          · omega
          · exact h month (List.mem_cons_self _ _)
        simp only
        rw [f4]
        split
        next r hr =>
          right
          exact hfound r hl
            (ruleMwithMonth_laterMonth_found_inv _ _ mDays hDs _ (Or.inl rfl) r hr)
        next s2 hr =>
          refine hgo s2 hl (fun hs => ?_)
          have := ruleMwithMonth_laterMonth_goOn_year (Year s) month (daysIn month (Year s))
            hmonth.1 hroom mDays hs h31 0 le_rfl (by omega) (fun d _ h => by omega) s2
          rw [add_zero] at this
          exact this hr
      next hle =>
        exact lift s (ih hrestS hrest s lo
          (hlo.imp id (fun h m hm => h m (List.mem_cons_of_mem _ hm)))) rfl

/-- Shape of a date returned by `ruleMwithMonth`, for day and month lists sorted ascending
and in range: a date other than the zero date is in a listed month not earlier than the
month of the start date and on a listed day; it is in the year of the start date when the
day list is strictly ascending. -/
theorem ruleMwithMonth_shape (startdate : Int) (mDays mMonths : List Int)
    (hD : ∀ d ∈ mDays, 1 ≤ d ∧ d ≤ 31) (hDs : mDays.Sorted (fun a b => a ≤ b))
    (hM : ∀ m ∈ mMonths, 1 ≤ m ∧ m ≤ 12) (hMs : mMonths.Sorted (fun a b => a ≤ b))
    (hnz : ruleMwithMonth startdate mDays mMonths ≠ 0) :
    Month (ruleMwithMonth startdate mDays mMonths) ∈ mMonths ∧
      Month startdate ≤ Month (ruleMwithMonth startdate mDays mMonths) ∧
      Day (ruleMwithMonth startdate mDays mMonths) ∈ mDays ∧
      Day (ruleMwithMonth startdate mDays mMonths) ≤
        daysIn (Month (ruleMwithMonth startdate mDays mMonths))
          (Year (ruleMwithMonth startdate mDays mMonths)) ∧
      (mDays.Sorted (fun a b => a < b) →
        Year (ruleMwithMonth startdate mDays mMonths) = Year startdate) := by
  unfold ruleMwithMonth at hnz ⊢
  rcases ruleMwithMonth_loop_shape mDays hDs hD mMonths hMs hM startdate (Month startdate)
    (Or.inl le_rfl) with h | ⟨yr, m, d, h1, h2, h3, h4, h5, h6⟩
  · exact absurd h hnz
  · have hy : Year (ruleMwithMonth.loop mDays mMonths startdate) = yr :=
      congrArg (fun p => p.1) h5
    have hm : Month (ruleMwithMonth.loop mDays mMonths startdate) = m :=
      congrArg (fun p => p.2.1) h5
    have hd : Day (ruleMwithMonth.loop mDays mMonths startdate) = d :=
      congrArg (fun p => p.2.2) h5
    rw [hy, hm, hd]
    exact ⟨h1, h2, h3, h4, h6⟩

/-- C21, the code at the failing input: the day list [31, 31] and the month list [11, 12]
are sorted ascending and in range, and from the start date 10 November 2023
`ruleMwithMonth` returns 31 December 2024, a date that is not the zero date and not in the
year of the start date: in November each of the two days 31 is compared with the 30 days
of November and moves the working start date one month on, to 1 January 2024, and
December is then searched in 2024. The date 31 December 2023 is after the start date, in a
listed month and on a listed day, and it is what the same call returns for the day list
[31]. The rule "m 31,31 11,12" is accepted by the parser and reaches this call. -/
theorem ruleMwithMonth_year_leak :
    (∀ d ∈ [(31 : Int), 31], 1 ≤ d ∧ d ≤ 31) ∧
      [(31 : Int), 31].Sorted (fun a b => a ≤ b) ∧
      (∀ m ∈ [(11 : Int), 12], 1 ≤ m ∧ m ≤ 12) ∧
      [(11 : Int), 12].Sorted (fun a b => a ≤ b) ∧
      ruleMwithMonth (timeDate 2023 11 10) [31, 31] [11, 12] = timeDate 2024 12 31 ∧
      ruleMwithMonth (timeDate 2023 11 10) [31, 31] [11, 12] ≠ 0 ∧
      Year (ruleMwithMonth (timeDate 2023 11 10) [31, 31] [11, 12]) = 2024 ∧
      Year (timeDate 2023 11 10) = 2023 ∧
      ¬(Year (ruleMwithMonth (timeDate 2023 11 10) [31, 31] [11, 12]) =
        Year (timeDate 2023 11 10)) ∧
      (timeDate 2023 11 10 < timeDate 2023 12 31 ∧ (31 : Int) ≤ daysIn 12 2023 ∧
        ruleMwithMonth (timeDate 2023 11 10) [31] [11, 12] = timeDate 2023 12 31) ∧
      ParseRepeat (timeDate 2023 11 10) (timeDate 2023 1 1) "m 31,31 11,12".toList =
        .ok (.m { mDays := [31, 31], mMonths := [11, 12] }) ∧
      startDateForMWrule (timeDate 2023 11 10) (timeDate 2023 1 1) = timeDate 2023 11 10 ∧
      MRepeat.GetNextDate { mDays := [31, 31], mMonths := [11, 12] } (timeDate 2023 11 10)
        (timeDate 2023 1 1) = .ok (timeDate 2024 12 31) := by
  have hstart : startDateForMWrule (timeDate 2023 11 10) (timeDate 2023 1 1) =
      timeDate 2023 11 10 := by decide
  have hdays : sortInts [31, 31] = [31, 31] := by decide
  have hmonths : sortInts [11, 12] = [11, 12] := by decide
  have hres : ruleMwithMonth (timeDate 2023 11 10) [31, 31] [11, 12] =
      timeDate 2024 12 31 := by decide
  refine ⟨by decide, by decide, by decide, by decide, hres, by decide, by decide,
    by decide, by decide, ⟨by decide, by decide, by decide⟩, by decide, hstart, ?_⟩
  rw [MRepeat_GetNextDate_months [31, 31] [11, 12] _ _ (by decide), hstart, hdays, hmonths,
    hres]

/-- An instance of `ruleMwithMonth_shape`: from the start date 10 February 2023 with the
days [29, 30, 31] and the months [2, 5], three shifts of the working start date happen in
February and the returned date, 29 May 2023, is in a listed month, on a listed day and in
the year of the start date. -/
theorem ruleMwithMonth_shape_instance :
    [(29 : Int), 30, 31].Sorted (fun a b => a < b) ∧
      ruleMwithMonth (timeDate 2023 2 10) [29, 30, 31] [2, 5] = timeDate 2023 5 29 ∧
      (Month (ruleMwithMonth (timeDate 2023 2 10) [29, 30, 31] [2, 5]) ∈ [(2 : Int), 5] ∧
      Month (timeDate 2023 2 10) ≤
        Month (ruleMwithMonth (timeDate 2023 2 10) [29, 30, 31] [2, 5]) ∧
      Day (ruleMwithMonth (timeDate 2023 2 10) [29, 30, 31] [2, 5]) ∈ [(29 : Int), 30, 31] ∧
      Day (ruleMwithMonth (timeDate 2023 2 10) [29, 30, 31] [2, 5]) ≤
        daysIn (Month (ruleMwithMonth (timeDate 2023 2 10) [29, 30, 31] [2, 5]))
          (Year (ruleMwithMonth (timeDate 2023 2 10) [29, 30, 31] [2, 5])) ∧
      ([(29 : Int), 30, 31].Sorted (fun a b => a < b) →
        Year (ruleMwithMonth (timeDate 2023 2 10) [29, 30, 31] [2, 5]) =
          Year (timeDate 2023 2 10))) :=
  ⟨by decide, by decide,
    ruleMwithMonth_shape (timeDate 2023 2 10) [29, 30, 31] [2, 5] (by decide)
      (by decide) (by decide) (by decide) (by decide)⟩

end GoFinalProject
